import Mathlib

/-!
# HeapAnalysis: constraint solver facade, analysis context and driver

A shallow embedding of `src/src/constraint2.cpp` (the `ConstraintSolver` member
functions) and of `src/src/analysis.cpp`: the summary driver
(`AnalyzeFunctionAux`, `AnalyzeFunctionRecursive`, `AnalyzeFunction`), the
constructor of `AnalysisContext`, `InitializeExecution`, `BuildResultStore` and
`ExportRAWDependency`, with the properties of the specification that concern
them.

Conventions.
* C++ `int` indices of inputs are natural numbers; every statement about an
  index assumes it in range (`i < num_inputs_`), and `i * num_inputs_ + j` is
  computed without wrap-around (it stays within `int` for fewer than 46341
  inputs).
* `std::vector<bool>` is a `List Bool`; a read outside the table (undefined
  behaviour in C++) yields `false` and a write outside it does nothing. The
  theorems assume the table has its `n * n` cells.
* The z3 session is the list of the assertions handed to `solver.add`, oldest
  first. The satisfiability backend itself is a parameter.
* A map (`std::map`, `std::unordered_map`) is an association list with unique
  keys, in insertion order; a loop over a map visits it in that order. An
  exception (`at` on a missing key) is the result `none`.
-/

namespace mh

/-! ## Constraint terms -/

/-- Atomic z3 terms built by the solver facade over the input-location
variables: `input_loc_vars_[a] != input_loc_vars_[b]` and
`input_loc_vars_[a] == input_loc_vars_[b]`. -/
inductive LocAtom where
  | ne (a b : Nat)
  | eq (a b : Nat)
  deriving DecidableEq, Repr

/-- The z3 terms that `constraint2.cpp` constructs: one atom (the argument of
`solver.add`) or `z3::mk_and` of a buffer of atoms. -/
inductive Z3Expr where
  | atom (a : LocAtom)
  | mk_and (buf : List LocAtom)
  deriving DecidableEq, Repr

/-- Modelled from the spec: the constraint object of `constraint2.h`, which is
not part of the sources. The spec gives it three states, `Bottom`, `Top` and
`Expr{may, must}`; `hasMay` is the answer of `HasMayExpr()`, `may` the value of
`GetMayExpr()` and `must` the value of `GetMustExpr()`. -/
inductive Constraint (E : Type) where
  | Bottom
  | Top
  | Expr (hasMay : Bool) (may must : E)
  deriving DecidableEq, Repr

namespace Constraint

variable {E : Type}

/-- The C++ test `IsBottomLiteral()`. -/
def IsBottomLiteral : Constraint E → Bool
  | Bottom => true
  | _ => false

/-- The C++ test `IsTopLiteral()`. -/
def IsTopLiteral : Constraint E → Bool
  | Top => true
  | _ => false

/-- The C++ test `IsExpr()`. -/
def IsExpr : Constraint E → Bool
  | Expr _ _ _ => true
  | _ => false

/-- The C++ constructor `Constraint{bool}`: `Constraint{false}` is the Bottom
literal and `Constraint{true}` the Top literal. -/
def ofBool (b : Bool) : Constraint E :=
  if b then Top else Bottom

/-- The C++ constructor `Constraint{Z3_ast}`: an exact expression, whose may-
and must-part are both the given term. -/
def ofAst (e : E) : Constraint E :=
  Expr false e e

end Constraint

/-- State of `ConstraintSolver` that the alias functions read and write. -/
structure ConstraintSolver where
  num_inputs_ : Nat
  alias_rej_list_ : List Bool
  solver : List Z3Expr
  deriving DecidableEq, Repr

namespace ConstraintSolver

/-- Modelled from the spec: the constructor `ConstraintSolver(num_inputs)` of
`constraint2.h`, which is not part of the sources: an `n * n` bit table with
every bit clear (the only start from which `RejectAlias` records anything) and
a backend session without assertions. -/
def create (n : Nat) : ConstraintSolver :=
  { num_inputs_ := n, alias_rej_list_ := List.replicate (n * n) false, solver := [] }

/-- The table has its `n * n` cells. -/
def WellFormed (s : ConstraintSolver) : Prop :=
  s.alias_rej_list_.length = s.num_inputs_ * s.num_inputs_

instance (s : ConstraintSolver) : Decidable s.WellFormed := by
  unfold WellFormed; infer_instance

/-- Cell of the unordered pair after the `std::swap` of both alias functions. -/
def cell (s : ConstraintSolver) (i j : Nat) : Nat :=
  if i > j then j * s.num_inputs_ + i else i * s.num_inputs_ + j

/-- Function `ConstraintSolver::TestAlias`: swaps the arguments into ascending order and
returns the bit of the pair. -/
def TestAlias (s : ConstraintSolver) (i j : Nat) : Bool :=
  s.alias_rej_list_.getD (s.cell i j) false

/-- Function `ConstraintSolver::RejectAlias`. `none` is the failure of `assert(i != j)`.
After the swap, a clear bit makes the call assert the disequality to the
backend and set the bit; a set bit makes it do nothing. -/
def RejectAlias (s : ConstraintSolver) (i j : Nat) : Option ConstraintSolver :=
  if i = j then none
  else
    let a := if i > j then j else i
    let b := if i > j then i else j
    if !s.alias_rej_list_.getD (a * s.num_inputs_ + b) false then
      some { s with
        solver := s.solver ++ [Z3Expr.atom (LocAtom.ne a b)]
        alias_rej_list_ := s.alias_rej_list_.set (a * s.num_inputs_ + b) true }
    else some s

/-- The `for (int k = 0; k < j; ++k)` loop of `MakeAliasConstraint`: the buffer
after the loop. -/
def aliasLoop (s : ConstraintSolver) (i j : Nat) : List LocAtom :=
  (List.range j).foldl
    (fun buf k => if !s.TestAlias k i then buf ++ [LocAtom.ne k i] else buf) []

/-- Function `ConstraintSolver::MakeAliasConstraint`: Bottom when `TestAlias(j, i)`
is false; otherwise the conjunction of the buffer filled by the loop and, for
`i != j`, of the equality, or Top when the buffer is empty. -/
def MakeAliasConstraint (s : ConstraintSolver) (i j : Nat) : Constraint Z3Expr :=
  if !s.TestAlias j i then Constraint.ofBool false
  else
    let buf := s.aliasLoop i j
    let buf := if i != j then buf ++ [LocAtom.eq j i] else buf
    if buf.isEmpty then Constraint.ofBool true
    else Constraint.ofAst (Z3Expr.mk_and buf)

/-- Conjuncts of an alias constraint when the inequalities are taken for the
`k < j` selected by `keep`: these inequalities in ascending `k`, then the
equality `x_j = x_i` when `i != j`. -/
def aliasConjuncts (keep : Nat → Bool) (i j : Nat) : List LocAtom :=
  ((List.range j).filter keep).map (fun k => LocAtom.ne k i)
    ++ (if i = j then [] else [LocAtom.eq j i])

/-- The conjunction of a list of conjuncts as a constraint: the Top literal for
no conjunct, the exact expression `mk_and` otherwise. -/
def conjunction (buf : List LocAtom) : Constraint Z3Expr :=
  if buf = [] then Constraint.Top else Constraint.ofAst (Z3Expr.mk_and buf)

/-- The result that the specification words give to `MakeAliasConstraint` when
it is not Bottom: the inequalities are those of the `k < j` for which
`TestAlias(k, i)` is true. -/
def MakeAliasConstraint_spec (s : ConstraintSolver) (i j : Nat) : Constraint Z3Expr :=
  conjunction (aliasConjuncts (fun k => s.TestAlias k i) i j)

end ConstraintSolver

/-! ## The solver facade: queries -/

section Queries

variable {E : Type}

/-- Function `ConstraintSolver::TestSatisfiability`; the parameter is the backend query
`TestSatisfiablityAux`. -/
def TestSatisfiability (TestSatisfiablityAux : E → Bool) : Constraint E → Bool
  | .Bottom => false
  | .Top => true
  | .Expr _ may _ => TestSatisfiablityAux may

/-- Function `ConstraintSolver::TestValidity`; the parameter is the backend query
`TestValidityAux`. -/
def TestValidity (TestValidityAux : E → Bool) : Constraint E → Bool
  | .Bottom => false
  | .Top => true
  | .Expr _ _ must => TestValidityAux must

/-- Function `ConstraintSolver::TestEquivalence`; the parameters are the three backend
queries. The first argument counts the activations the call may use: each
activation, the recursive one on the swapped arguments included, takes one,
and `none` means that they ran out. -/
def TestEquivalence (satAux validAux : E → Bool) (equivAux : E → E → Bool) :
    Nat → Constraint E → Constraint E → Option Bool
  | 0, _, _ => none
  | depth + 1, c0, c1 =>
    if c0.IsBottomLiteral then
      some (c1.IsBottomLiteral || !TestSatisfiability satAux c1)
    else if c0.IsTopLiteral then
      some (c1.IsTopLiteral || TestValidity validAux c1)
    else if !c1.IsExpr then
      TestEquivalence satAux validAux equivAux depth c1 c0
    else
      match c0, c1 with
      | .Expr hm0 may0 must0, .Expr hm1 may1 must1 =>
        if hm0 != hm1 then some false
        else if !hm0 then some (equivAux must0 must1)
        else some (equivAux may0 may1 && equivAux must0 must1)
      | _, _ => none

end Queries

/-! ## The inter-procedural driver -/

/-- Identity of a function (`const llvm::Function*`). -/
abbrev FuncId := Nat

/-- The fields of `FunctionSummary` that the driver reads and writes. The field
`func` is the key under which the environment holds the summary. -/
structure FunctionSummary (Store : Type) where
  called_functions : List (Option FuncId)
  store : Store
  converged : Bool

/-- The summary environment: `LookupSummary(f)` is application to `f`. -/
abbrev SummaryEnvironment (Store : Type) := FuncId → FunctionSummary Store

/-- Assignment through the reference that `LookupSummary` returns. -/
def SummaryEnvironment.set {Store : Type} (env : SummaryEnvironment Store) (f : FuncId)
    (s : FunctionSummary Store) : SummaryEnvironment Store :=
  fun g => if g = f then s else env g

/-- What the driver uses without defining it. `doesNotRecurse` is the LLVM
attribute of a function; `empty` is `AbstractStore::empty`; `EqualAbstractStore`
is the store comparison under the solver of the analysed function;
`ExportResultStore env f` is the result store that one pass over `f` (analysis
context, block worklist, `BuildResultStore`) builds from the summaries of
`env`; `NotifyUse` is the bookkeeping call of the environment. -/
structure Analysis (Store : Type) where
  doesNotRecurse : FuncId → Bool
  empty : Store → Bool
  EqualAbstractStore : FuncId → Store → Store → Bool
  ExportResultStore : SummaryEnvironment Store → FuncId → Store
  NotifyUse : SummaryEnvironment Store → Option FuncId → SummaryEnvironment Store

/-- How an activation of the driver ends: it returns, an `assert` fails, or the
activations and loop iterations allowed to it ran out. -/
inductive Outcome (α : Type) where
  | ret (a : α)
  | assertion_failed
  | out_of_fuel

/-- Function `AnalyzeFunctionAux`: one pass over `f`; the convergence decision after
`BuildResultStore`, then `summary.store = ExportResultStore()`. -/
def AnalyzeFunctionAux {Store : Type} (A : Analysis Store) (env : SummaryEnvironment Store)
    (f : FuncId) (dependencies_converged : Bool) : SummaryEnvironment Store :=
  let summary := env f
  if summary.converged then env
  else
    let result := A.ExportResultStore env f
    let converged :=
      if A.empty summary.store || !A.EqualAbstractStore f summary.store result then
        (if dependencies_converged then true else summary.converged)
      else true
    env.set f { summary with converged := converged, store := result }

/-- First loop of `AnalyzeFunctionRecursive`, over `summary.called_functions`:
skips null callees, analyses to convergence the callees with `doesNotRecurse`
that are not converged and asserts that they are converged, and collects the
other callees in `recursive_summaries`. `call` is `AnalyzeFunctionRecursive`. -/
def collectCallees {Store : Type} (A : Analysis Store)
    (call : SummaryEnvironment Store → FuncId → Finset FuncId → Bool →
      Outcome (SummaryEnvironment Store × Finset FuncId)) :
    List (Option FuncId) → SummaryEnvironment Store → Finset FuncId → List FuncId →
      Outcome (SummaryEnvironment Store × Finset FuncId × List FuncId)
  | [], env, analysis_history, recursive_summaries =>
    .ret (env, analysis_history, recursive_summaries)
  | none :: rest, env, analysis_history, recursive_summaries =>
    collectCallees A call rest env analysis_history recursive_summaries
  | some g :: rest, env, analysis_history, recursive_summaries =>
    if A.doesNotRecurse g then
      if !(env g).converged then
        match call env g analysis_history true with
        | .ret (env1, history1) =>
          if (env1 g).converged then collectCallees A call rest env1 history1 recursive_summaries
          else .assertion_failed
        | .assertion_failed => .assertion_failed
        | .out_of_fuel => .out_of_fuel
      else collectCallees A call rest env analysis_history recursive_summaries
    else collectCallees A call rest env analysis_history (recursive_summaries ++ [g])

/-- The `for` loop inside the do-while loop: one pass over every callee of
`recursive_summaries` that is not converged; returns `dep_converged` too. -/
def analyzeRecursiveCallees {Store : Type}
    (call : SummaryEnvironment Store → FuncId → Finset FuncId → Bool →
      Outcome (SummaryEnvironment Store × Finset FuncId)) :
    List FuncId → SummaryEnvironment Store → Finset FuncId → Bool →
      Outcome (SummaryEnvironment Store × Finset FuncId × Bool)
  | [], env, analysis_history, dep_converged => .ret (env, analysis_history, dep_converged)
  | g :: rest, env, analysis_history, dep_converged =>
    if !(env g).converged then
      match call env g analysis_history false with
      | .ret (env1, history1) =>
        analyzeRecursiveCallees call rest env1 history1 (dep_converged && (env1 g).converged)
      | .assertion_failed => .assertion_failed
      | .out_of_fuel => .out_of_fuel
    else
      analyzeRecursiveCallees call rest env analysis_history (dep_converged && (env g).converged)

/-- The do-while loop of `AnalyzeFunctionRecursive`; the first argument bounds
the number of its iterations. -/
def convergeLoop {Store : Type} (A : Analysis Store)
    (call : SummaryEnvironment Store → FuncId → Finset FuncId → Bool →
      Outcome (SummaryEnvironment Store × Finset FuncId))
    (f : FuncId) (recursive_summaries : List FuncId) (expect_converge : Bool) :
    Nat → SummaryEnvironment Store → Finset FuncId →
      Outcome (SummaryEnvironment Store × Finset FuncId)
  | 0, _, _ => .out_of_fuel
  | iterations + 1, env, analysis_history =>
    match analyzeRecursiveCallees call recursive_summaries env analysis_history true with
    | .ret (env1, history1, dep_converged) =>
      let env2 := AnalyzeFunctionAux A env1 f dep_converged
      if expect_converge && !(env2 f).converged then
        convergeLoop A call f recursive_summaries expect_converge iterations env2 history1
      else .ret (env2, history1)
    | .assertion_failed => .assertion_failed
    | .out_of_fuel => .out_of_fuel

/-- Function `AnalyzeFunctionRecursive`. The first argument bounds the depth of nested
activations and, in each activation, the iterations of its do-while loop. -/
def AnalyzeFunctionRecursive {Store : Type} (A : Analysis Store) :
    Nat → SummaryEnvironment Store → FuncId → Finset FuncId → Bool →
      Outcome (SummaryEnvironment Store × Finset FuncId)
  | 0, _, _, _, _ => .out_of_fuel
  | fuel + 1, env, f, analysis_history, expect_converge =>
    if f ∈ analysis_history then .ret (env, analysis_history)
    else
      match collectCallees A (AnalyzeFunctionRecursive A fuel) (env f).called_functions env
          analysis_history [] with
      | .ret (env1, history1, recursive_summaries) =>
        match convergeLoop A (AnalyzeFunctionRecursive A fuel) f recursive_summaries
            expect_converge fuel env1 (insert f history1) with
        | .ret (env2, history2) => .ret (env2, history2.erase f)
        | .assertion_failed => .assertion_failed
        | .out_of_fuel => .out_of_fuel
      | .assertion_failed => .assertion_failed
      | .out_of_fuel => .out_of_fuel

/-- Function `AnalyzeFunction`: nothing for a converged summary; otherwise the driver
with an empty call chain and `expect_converge = true`, then `NotifyUse` for
every called function. -/
def AnalyzeFunction {Store : Type} (A : Analysis Store) (fuel : Nat)
    (env : SummaryEnvironment Store) (f : FuncId) : Outcome (SummaryEnvironment Store) :=
  if (env f).converged then .ret env
  else
    match AnalyzeFunctionRecursive A fuel env f ∅ true with
    | .ret (env1, _) => .ret ((env1 f).called_functions.foldl A.NotifyUse env1)
    | .assertion_failed => .assertion_failed
    | .out_of_fuel => .out_of_fuel

/-- The environment of an `Outcome` that returned. -/
def Outcome.value? {α : Type} : Outcome α → Option α
  | .ret a => some a
  | _ => none

/-! ## Example programs for the driver -/

/-- A pass model over stores that are lists of edge labels, with no function
marked `doesNotRecurse`, store equality as list equality, and the result store
of each pass given by `result`. -/
def listAnalysis (result : SummaryEnvironment (List Nat) → FuncId → List Nat) :
    Analysis (List Nat) :=
  { doesNotRecurse := fun _ => false
    empty := fun st => st.isEmpty
    EqualAbstractStore := fun _ a b => a == b
    ExportResultStore := result
    NotifyUse := fun env _ => env }

/-- Fresh summaries of the mutually recursive pair `f -> g -> f`, with `f` the
function 0 and `g` the function 1: empty stores, nothing converged. -/
def pairEnv : SummaryEnvironment (List Nat) :=
  fun f => { called_functions := if f = 0 then [some 1] else [some 0], store := [],
             converged := false }

/-- Result stores for the pair: every pass over `f` builds the store `[1]`;
a pass over `g` builds the store of the current summary of `f` extended by
the edge 2. -/
def pairResult (env : SummaryEnvironment (List Nat)) (f : FuncId) : List Nat :=
  if f = 0 then [1] else (env 0).store ++ [2]

/-- Fresh summary of a self-recursive function 0 (it calls itself only). -/
def selfEnv : SummaryEnvironment (List Nat) :=
  fun _ => { called_functions := [some 0], store := [], converged := false }

/-- Result stores of a function that has no points-to edge: every pass builds
the empty store. -/
def emptyResult (_ : SummaryEnvironment (List Nat)) (_ : FuncId) : List Nat := []

/-- Summary of the self-recursive function 0 after a pass that built the
store `[1]`: not converged, previous store `[1]`. -/
def onePassEnv : SummaryEnvironment (List Nat) :=
  selfEnv.set 0 { called_functions := [some 0], store := [1], converged := false }

/-! ## Maps as association lists -/

namespace Assoc

variable {K V : Type} [DecidableEq K]

/-- Lookup of a key (`find`, `at`): the value of the first entry with the key. -/
def find : List (K × V) → K → Option V
  | [], _ => none
  | (k1, v) :: rest, k => if k1 = k then some v else find rest k

/-- Assignment `m[k] = v`: replaces the value of an existing key, adds the
entry otherwise. -/
def assign : List (K × V) → K → V → List (K × V)
  | [], k, v => [(k, v)]
  | (k1, v1) :: rest, k, v => if k1 = k then (k, v) :: rest else (k1, v1) :: assign rest k v

/-- Member function `insert` of a map: adds the entry unless the key is present. -/
def insertNew (m : List (K × V)) (k : K) (v : V) : List (K × V) :=
  match find m k with
  | some _ => m
  | none => m ++ [(k, v)]

/-- The keys of a map. -/
def keys (m : List (K × V)) : List K := m.map Prod.fst

end Assoc

/-! ## Abstract locations and the entry state -/

/-- Identity of an `llvm::Value` (argument, global variable, instruction). -/
abbrev ValueId := Nat

/-- Tags of `AbstractLocation` with their payload: `FromRegister(v)`,
the allocation sites, `FromRuntimeMemory(arg, k)` and `FromProgramValue(v)`. -/
inductive AbstractLocation where
  | Register (definition : ValueId)
  | Stack (definition : ValueId)
  | Heap (definition : ValueId)
  | RuntimeMemory (arg : ValueId) (k : Nat)
  | ProgramValue (definition : ValueId)
  deriving DecidableEq, Repr

/-- The test `loc.Tag() == LocationTag::Register`. -/
def AbstractLocation.isRegister : AbstractLocation → Bool
  | .Register _ => true
  | _ => false

/-- A points-to map: target location to constraint. -/
abbrev PointToMap (C : Type) := List (AbstractLocation × C)

/-- An abstract store: location to points-to map. -/
abbrev AbstractStore (C : Type) := List (AbstractLocation × PointToMap C)

/-- The register file: SSA value to points-to map. -/
abbrev AbstractRegFile (C : Type) := List (ValueId × PointToMap C)

/-- What the constructor of `AnalysisContext` reads of an input of the
function: the value, its `getType()` (types are unique objects, compared by
identity), `isPointerTy()` of that type, `GetPointerNestLevel` of that type and
`isa<GlobalVariable>`. -/
structure InputValue where
  value : ValueId
  type : Nat
  isPointerTy : Bool
  ptr_nest_level : Nat
  isGlobalVariable : Bool
  deriving DecidableEq, Repr, Inhabited

/-- The if-else chain of the rejection loop for the pair `(arg_i, arg_j)`: true
when one of its four branches, each of which calls `RejectAlias(i, j)`, is
taken. -/
def rejectsAlias (arg_i arg_j : InputValue) : Bool :=
  if !arg_i.isPointerTy || !arg_j.isPointerTy then true
  else if arg_i.ptr_nest_level != arg_j.ptr_nest_level then true
  else if arg_i.isGlobalVariable && arg_j.isGlobalVariable then true
  else if arg_i.type != arg_j.type then true
  else false

/-- The calls `RejectAlias(i, j)` that the nested loops
`for i < inputs.size()`, `for j < i` of the constructor issue, in order. -/
def rejectionCalls (inputs : List InputValue) : List (Nat × Nat) :=
  (List.range inputs.length).flatMap (fun i =>
    ((List.range i).filter (fun j =>
      rejectsAlias (inputs.getD i default) (inputs.getD j default))).map (fun j => (i, j)))

/-- The solver after a sequence of `RejectAlias` calls; `none` when an
assertion failed. -/
def applyRejections : List (Nat × Nat) → ConstraintSolver → Option ConstraintSolver
  | [], s => some s
  | (i, j) :: rest, s =>
    match s.RejectAlias i j with
    | some s1 => applyRejections rest s1
    | none => none

/-- The loop `for k < ptr_level_i` of the constructor: every step assigns
`entry_store_[RuntimeMemory(arg, k)] = {RuntimeMemory(arg, k + 1) : Top}`. -/
def chainEdges (arg : ValueId) (ptr_level : Nat)
    (store : AbstractStore (Constraint Z3Expr)) : AbstractStore (Constraint Z3Expr) :=
  (List.range ptr_level).foldl
    (fun st k => Assoc.assign st (AbstractLocation.RuntimeMemory arg k)
      [(AbstractLocation.RuntimeMemory arg (k + 1), Constraint.ofBool true)]) store

/-- Body of the loop `for j < i` that adds the edges under aliased conditions:
`entry_store_[loc_i].insert({RuntimeMemory(inputs[j], 0), MakeAliasConstraint(i, j)})`
when `TestAlias(i, j)`. -/
def aliasEdgeStep (s : ConstraintSolver) (inputs : List InputValue) (i : Nat)
    (store : AbstractStore (Constraint Z3Expr)) (j : Nat) :
    AbstractStore (Constraint Z3Expr) :=
  if s.TestAlias i j then
    Assoc.assign store (AbstractLocation.Register (inputs.getD i default).value)
      (Assoc.insertNew
        ((Assoc.find store (AbstractLocation.Register (inputs.getD i default).value)).getD [])
        (AbstractLocation.RuntimeMemory (inputs.getD j default).value 0)
        (s.MakeAliasConstraint i j))
  else store

/-- The loop `for j < i` that adds the edges under aliased conditions. -/
def aliasEdges (s : ConstraintSolver) (inputs : List InputValue) (i : Nat)
    (store : AbstractStore (Constraint Z3Expr)) : AbstractStore (Constraint Z3Expr) :=
  (List.range i).foldl (aliasEdgeStep s inputs i) store

/-- Effect of one step of the alias loop on the points-to map of `loc_i`. -/
def regEntryStep (s : ConstraintSolver) (inputs : List InputValue) (i : Nat)
    (pt_map : PointToMap (Constraint Z3Expr)) (j : Nat) : PointToMap (Constraint Z3Expr) :=
  if s.TestAlias i j then
    Assoc.insertNew pt_map (AbstractLocation.RuntimeMemory (inputs.getD j default).value 0)
      (s.MakeAliasConstraint i j)
  else pt_map

/-- The register-file entry of input `i` as the specification describes it: the
self edge to `RuntimeMemory(arg_i, 0)` with `MakeAliasConstraint(i, i)`, then
the edge to `RuntimeMemory(arg_j, 0)` with `MakeAliasConstraint(i, j)` for every
`j < i` with `TestAlias(i, j)` true. -/
def regEntry (s : ConstraintSolver) (inputs : List InputValue) (i : Nat) :
    PointToMap (Constraint Z3Expr) :=
  (AbstractLocation.RuntimeMemory (inputs.getD i default).value 0, s.MakeAliasConstraint i i) ::
    ((List.range i).filter (fun j => s.TestAlias i j)).map (fun j =>
      (AbstractLocation.RuntimeMemory (inputs.getD j default).value 0,
        s.MakeAliasConstraint i j))

/-- One iteration of the loop that initialises the entry store, for input `i`. -/
def entryStep (s : ConstraintSolver) (inputs : List InputValue)
    (store : AbstractStore (Constraint Z3Expr)) (i : Nat) :
    AbstractStore (Constraint Z3Expr) :=
  let arg_i := inputs.getD i default
  let store1 := Assoc.assign store (AbstractLocation.Register arg_i.value)
    [(AbstractLocation.RuntimeMemory arg_i.value 0, s.MakeAliasConstraint i i)]
  let store2 := chainEdges arg_i.value arg_i.ptr_nest_level store1
  aliasEdges s inputs i store2

/-- The entry store before the register entries are moved out. -/
def buildEntryStore (s : ConstraintSolver) (inputs : List InputValue) :
    AbstractStore (Constraint Z3Expr) :=
  (List.range inputs.length).foldl (entryStep s inputs) []

/-- The last loop of the constructor, on the register file: every entry of the
entry store with tag `Register` is assigned to `regfile_[Definition()]`. -/
def moveToRegFile {C : Type} :
    AbstractStore C → AbstractRegFile C → AbstractRegFile C
  | [], regfile => regfile
  | (AbstractLocation.Register v, pt_map) :: rest, regfile =>
    moveToRegFile rest (Assoc.assign regfile v pt_map)
  | _ :: rest, regfile => moveToRegFile rest regfile

/-- The state that the constructor of `AnalysisContext` builds. -/
structure EntryState where
  smt_solver_ : ConstraintSolver
  entry_store_ : AbstractStore (Constraint Z3Expr)
  regfile_ : AbstractRegFile (Constraint Z3Expr)
  deriving Repr

/-- The constructor `AnalysisContext::AnalysisContext` on the inputs of the
summary: alias rejections on a fresh solver, the entry store, then the move of
the register entries to the register file (the entry store keeps the others).
`none` is the failure of the assertion of `RejectAlias`. -/
def AnalysisContext_create (inputs : List InputValue) : Option EntryState :=
  match applyRejections (rejectionCalls inputs) (ConstraintSolver.create inputs.length) with
  | none => none
  | some s =>
    let store := buildEntryStore s inputs
    some { smt_solver_ := s
           entry_store_ := store.filter (fun e => !e.1.isRegister)
           regfile_ := moveToRegFile store [] }

/-- The locations that the entry state mentions: the keys and the targets of
the entry store, and the targets of the register file. -/
def EntryState.locations (st : EntryState) : List AbstractLocation :=
  Assoc.keys st.entry_store_ ++ st.entry_store_.flatMap (fun e => Assoc.keys e.2)
    ++ st.regfile_.flatMap (fun e => Assoc.keys e.2)

/-- Summary of the self-recursive function 0 once converged, with store `[1]`. -/
def convergedEnv : SummaryEnvironment (List Nat) :=
  selfEnv.set 0 { called_functions := [some 0], store := [1], converged := true }

/-! ## Block stores of the analysis context -/

/-- Identity of a basic block. -/
abbrev BlockId := Nat

/-- Modelled from the spec: `NormalizeStore` of the store library, which is not
part of the sources: simplifies every constraint, drops the targets whose
constraint is unsatisfiable and removes the keys whose points-to map is left
empty (targets are unique in a map, so there are no duplicates to collapse).
The parameters are the solver queries `Simplify` and `TestSatisfiability`. -/
def NormalizeStore {C : Type} (TestSat : C → Bool) (Simplify : C → C)
    (store : AbstractStore C) : AbstractStore C :=
  (store.map (fun e =>
    (e.1, (e.2.map (fun t => (t.1, Simplify t.2))).filter (fun t => TestSat t.2)))).filter
    (fun e => !e.2.isEmpty)

/-- Function `AnalysisContext::BuildResultStore`: the cached store of the last block
of the function (`none` when `at` finds no entry), then
`result[FromRegister(reg)] = pt_map` for every entry of the register file, then
`NormalizeStore`; the value is the new `result_store_`. -/
def BuildResultStore {C : Type} (TestSat : C → Bool) (Simplify : C → C)
    (exec_store_cache_ : BlockId → Option (AbstractStore C)) (last_block : BlockId)
    (regfile_ : AbstractRegFile C) : Option (AbstractStore C) :=
  match exec_store_cache_ last_block with
  | none => none
  | some cached =>
    some (NormalizeStore TestSat Simplify
      (regfile_.foldl (fun result e => Assoc.assign result (AbstractLocation.Register e.1) e.2)
        cached))

/-- Function `AnalysisContext::InitializeExecution`, the store it hands to the
execution: the loop over the predecessors with the lambda `merge_store`
(assignment while `bb_init_store` is empty, `MergeAbstractStore` afterwards)
for the predecessors that have a cached store, then the entry store when
`bb_init_store` is empty. The parameter is `MergeAbstractStore`. -/
def InitializeExecution {C : Type}
    (MergeAbstractStore : AbstractStore C → AbstractStore C → AbstractStore C)
    (predecessors : List BlockId) (exec_store_cache_ : BlockId → Option (AbstractStore C))
    (entry_store_ : AbstractStore C) : AbstractStore C :=
  let bb_init_store := predecessors.foldl (fun acc pred_bb =>
    match exec_store_cache_ pred_bb with
    | some store => if acc.isEmpty then store else MergeAbstractStore acc store
    | none => acc) []
  if bb_init_store.isEmpty then entry_store_ else bb_init_store

/-! ## Read-after-write dependencies -/

/-- Identity of an instruction (load, store). -/
abbrev InstId := Nat

/-- Values of `ExecAfterCondition`. -/
inductive ExecAfterCondition where
  | Never
  | May
  | Must
  deriving DecidableEq, Repr

/-- What `ExportRAWDependency` reads: the execute-after relation of the control
flow information, the solver queries `TestSatisfiability` and
`TestImplication`, the constraint operators `&&` (`conj`) and `||` (`disj`), the
value-initialised constraint that `pdg_edges[...]` creates (`init`), the
register file, `TranslateAliasReg` and the pointer operand of an instruction.
The last field stands for the hash table behind the `unordered_map`
`dependencies`: for a load, a location, the store being scanned and the
entries of the map it selects the order in which the iteration from `begin()`
visits them (see `iterationOrder`); every function is allowed. -/
structure RAWContext (C : Type) where
  LookupExecAfterCondition : InstId → InstId → ExecAfterCondition
  TestSatisfiability : C → Bool
  TestImplication : C → C → Bool
  conj : C → C → C
  disj : C → C → C
  init : C
  regfile_ : AbstractRegFile C
  TranslateAliasReg : ValueId → ValueId
  getPointerOperand : InstId → ValueId
  iterationChoice : InstId → AbstractLocation → InstId → List (InstId × C) → Nat

/-- The entries of an `unordered_map` in the order in which an iteration visits
them. The order is unspecified: it can be any permutation of the entries, here
the one with the number `choice` in the list of all permutations (the entries
as they stand, for the number 0 and for a number beyond the list). -/
def iterationOrder {α : Type} (choice : Nat) (entries : List α) : List α :=
  (List.permutations' entries).getD choice entries

/-- Lookup of a key that returns the entry (the iterator of `find`). -/
def Assoc.findEntry {K V : Type} [DecidableEq K] : List (K × V) → K → Option (K × V)
  | [], _ => none
  | (k1, v) :: rest, k => if k1 = k then some (k1, v) else Assoc.findEntry rest k

/-- A loop over a list whose body may raise an exception (`none`). -/
def foldOpt {α β : Type} (f : β → α → Option β) : List α → β → Option β
  | [], b => some b
  | a :: rest, b =>
    match f b a with
    | none => none
    | some b1 => foldOpt f rest b1

/-- The loop over `dependencies` for the store `store_inst`: the entries not yet
visited, in the order in which the iteration visits them, and the entries kept
so far; returns the entries of the map after the loop and the flag
`store_overwritten`. An entry that `store_inst` overwrites is erased; at the
first entry that overwrites `store_inst` the loop breaks. -/
def killSweep {C : Type} (ctx : RAWContext C) (store_inst : InstId) (c_store_ptr : C) :
    List (InstId × C) → List (InstId × C) → List (InstId × C) × Bool
  | [], kept => (kept, false)
  | (dep_store_inst, c_dep_store_ptr) :: rest, kept =>
    if ctx.LookupExecAfterCondition dep_store_inst store_inst = ExecAfterCondition.Must &&
        ctx.TestImplication c_store_ptr c_dep_store_ptr then
      killSweep ctx store_inst c_store_ptr rest kept
    else if ctx.LookupExecAfterCondition store_inst dep_store_inst = ExecAfterCondition.Must &&
        ctx.TestImplication c_dep_store_ptr c_store_ptr then
      (kept ++ (dep_store_inst, c_dep_store_ptr) :: rest, true)
    else killSweep ctx store_inst c_store_ptr rest (kept ++ [(dep_store_inst, c_dep_store_ptr)])

/-- Body of the loop `for store_inst : stores` for one load and one location of
its pointer; `none` is the exception of `regfile_.at`. The loop over
`dependencies` visits the entries in the order that the hash table gives
them. -/
def scanStore {C : Type} (ctx : RAWContext C) (load_inst : InstId)
    (loc_load_ptr : AbstractLocation) (c_load_ptr : C) (dependencies : List (InstId × C))
    (store_inst : InstId) : Option (List (InstId × C)) :=
  if ctx.LookupExecAfterCondition store_inst load_inst = ExecAfterCondition.Never then
    some dependencies
  else
    match Assoc.find ctx.regfile_ (ctx.TranslateAliasReg (ctx.getPointerOperand store_inst)) with
    | none => none
    | some store_ptr_pt_map =>
      match Assoc.findEntry store_ptr_pt_map loc_load_ptr with
      | none => some dependencies
      | some (loc_store_ptr, c_store_ptr) =>
        if loc_load_ptr != loc_store_ptr &&
            !ctx.TestSatisfiability (ctx.conj c_load_ptr c_store_ptr) then
          some dependencies
        else
          let swept := killSweep ctx store_inst c_store_ptr
            (iterationOrder (ctx.iterationChoice load_inst loc_load_ptr store_inst dependencies)
              dependencies) []
          if !swept.2 then some (Assoc.assign swept.1 store_inst c_store_ptr)
          else some swept.1

/-- The candidate dependency set of one load and one location of its pointer:
the loop over all stores, from the empty map. -/
def candidateDependencies {C : Type} (ctx : RAWContext C) (stores : List InstId)
    (load_inst : InstId) (loc_load_ptr : AbstractLocation) (c_load_ptr : C) :
    Option (List (InstId × C)) :=
  foldOpt (scanStore ctx load_inst loc_load_ptr c_load_ptr) stores []

/-- The loop over the candidate dependency set that accumulates the edge
labels: `constraint = constraint || (c_load_ptr && c_store_ptr)`. -/
def addEdges {C : Type} (ctx : RAWContext C) (load_inst : InstId) (c_load_ptr : C)
    (dependencies : List (InstId × C)) (pdg_edges : List ((InstId × InstId) × C)) :
    List ((InstId × InstId) × C) :=
  dependencies.foldl (fun edges dep =>
    Assoc.assign edges (load_inst, dep.1)
      (ctx.disj ((Assoc.find edges (load_inst, dep.1)).getD ctx.init)
        (ctx.conj c_load_ptr dep.2))) pdg_edges

/-- Body of the loop over the locations of a load pointer. -/
def exportLocation {C : Type} (ctx : RAWContext C) (stores : List InstId) (load_inst : InstId)
    (pdg_edges : List ((InstId × InstId) × C)) (entry : AbstractLocation × C) :
    Option (List ((InstId × InstId) × C)) :=
  match candidateDependencies ctx stores load_inst entry.1 entry.2 with
  | none => none
  | some dependencies => some (addEdges ctx load_inst entry.2 dependencies pdg_edges)

/-- Body of the loop `for load_inst : loads`; `none` is the exception of
`regfile_.at`. -/
def exportLoad {C : Type} (ctx : RAWContext C) (stores : List InstId)
    (pdg_edges : List ((InstId × InstId) × C)) (load_inst : InstId) :
    Option (List ((InstId × InstId) × C)) :=
  match Assoc.find ctx.regfile_ (ctx.TranslateAliasReg (ctx.getPointerOperand load_inst)) with
  | none => none
  | some load_ptr_pt_map => foldOpt (exportLocation ctx stores load_inst) load_ptr_pt_map pdg_edges

/-- Function `AnalysisContext::ExportRAWDependency` up to the printing: the map
`pdg_edges` for the stores and loads of the function, collected in function
order; `none` when an exception of `regfile_.at` leaves the function. -/
def ExportRAWDependency {C : Type} (ctx : RAWContext C) (stores loads : List InstId) :
    Option (List ((InstId × InstId) × C)) :=
  foldOpt (exportLoad ctx stores) loads []

/-- A label of an edge has the constraint `d` as a disjunct: it is `x || d`, or
it is `x || y` for a label `x` that has `d` as a disjunct. -/
inductive HasDisjunct {C : Type} (disj : C → C → C) (d : C) : C → Prop where
  | here (x : C) : HasDisjunct disj d (disj x d)
  | later (x y : C) : HasDisjunct disj d x → HasDisjunct disj d (disj x y)

/-- The block `store 1, p; store 2, p; x = load p`: the stores are the
instructions 1 and 2, the load is the instruction 3, every pointer operand is
the value 10 whose register-file entry points to `Stack(10)`; constraints are
truth values; an instruction executes after the instructions before it; the
map of candidates is visited in the order of insertion. -/
def twoStoresContext : RAWContext Bool :=
  { LookupExecAfterCondition := fun a b =>
      if a < b then ExecAfterCondition.Must else ExecAfterCondition.Never
    TestSatisfiability := fun c => c
    TestImplication := fun a b => !a || b
    conj := fun a b => a && b
    disj := fun a b => a || b
    init := false
    regfile_ := [(10, [(AbstractLocation.Stack 10, true)])]
    TranslateAliasReg := fun v => v
    getPointerOperand := fun _ => 10
    iterationChoice := fun _ _ _ _ => 0 }

/-- The block `if c: store 1, p; store 2, p; x = load p` of the specification:
as `twoStoresContext`, but the second store may, not must, execute after the
first. -/
def branchStoresContext : RAWContext Bool :=
  { twoStoresContext with
    LookupExecAfterCondition := fun a b =>
      if a = 1 ∧ b = 2 then ExecAfterCondition.May
      else if a < b then ExecAfterCondition.Must else ExecAfterCondition.Never }

/-- The block `p = call ext(); x = load p` with points-to detail off: the load
is the instruction 3 and its pointer operand, the call (value 20), has no entry
in the register file. -/
def externalPointerContext : RAWContext Bool :=
  { twoStoresContext with
    regfile_ := []
    getPointerOperand := fun _ => 20 }

/-- The block `if c: store 1, p; store 2, q; x = load p` where `q` (value 20) is
the result of a call to an external function and has no entry in the register
file: as `branchStoresContext`, but the second store goes through `q`. -/
def externalStoreContext : RAWContext Bool :=
  { branchStoresContext with
    getPointerOperand := fun i => if i = 2 then 20 else 10 }

/-- Three stores 1, 2, 3 through the pointer of the load 4, with an execute-after
relation in which 3 must execute after 1 and 2 must execute after 3, every
other pair being `May`, and a hash table that visits two candidates newest
first (the second of the two permutations). -/
def newestFirstContext : RAWContext Bool :=
  { twoStoresContext with
    LookupExecAfterCondition := fun a b =>
      if (a = 1 ∧ b = 3) ∨ (a = 3 ∧ b = 2) then ExecAfterCondition.Must
      else ExecAfterCondition.May
    iterationChoice := fun _ _ _ _ => 1 }

/-- No entry of a candidate dependency set is strongly overwritten by another
one: there are no two entries for distinct stores `S`, `S'` with
`LookupExecAfterCondition(S', S) = Must` and `TestImplication(c_S, c_S')`. -/
def NoStrongOverwrite {C : Type} (ctx : RAWContext C) (deps : List (InstId × C)) : Prop :=
  ∀ e1 ∈ deps, ∀ e2 ∈ deps, e1.1 ≠ e2.1 →
    ¬ (ctx.LookupExecAfterCondition e2.1 e1.1 = ExecAfterCondition.Must ∧
      ctx.TestImplication e1.2 e2.2 = true)

/-- Fresh summaries of a program in which the function 0 calls the function 1
and the function 1 calls nothing. -/
def callerEnv : SummaryEnvironment (List Nat) :=
  fun f => { called_functions := if f = 0 then [some 1] else [], store := [],
             converged := false }

/-- The pass model of `listAnalysis pairResult` for a program in which every
function is marked `doesNotRecurse`. -/
def norecurseAnalysis : Analysis (List Nat) :=
  { listAnalysis pairResult with doesNotRecurse := fun _ => true }

/-- Fresh summaries of the chain `f -> g -> h -> h`: the function 0 calls the
function 1, the function 1 calls the function 2 and the function 2 calls
itself; empty stores, nothing converged. -/
def chainEnv : SummaryEnvironment (List Nat) :=
  fun f => { called_functions := if f = 0 then [some 1] else [some 2], store := [],
             converged := false }

/-- The pass model for the chain: only the function 1 is marked `doesNotRecurse`,
and every pass builds the empty store (no function has a points-to edge). -/
def chainAnalysis : Analysis (List Nat) :=
  { listAnalysis emptyResult with doesNotRecurse := fun g => decide (g = 1) }

/-! ## The block worklist -/

/-- What the block worklist of `AnalyzeFunctionAux` uses without defining it:
the successors of a block in the control flow graph; the abstract execution of
a block (`InitializeExecution` and the loop over the instructions of
`AnalyzeBlock`), which reads the context and yields the rest of the context
(register file and the like) and the store of the execution; and
`TestStoreUpdate` of the execution against the cached store. -/
structure BlockAnalysis (C ρ : Type) where
  successors : BlockId → List BlockId
  execute : ρ → List (BlockId × AbstractStore C) → BlockId → ρ × AbstractStore C
  TestStoreUpdate : AbstractStore C → AbstractStore C → Bool

/-- The part of `AnalysisContext` that a block analysis changes: the cache of
block stores and the rest. -/
structure BlockContext (C ρ : Type) where
  exec_store_cache_ : List (BlockId × AbstractStore C)
  rest : ρ

/-- Function `AnalysisContext::CommitExecution`: true on the first run of the block
and when `TestStoreUpdate` reports a change; the store of the execution is
installed in the cache in every case. -/
def CommitExecution {C ρ : Type} (P : BlockAnalysis C ρ)
    (exec_store_cache_ : List (BlockId × AbstractStore C)) (bb : BlockId)
    (store_ : AbstractStore C) : List (BlockId × AbstractStore C) × Bool :=
  match Assoc.find exec_store_cache_ bb with
  | none => (Assoc.assign exec_store_cache_ bb store_, true)
  | some old =>
    if P.TestStoreUpdate store_ old then (Assoc.assign exec_store_cache_ bb store_, true)
    else (Assoc.assign exec_store_cache_ bb store_, false)

/-- Function `AnalysisContext::AnalyzeBlock`: the abstract execution of the block,
then `CommitExecution`. -/
def AnalyzeBlock {C ρ : Type} (P : BlockAnalysis C ρ) (ctx : BlockContext C ρ) (bb : BlockId) :
    BlockContext C ρ × Bool :=
  let exec := P.execute ctx.rest ctx.exec_store_cache_ bb
  let committed := CommitExecution P ctx.exec_store_cache_ bb exec.2
  ({ exec_store_cache_ := committed.1, rest := exec.1 }, committed.2)

/-- State of the worklist loop of `AnalyzeFunctionAux`: the deque `worklist`
(front first), the set `workset` and the analysis context. -/
structure WorklistState (C ρ : Type) where
  worklist : List BlockId
  workset : Finset BlockId
  ctx : BlockContext C ρ

/-- The loop over the successors of an updated block: a successor that is not
in `workset` is pushed at the back of `worklist` and inserted in `workset`. -/
def enqueueSuccessors (succs : List BlockId) (queue : List BlockId × Finset BlockId) :
    List BlockId × Finset BlockId :=
  succs.foldl (fun q succ_bb =>
    if succ_bb ∈ q.2 then q else (q.1 ++ [succ_bb], insert succ_bb q.2)) queue

/-- One iteration of `while (!worklist.empty())`; `none` when the worklist is
empty. -/
def worklistStep {C ρ : Type} (P : BlockAnalysis C ρ) (st : WorklistState C ρ) :
    Option (WorklistState C ρ) :=
  match st.worklist with
  | [] => none
  | bb :: worklist =>
    let workset := st.workset.erase bb
    let analysed := AnalyzeBlock P st.ctx bb
    if analysed.2 then
      let queue := enqueueSuccessors (P.successors bb) (worklist, workset)
      some { worklist := queue.1, workset := queue.2, ctx := analysed.1 }
    else some { worklist := worklist, workset := workset, ctx := analysed.1 }

/-- The worklist loop of `AnalyzeFunctionAux`; the first argument bounds the
number of iterations, and `none` means that they ran out. -/
def worklistLoop {C ρ : Type} (P : BlockAnalysis C ρ) :
    Nat → WorklistState C ρ → Option (BlockContext C ρ)
  | 0, _ => none
  | fuel + 1, st =>
    match worklistStep P st with
    | none => some st.ctx
    | some st1 => worklistLoop P fuel st1

/-- The state when the loop starts: every block of the function, in function
order, in the worklist and in the workset, and a fresh analysis context. -/
def worklistInit {C ρ : Type} (blocks : List BlockId) (rest : ρ) : WorklistState C ρ :=
  { worklist := blocks, workset := blocks.toFinset,
    ctx := { exec_store_cache_ := [], rest := rest } }

/-- The state after `n` iterations of the loop (the state in which the loop ends,
when it ends before). -/
def worklistAfter {C ρ : Type} (P : BlockAnalysis C ρ) : Nat → WorklistState C ρ →
    WorklistState C ρ
  | 0, st => st
  | n + 1, st =>
    match worklistStep P st with
    | none => st
    | some st1 => worklistAfter P n st1

/-- The blocks analysed by the first `n` iterations of the loop, in order. -/
def analysedBlocks {C ρ : Type} (P : BlockAnalysis C ρ) : Nat → WorklistState C ρ →
    List BlockId
  | 0, _ => []
  | n + 1, st =>
    match st.worklist.head?, worklistStep P st with
    | some bb, some st1 => bb :: analysedBlocks P n st1
    | _, _ => []

/-- The number of iterations, among the first `n`, in which `AnalyzeBlock`
returns true for a block that has a cached store already (a change reported
after the first run of the block). -/
def changedAgainCount {C ρ : Type} (P : BlockAnalysis C ρ) : Nat → WorklistState C ρ → Nat
  | 0, _ => 0
  | n + 1, st =>
    match st.worklist.head?, worklistStep P st with
    | some bb, some st1 =>
      (if (Assoc.find st.ctx.exec_store_cache_ bb).isSome && (AnalyzeBlock P st.ctx bb).2
        then 1 else 0) + changedAgainCount P n st1
    | _, _ => 0

/-- The worklist has no repetition and the workset holds its blocks. -/
def QueueConsistent (queue : List BlockId × Finset BlockId) : Prop :=
  queue.1.Nodup ∧ ∀ b, b ∈ queue.2 ↔ b ∈ queue.1

/-- The worklist and the keys of the cache hold blocks of the function only, and
the cache has one entry per key. -/
def WithinFunction {C ρ : Type} (blocks : List BlockId) (st : WorklistState C ρ) : Prop :=
  (∀ b ∈ st.worklist, b ∈ blocks) ∧ (Assoc.keys st.ctx.exec_store_cache_).Nodup ∧
    ∀ b ∈ Assoc.keys st.ctx.exec_store_cache_, b ∈ blocks

/-- The greatest number of successors of a block of the function. -/
def maxSuccessors {C ρ : Type} (P : BlockAnalysis C ρ) (blocks : List BlockId) : Nat :=
  blocks.foldr (fun b d => max (P.successors b).length d) 0

/-- A function of three blocks `0 -> 1 -> 2` with a loop edge `1 -> 1`: every
execution yields the empty store and `TestStoreUpdate` reports no change. -/
def chainBlocks : BlockAnalysis Bool Unit :=
  { successors := fun b => if b = 0 then [1] else if b = 1 then [1, 2] else []
    execute := fun r _ _ => (r, [])
    TestStoreUpdate := fun _ _ => false }

/-! ## Data dependencies of a load -/

/-- The load branch of `AnalysisContext::AnalyzeBlock_DataDep`: for every location
of the load pointer and every contribution recorded in `graph` for it, the
dependency `c_ptr && c_contrib` is assigned to
`data_dep_result_[(load_inst, src_val)]` when it is satisfiable. The parameters
are the operator `&&` and `TestSatisfiability`. -/
def recordLoadDependencies {C : Type} (conj : C → C → C) (TestSat : C → Bool)
    (graph : List (AbstractLocation × List (ValueId × C))) (load_inst : InstId)
    (ptr_locs : PointToMap C) (data_dep_result_ : List ((InstId × ValueId) × C)) :
    List ((InstId × ValueId) × C) :=
  ptr_locs.foldl (fun result ptr =>
    ((Assoc.find graph ptr.1).getD []).foldl (fun result1 contrib =>
      if TestSat (conj ptr.2 contrib.2) then
        Assoc.assign result1 (load_inst, contrib.1) (conj ptr.2 contrib.2)
      else result1) result) data_dep_result_

/-! ## Lemmas on the alias table -/

namespace ConstraintSolver

theorem cell_comm (s : ConstraintSolver) (i j : Nat) : s.cell i j = s.cell j i := by
  unfold cell
  rcases Nat.lt_trichotomy i j with h | h | h
  · rw [if_neg (by omega), if_pos (by omega)]
  · subst h; rfl
  · rw [if_pos (by omega), if_neg (by omega)]

theorem TestAlias_comm (s : ConstraintSolver) (i j : Nat) :
    s.TestAlias i j = s.TestAlias j i := by
  unfold TestAlias; rw [cell_comm]

theorem cell_lt (s : ConstraintSolver) {i j : Nat} (hi : i < s.num_inputs_)
    (hj : j < s.num_inputs_) (hij : i ≠ j) (hwf : s.WellFormed) :
    s.cell i j < s.alias_rej_list_.length := by
  unfold WellFormed at hwf
  rw [hwf]
  unfold cell
  split
  · nlinarith
  · have : i < j := by omega
    nlinarith

theorem RejectAlias_eq (s : ConstraintSolver) {i j : Nat} (hij : i ≠ j) :
    s.RejectAlias i j =
      if !s.alias_rej_list_.getD (s.cell i j) false then
        some { s with
          solver := s.solver ++ [Z3Expr.atom (LocAtom.ne (min i j) (max i j))]
          alias_rej_list_ := s.alias_rej_list_.set (s.cell i j) true }
      else some s := by
  unfold RejectAlias cell
  rw [if_neg hij]
  by_cases h : i > j
  · have h1 : min i j = j := by omega
    have h2 : max i j = i := by omega
    simp only [h, if_true, h1, h2]
  · have h1 : min i j = i := by omega
    have h2 : max i j = j := by omega
    simp only [h, if_false, h1, h2]

theorem getD_set_self (l : List Bool) (k : Nat) (h : k < l.length) :
    (l.set k true).getD k false = true := by
  simp [List.getD_eq_getElem?_getD, h]

theorem TestAlias_of_RejectAlias (s s1 : ConstraintSolver) {i j : Nat}
    (hi : i < s.num_inputs_) (hj : j < s.num_inputs_) (hij : i ≠ j) (hwf : s.WellFormed)
    (h : s.RejectAlias i j = some s1) : s1.TestAlias i j = true := by
  rw [RejectAlias_eq s hij] at h
  have hlt := cell_lt s hi hj hij hwf
  by_cases hb : s.alias_rej_list_.getD (s.cell i j) false = true
  · simp only [hb, Bool.not_true, Bool.false_eq_true, if_false, Option.some.injEq] at h
    subst h
    exact hb
  · simp only [hb, Bool.not_false, Bool.not_eq_true, if_true, Option.some.injEq] at h
    subst h
    simp only [TestAlias, cell]
    exact getD_set_self _ _ hlt

theorem RejectAlias_isSome (s : ConstraintSolver) {i j : Nat} (hij : i ≠ j) :
    ∃ s1, s.RejectAlias i j = some s1 := by
  rw [RejectAlias_eq s hij]
  split
  · exact ⟨_, rfl⟩
  · exact ⟨_, rfl⟩

theorem RejectAlias_num_inputs (s s1 : ConstraintSolver) {i j : Nat}
    (h : s.RejectAlias i j = some s1) : s1.num_inputs_ = s.num_inputs_ := by
  by_cases hij : i = j
  · simp [RejectAlias, hij] at h
  · rw [RejectAlias_eq s hij] at h
    split at h
    · simp only [Option.some.injEq] at h; subst h; rfl
    · simp only [Option.some.injEq] at h; subst h; rfl

theorem RejectAlias_wellFormed (s s1 : ConstraintSolver) {i j : Nat} (hwf : s.WellFormed)
    (h : s.RejectAlias i j = some s1) : s1.WellFormed := by
  by_cases hij : i = j
  · simp [RejectAlias, hij] at h
  · rw [RejectAlias_eq s hij] at h
    split at h
    · simp only [Option.some.injEq] at h; subst h
      simpa [WellFormed] using hwf
    · simp only [Option.some.injEq] at h; subst h; exact hwf

theorem RejectAlias_of_rejected (s : ConstraintSolver) {i j : Nat} (hij : i ≠ j)
    (h : s.TestAlias i j = true) : s.RejectAlias i j = some s := by
  rw [RejectAlias_eq s hij]
  unfold TestAlias at h
  rw [h]
  rfl

theorem aliasLoop_fold (T : Nat → Bool) (i : Nat) (l : List Nat) (acc : List LocAtom) :
    l.foldl (fun buf k => if !T k then buf ++ [LocAtom.ne k i] else buf) acc =
      acc ++ (l.filter (fun k => !T k)).map (fun k => LocAtom.ne k i) := by
  induction l generalizing acc with
  | nil => simp
  | cons k rest ih =>
    rw [List.foldl_cons, ih]
    by_cases hk : T k = true
    · simp [hk]
    · simp [hk]

theorem aliasLoop_eq (s : ConstraintSolver) (i j : Nat) :
    s.aliasLoop i j =
      ((List.range j).filter (fun k => !s.TestAlias k i)).map (fun k => LocAtom.ne k i) := by
  unfold aliasLoop
  rw [aliasLoop_fold (fun k => s.TestAlias k i) i (List.range j) []]
  simp

theorem MakeAliasConstraint_eq (s : ConstraintSolver) (i j : Nat) :
    s.MakeAliasConstraint i j =
      if s.TestAlias j i then conjunction (aliasConjuncts (fun k => !s.TestAlias k i) i j)
      else Constraint.Bottom := by
  unfold MakeAliasConstraint conjunction aliasConjuncts Constraint.ofBool
  rw [aliasLoop_eq]
  by_cases hg : s.TestAlias j i = true
  · by_cases hij : i = j
    · subst hij
      simp [hg, List.isEmpty_iff]
    · simp [hg, hij, List.isEmpty_iff]
  · simp [hg]

end ConstraintSolver

/-! ## Alias rejection and alias constraints -/

/-- C1, the code on every in-range pair: after `RejectAlias(i, j)` the calls
`TestAlias(i, j)` and `TestAlias(j, i)` both return true, the bit that
`RejectAlias` has set, where the claim expects false. -/
theorem TestAlias_true_after_RejectAlias (s : ConstraintSolver) (i j : Nat)
    (hwf : s.WellFormed) (hi : i < s.num_inputs_) (hj : j < s.num_inputs_) (hij : i ≠ j) :
    ∃ s1, s.RejectAlias i j = some s1 ∧ s1.TestAlias i j = true ∧ s1.TestAlias j i = true := by
  obtain ⟨s1, h1⟩ := s.RejectAlias_isSome hij
  have ht := ConstraintSolver.TestAlias_of_RejectAlias s s1 hi hj hij hwf h1
  exact ⟨s1, h1, ht, by rw [ConstraintSolver.TestAlias_comm]; exact ht⟩

/-- Witness of C1: two inputs, `RejectAlias(0, 1)` on the fresh solver. -/
theorem TestAlias_true_after_RejectAlias_witness :
    ∃ s1, (ConstraintSolver.create 2).RejectAlias 0 1 = some s1 ∧
      s1.TestAlias 0 1 = true ∧ s1.TestAlias 1 0 = true :=
  TestAlias_true_after_RejectAlias (ConstraintSolver.create 2) 0 1 (by decide) (by decide)
    (by decide) (by decide)

/-- C2, the code on every in-range pair: after `RejectAlias(i, j)` the call
`MakeAliasConstraint(i, j)` does not return the Bottom literal; it returns the
expression `mk_and` of a buffer that contains the equality `x_j = x_i`. -/
theorem MakeAliasConstraint_not_Bottom_after_RejectAlias (s : ConstraintSolver) (i j : Nat)
    (hwf : s.WellFormed) (hi : i < s.num_inputs_) (hj : j < s.num_inputs_) (hij : i ≠ j) :
    ∃ s1, s.RejectAlias i j = some s1 ∧ s1.MakeAliasConstraint i j ≠ Constraint.Bottom ∧
      ∃ buf, s1.MakeAliasConstraint i j = Constraint.ofAst (Z3Expr.mk_and buf) ∧
        LocAtom.eq j i ∈ buf := by
  obtain ⟨s1, h1⟩ := s.RejectAlias_isSome hij
  have ht : s1.TestAlias j i = true := by
    rw [ConstraintSolver.TestAlias_comm]
    exact ConstraintSolver.TestAlias_of_RejectAlias s s1 hi hj hij hwf h1
  have hmem : LocAtom.eq j i ∈
      ConstraintSolver.aliasConjuncts (fun k => !s1.TestAlias k i) i j := by
    simp [ConstraintSolver.aliasConjuncts, hij]
  have hne : ConstraintSolver.aliasConjuncts (fun k => !s1.TestAlias k i) i j ≠ [] :=
    List.ne_nil_of_mem hmem
  have heq : s1.MakeAliasConstraint i j = Constraint.ofAst (Z3Expr.mk_and
      (ConstraintSolver.aliasConjuncts (fun k => !s1.TestAlias k i) i j)) := by
    rw [ConstraintSolver.MakeAliasConstraint_eq, if_pos ht, ConstraintSolver.conjunction,
      if_neg hne]
  refine ⟨s1, h1, ?_, _, heq, hmem⟩
  rw [heq]
  simp [Constraint.ofAst]

/-- Witness of C2: two inputs, `RejectAlias(1, 0)` on the fresh solver. -/
theorem MakeAliasConstraint_not_Bottom_after_RejectAlias_witness :
    ∃ s1, (ConstraintSolver.create 2).RejectAlias 1 0 = some s1 ∧
      s1.MakeAliasConstraint 1 0 ≠ Constraint.Bottom ∧
      ∃ buf, s1.MakeAliasConstraint 1 0 = Constraint.ofAst (Z3Expr.mk_and buf) ∧
        LocAtom.eq 0 1 ∈ buf :=
  MakeAliasConstraint_not_Bottom_after_RejectAlias (ConstraintSolver.create 2) 1 0 (by decide)
    (by decide) (by decide) (by decide)

/-- C3 as stated fails: with three inputs and `RejectAlias(1, 2)` issued,
`MakeAliasConstraint(2, 1)` is not Bottom and differs from the conjunction the
claim describes (it carries `x_0 != x_2` although `TestAlias(0, 2)` is false). -/
theorem MakeAliasConstraint_spec_counterexample :
    ∃ s, (ConstraintSolver.create 3).RejectAlias 1 2 = some s ∧ 1 ≤ 2 ∧
      s.MakeAliasConstraint 2 1 ≠ Constraint.Bottom ∧
      s.TestAlias 0 2 = false ∧
      s.MakeAliasConstraint 2 1 =
        Constraint.ofAst (Z3Expr.mk_and [LocAtom.ne 0 2, LocAtom.eq 1 2]) ∧
      s.MakeAliasConstraint_spec 2 1 = Constraint.ofAst (Z3Expr.mk_and [LocAtom.eq 1 2]) ∧
      s.MakeAliasConstraint 2 1 ≠ s.MakeAliasConstraint_spec 2 1 :=
  ⟨{ num_inputs_ := 3
     alias_rej_list_ := [false, false, false, false, false, true, false, false, false]
     solver := [Z3Expr.atom (LocAtom.ne 1 2)] },
    by decide, by decide, by decide, by decide, by decide, by decide, by decide⟩

/-- C3, amended: for `j <= i`, when `MakeAliasConstraint(i, j)` is not Bottom
it is the conjunction of exactly these conjuncts, in this order: `x_k != x_i`
for each `k < j` for which `TestAlias(k, i)` returns false, then `x_j = x_i`
when `i != j` and no equality when `i = j`; it is the Top literal when there is
no conjunct. -/
theorem MakeAliasConstraint_conjuncts (s : ConstraintSolver) (i j : Nat) (hji : j ≤ i)
    (hnb : s.MakeAliasConstraint i j ≠ Constraint.Bottom) :
    s.MakeAliasConstraint i j =
      (if ((List.range j).filter (fun k => !s.TestAlias k i)).map (fun k => LocAtom.ne k i)
            ++ (if i = j then [] else [LocAtom.eq j i]) = []
        then Constraint.Top
        else Constraint.ofAst (Z3Expr.mk_and
          (((List.range j).filter (fun k => !s.TestAlias k i)).map (fun k => LocAtom.ne k i)
            ++ (if i = j then [] else [LocAtom.eq j i])))) := by
  have _ := hji
  rw [ConstraintSolver.MakeAliasConstraint_eq] at hnb ⊢
  by_cases ht : s.TestAlias j i = true
  · rw [if_pos ht]
    rfl
  · rw [if_neg ht] at hnb
    exact absurd rfl hnb

/-- Witness of C3 amended: three inputs after `RejectAlias(1, 2)`, the call
`MakeAliasConstraint(2, 1)`. -/
theorem MakeAliasConstraint_conjuncts_witness :
    (ConstraintSolver.mk 3 [false, false, false, false, false, true, false, false, false]
        [Z3Expr.atom (LocAtom.ne 1 2)]).MakeAliasConstraint 2 1 =
      Constraint.ofAst (Z3Expr.mk_and [LocAtom.ne 0 2, LocAtom.eq 1 2]) :=
  (MakeAliasConstraint_conjuncts
    (ConstraintSolver.mk 3 [false, false, false, false, false, true, false, false, false]
      [Z3Expr.atom (LocAtom.ne 1 2)]) 2 1 (by decide) (by decide)).trans (by decide)

/-- C5: `TestSatisfiability` is false on Bottom, true on Top and the backend
answer on the may-part of an expression; `TestValidity` is false on Bottom,
true on Top and the backend answer on the must-part of an expression; the first
does not depend on the must-part, the second not on the may-part. -/
theorem TestSatisfiability_TestValidity_contract {E : Type} (satAux validAux : E → Bool) :
    TestSatisfiability satAux Constraint.Bottom = false ∧
    TestSatisfiability satAux Constraint.Top = true ∧
    (∀ hm may must, TestSatisfiability satAux (Constraint.Expr hm may must) = satAux may) ∧
    TestValidity validAux Constraint.Bottom = false ∧
    TestValidity validAux Constraint.Top = true ∧
    (∀ hm may must, TestValidity validAux (Constraint.Expr hm may must) = validAux must) ∧
    (∀ hm hm1 may must must1, TestSatisfiability satAux (Constraint.Expr hm may must) =
      TestSatisfiability satAux (Constraint.Expr hm1 may must1)) ∧
    (∀ hm hm1 may may1 must, TestValidity validAux (Constraint.Expr hm may must) =
      TestValidity validAux (Constraint.Expr hm1 may1 must)) :=
  ⟨rfl, rfl, fun _ _ _ => rfl, rfl, rfl, fun _ _ _ => rfl, fun _ _ _ _ _ => rfl,
    fun _ _ _ _ _ => rfl⟩

/-- C6: with two activations allowed (the call and one recursive call on the
swapped arguments) `TestEquivalence` returns for every pair of constraints; in
either argument order its answer for Bottom and `c` is "`c` is Bottom or
`TestSatisfiability(c)` is false", and its answer for Top and `c` is "`c` is
Top or `TestValidity(c)` is true"; Bottom and Top are not equivalent. -/
theorem TestEquivalence_literal {E : Type} (satAux validAux : E → Bool)
    (equivAux : E → E → Bool) :
    (∀ c0 c1, (TestEquivalence satAux validAux equivAux 2 c0 c1).isSome = true) ∧
    (∀ c, TestEquivalence satAux validAux equivAux 2 Constraint.Bottom c =
      some (c.IsBottomLiteral || !TestSatisfiability satAux c)) ∧
    (∀ c, TestEquivalence satAux validAux equivAux 2 c Constraint.Bottom =
      some (c.IsBottomLiteral || !TestSatisfiability satAux c)) ∧
    (∀ c, TestEquivalence satAux validAux equivAux 2 Constraint.Top c =
      some (c.IsTopLiteral || TestValidity validAux c)) ∧
    (∀ c, TestEquivalence satAux validAux equivAux 2 c Constraint.Top =
      some (c.IsTopLiteral || TestValidity validAux c)) ∧
    TestEquivalence satAux validAux equivAux 2 Constraint.Bottom Constraint.Top = some false ∧
    TestEquivalence satAux validAux equivAux 2 Constraint.Top Constraint.Bottom = some false ∧
    (∀ c : Constraint E, c.IsBottomLiteral = true ↔ c = Constraint.Bottom) ∧
    (∀ c : Constraint E, c.IsTopLiteral = true ↔ c = Constraint.Top) := by
  refine ⟨?_, ?_, ?_, ?_, ?_, rfl, rfl, ?_, ?_⟩
  · intro c0 c1
    cases c0 <;> cases c1 <;> try rfl
    rename_i hm0 may0 must0 hm1 may1 must1
    cases hm0 <;> cases hm1 <;> rfl
  · intro c
    cases c <;> rfl
  · intro c
    cases c <;> rfl
  · intro c
    cases c <;> rfl
  · intro c
    cases c <;> rfl
  · intro c
    cases c <;> simp [Constraint.IsBottomLiteral]
  · intro c
    cases c <;> simp [Constraint.IsTopLiteral]

/-- C7: for in-range `i != j`, `RejectAlias(i, j)` returns a state on which a
second `RejectAlias(i, j)` and a `RejectAlias(j, i)` both return that same
state: the bit table and the list of disequalities asserted to the backend are
those left by the single call. -/
theorem RejectAlias_idempotent (s : ConstraintSolver) (i j : Nat) (hwf : s.WellFormed)
    (hi : i < s.num_inputs_) (hj : j < s.num_inputs_) (hij : i ≠ j) :
    ∃ s1, s.RejectAlias i j = some s1 ∧
      (s.RejectAlias i j).bind (fun t => t.RejectAlias i j) = some s1 ∧
      (s.RejectAlias i j).bind (fun t => t.RejectAlias j i) = some s1 := by
  obtain ⟨s1, h1⟩ := s.RejectAlias_isSome hij
  have ht := ConstraintSolver.TestAlias_of_RejectAlias s s1 hi hj hij hwf h1
  have ht1 : s1.TestAlias j i = true := by rw [ConstraintSolver.TestAlias_comm]; exact ht
  refine ⟨s1, h1, ?_, ?_⟩
  · rw [h1]
    exact s1.RejectAlias_of_rejected hij ht
  · rw [h1]
    exact s1.RejectAlias_of_rejected (Ne.symm hij) ht1

/-- Witness of C7: three inputs, `RejectAlias(2, 0)` on the fresh solver. -/
theorem RejectAlias_idempotent_witness :
    ∃ s1, (ConstraintSolver.create 3).RejectAlias 2 0 = some s1 ∧
      ((ConstraintSolver.create 3).RejectAlias 2 0).bind (fun t => t.RejectAlias 2 0)
        = some s1 ∧
      ((ConstraintSolver.create 3).RejectAlias 2 0).bind (fun t => t.RejectAlias 0 2)
        = some s1 :=
  RejectAlias_idempotent (ConstraintSolver.create 3) 2 0 (by decide) (by decide) (by decide)
    (by decide)

/-! ## The inter-procedural driver -/

theorem AnalyzeFunctionAux_converged {Store : Type} (A : Analysis Store)
    (env : SummaryEnvironment Store) (f : FuncId) (dep : Bool)
    (hnc : (env f).converged = false) :
    (AnalyzeFunctionAux A env f dep f).converged =
      (if A.empty (env f).store || !A.EqualAbstractStore f (env f).store
          (A.ExportResultStore env f) then dep else true) := by
  unfold AnalyzeFunctionAux
  simp only [hnc, Bool.false_eq_true, if_false, SummaryEnvironment.set, if_true]
  cases dep <;> simp

theorem AnalyzeFunctionAux_store {Store : Type} (A : Analysis Store)
    (env : SummaryEnvironment Store) (f : FuncId) (dep : Bool)
    (hnc : (env f).converged = false) :
    (AnalyzeFunctionAux A env f dep f).store = A.ExportResultStore env f := by
  unfold AnalyzeFunctionAux
  simp [hnc, SummaryEnvironment.set]

/-- C8 as stated fails: for a summary that is not converged, with previous
store `[1]`, a pass that builds the equal store `[1]` while
`dependencies_converged` is false sets `converged = true`, although "the stores
are equal and the dependencies are converged" is false. -/
theorem AnalyzeFunctionAux_converged_counterexample :
    (onePassEnv 0).converged = false ∧
      ¬ ((AnalyzeFunctionAux (listAnalysis pairResult) onePassEnv 0 false 0).converged = true ↔
        ((listAnalysis pairResult).EqualAbstractStore 0 (onePassEnv 0).store
            ((listAnalysis pairResult).ExportResultStore onePassEnv 0) = true ∧
          false = true)) := by
  decide

/-- C8, amended: for a summary that is not converged and whose previous store
is not empty, one pass of `AnalyzeFunctionAux` sets `converged = true` iff the
newly built result store equals (EqualAbstractStore) the previous summary store
or `dependencies_converged` is true; the summary store becomes the new result
store. -/
theorem AnalyzeFunctionAux_converged_iff {Store : Type} (A : Analysis Store)
    (env : SummaryEnvironment Store) (f : FuncId) (dependencies_converged : Bool)
    (hnc : (env f).converged = false) (hne : A.empty (env f).store = false) :
    ((AnalyzeFunctionAux A env f dependencies_converged f).converged = true ↔
      (A.EqualAbstractStore f (env f).store (A.ExportResultStore env f) = true ∨
        dependencies_converged = true)) ∧
    (AnalyzeFunctionAux A env f dependencies_converged f).store = A.ExportResultStore env f := by
  refine ⟨?_, AnalyzeFunctionAux_store A env f dependencies_converged hnc⟩
  rw [AnalyzeFunctionAux_converged A env f dependencies_converged hnc, hne]
  cases h : A.EqualAbstractStore f (env f).store (A.ExportResultStore env f) <;>
    cases dependencies_converged <;> simp

/-- Witness of C8 amended: previous store `[1]`, new store `[1]`,
`dependencies_converged = false`. -/
theorem AnalyzeFunctionAux_converged_iff_witness :
    ((AnalyzeFunctionAux (listAnalysis pairResult) onePassEnv 0 false 0).converged = true ↔
      ((listAnalysis pairResult).EqualAbstractStore 0 (onePassEnv 0).store
          ((listAnalysis pairResult).ExportResultStore onePassEnv 0) = true ∨ false = true)) ∧
    (AnalyzeFunctionAux (listAnalysis pairResult) onePassEnv 0 false 0).store =
      (listAnalysis pairResult).ExportResultStore onePassEnv 0 :=
  AnalyzeFunctionAux_converged_iff (listAnalysis pairResult) onePassEnv 0 false (by decide)
    (by decide)

theorem convergeLoop_converged {Store : Type} (A : Analysis Store)
    (call : SummaryEnvironment Store → FuncId → Finset FuncId → Bool →
      Outcome (SummaryEnvironment Store × Finset FuncId))
    (f : FuncId) (recs : List FuncId) (iterations : Nat) :
    ∀ (env env1 : SummaryEnvironment Store) (history history1 : Finset FuncId),
      convergeLoop A call f recs true iterations env history = .ret (env1, history1) →
      (env1 f).converged = true := by
  induction iterations with
  | zero =>
    intro env env1 history history1 h
    simp [convergeLoop] at h
  | succ n ih =>
    intro env env1 history history1 h
    rw [convergeLoop] at h
    cases hc : analyzeRecursiveCallees call recs env history true with
    | ret r =>
      obtain ⟨e1, h1, dep⟩ := r
      rw [hc] at h
      simp only at h
      by_cases hconv : (AnalyzeFunctionAux A e1 f dep f).converged = true
      · simp only [hconv, Bool.not_true, Bool.and_false, Bool.false_eq_true, if_false,
          Outcome.ret.injEq, Prod.mk.injEq] at h
        rw [← h.1]
        exact hconv
      · simp only [hconv, Bool.not_false, Bool.and_self, if_true] at h
        exact ih _ _ _ _ h
    | assertion_failed => rw [hc] at h; simp at h
    | out_of_fuel => rw [hc] at h; simp at h

theorem AnalyzeFunctionRecursive_converged {Store : Type} (A : Analysis Store) (fuel : Nat)
    (env env1 : SummaryEnvironment Store) (f : FuncId) (history history1 : Finset FuncId)
    (hf : f ∉ history)
    (h : AnalyzeFunctionRecursive A fuel env f history true = .ret (env1, history1)) :
    (env1 f).converged = true := by
  cases fuel with
  | zero => simp [AnalyzeFunctionRecursive] at h
  | succ n =>
    rw [AnalyzeFunctionRecursive, if_neg hf] at h
    cases hc : collectCallees A (AnalyzeFunctionRecursive A n) (env f).called_functions env
        history [] with
    | ret r =>
      obtain ⟨e1, h1, recs⟩ := r
      rw [hc] at h
      simp only at h
      cases hl : convergeLoop A (AnalyzeFunctionRecursive A n) f recs true n e1
          (insert f h1) with
      | ret r2 =>
        obtain ⟨e2, h2⟩ := r2
        rw [hl] at h
        simp only [Outcome.ret.injEq, Prod.mk.injEq] at h
        rw [← h.1]
        exact convergeLoop_converged A _ f recs n _ _ _ _ hl
      | assertion_failed => rw [hl] at h; simp at h
      | out_of_fuel => rw [hl] at h; simp at h
    | assertion_failed => rw [hc] at h; simp at h
    | out_of_fuel => rw [hc] at h; simp at h

theorem foldl_NotifyUse_converged {Store : Type} (A : Analysis Store)
    (hN : ∀ e g h, ((A.NotifyUse e g) h).converged = (e h).converged)
    (l : List (Option FuncId)) (env : SummaryEnvironment Store) (f : FuncId) :
    ((l.foldl A.NotifyUse env) f).converged = (env f).converged := by
  induction l generalizing env with
  | nil => rfl
  | cons g rest ih => rw [List.foldl_cons, ih, hN]

/-- C9 as stated fails: for the mutually recursive pair `f -> g -> f` in which
every pass over `f` builds the same store and a pass over `g` builds a store
that extends the current summary store of `f`, `AnalyzeFunction(env, f)`
returns with the summary of `f` converged and the summary of its
potentially-recursive callee `g` not converged. -/
theorem AnalyzeFunction_component_counterexample :
    (pairEnv 0).called_functions = [some 1] ∧ (pairEnv 1).called_functions = [some 0] ∧
      (listAnalysis pairResult).doesNotRecurse 1 = false ∧
      (AnalyzeFunction (listAnalysis pairResult) 4 pairEnv 0).value?.map
        (fun env => ((env 0).converged, (env 1).converged, (env 0).store, (env 1).store))
        = some (true, false, [1], [1, 2]) := by
  decide

/-- C9, amended: when `AnalyzeFunction(env, f)` returns, the summary of the
root `f` has `converged = true` (the bookkeeping call `NotifyUse` leaving the
flags as they are); nothing is promised for the potentially-recursive callees
of `f`. -/
theorem AnalyzeFunction_root_converged {Store : Type} (A : Analysis Store) (fuel : Nat)
    (env env1 : SummaryEnvironment Store) (f : FuncId)
    (hN : ∀ e g h, ((A.NotifyUse e g) h).converged = (e h).converged)
    (h : AnalyzeFunction A fuel env f = .ret env1) : (env1 f).converged = true := by
  unfold AnalyzeFunction at h
  by_cases hc : (env f).converged = true
  · rw [if_pos hc] at h
    simp only [Outcome.ret.injEq] at h
    rw [← h]
    exact hc
  · rw [if_neg hc] at h
    cases hr : AnalyzeFunctionRecursive A fuel env f ∅ true with
    | ret r =>
      obtain ⟨e1, h1⟩ := r
      rw [hr] at h
      simp only [Outcome.ret.injEq] at h
      rw [← h, foldl_NotifyUse_converged A hN]
      exact AnalyzeFunctionRecursive_converged A fuel env e1 f ∅ h1
        (Finset.not_mem_empty f) hr
    | assertion_failed => rw [hr] at h; simp at h
    | out_of_fuel => rw [hr] at h; simp at h

theorem pair_run_returns :
    (AnalyzeFunction (listAnalysis pairResult) 4 pairEnv 0).value?.isSome = true := by
  decide

/-- Witness of C9 amended: the run on the pair `f -> g -> f` returns, with the
summary of `f` converged. -/
theorem AnalyzeFunction_root_converged_witness :
    ∃ env1, AnalyzeFunction (listAnalysis pairResult) 4 pairEnv 0 = .ret env1 ∧
      (env1 0).converged = true := by
  cases h : AnalyzeFunction (listAnalysis pairResult) 4 pairEnv 0 with
  | ret e =>
    exact ⟨e, rfl, AnalyzeFunction_root_converged (listAnalysis pairResult) 4 pairEnv e 0
      (fun _ _ _ => rfl) h⟩
  | assertion_failed =>
    have hr := pair_run_returns
    rw [h] at hr
    simp [Outcome.value?] at hr
  | out_of_fuel =>
    have hr := pair_run_returns
    rw [h] at hr
    simp [Outcome.value?] at hr

theorem convergeLoop_empty_store {Store : Type} (A : Analysis Store) (f : FuncId)
    (hres : ∀ e, A.empty (A.ExportResultStore e f) = true) (fuel iterations : Nat) :
    ∀ (env : SummaryEnvironment Store) (history : Finset FuncId), f ∈ history →
      (env f).converged = false → A.empty (env f).store = true →
      convergeLoop A (AnalyzeFunctionRecursive A fuel) f [f] true iterations env history
        = .out_of_fuel := by
  induction iterations with
  | zero => intro env history _ _ _; rfl
  | succ m ih =>
    intro env history hmem hnc hemp
    rw [convergeLoop]
    cases fuel with
    | zero =>
      simp [analyzeRecursiveCallees, hnc, AnalyzeFunctionRecursive]
    | succ k =>
      have hcall : AnalyzeFunctionRecursive A (k + 1) env f history false
          = .ret (env, history) := by
        rw [AnalyzeFunctionRecursive, if_pos hmem]
      have hcallees : analyzeRecursiveCallees (AnalyzeFunctionRecursive A (k + 1)) [f] env
          history true = .ret (env, history, false) := by
        simp [analyzeRecursiveCallees, hnc, hcall]
      rw [hcallees]
      have hconv : (AnalyzeFunctionAux A env f false f).converged = false := by
        rw [AnalyzeFunctionAux_converged A env f false hnc, hemp]
        simp
      have hstore : A.empty (AnalyzeFunctionAux A env f false f).store = true := by
        rw [AnalyzeFunctionAux_store A env f false hnc]
        exact hres env
      simp only [hconv, Bool.not_false, Bool.and_self, if_true]
      exact ih _ _ hmem hconv hstore

/-- C10, the code on a self-recursive function whose result store is empty:
when `f` calls only itself, is not marked `doesNotRecurse`, has a fresh summary
(not converged, empty store) and every pass over `f` builds an empty store,
`AnalyzeFunctionRecursive` with `expect_converge = true` does not return
within any number of activations and iterations: each pass leaves `converged`
false because `summary.store.empty()` holds and the only dependency, `f`
itself, is not converged. -/
theorem AnalyzeFunctionRecursive_empty_store_diverges {Store : Type} (A : Analysis Store)
    (env : SummaryEnvironment Store) (f : FuncId)
    (hcalls : (env f).called_functions = [some f]) (hrec : A.doesNotRecurse f = false)
    (hnc : (env f).converged = false) (hemp : A.empty (env f).store = true)
    (hres : ∀ e, A.empty (A.ExportResultStore e f) = true) (fuel : Nat) :
    AnalyzeFunctionRecursive A fuel env f ∅ true = .out_of_fuel := by
  cases fuel with
  | zero => rfl
  | succ n =>
    rw [AnalyzeFunctionRecursive, if_neg (Finset.not_mem_empty f), hcalls]
    simp only [collectCallees, hrec, Bool.false_eq_true, if_false, List.nil_append]
    rw [convergeLoop_empty_store A f hres n n env (insert f ∅) (Finset.mem_insert_self f ∅)
      hnc hemp]

/-- Witness of C10: the self-recursive function 0 with empty result stores,
one thousand activations and iterations allowed. -/
theorem AnalyzeFunctionRecursive_empty_store_diverges_witness :
    AnalyzeFunctionRecursive (listAnalysis emptyResult) 1000 selfEnv 0 ∅ true = .out_of_fuel :=
  AnalyzeFunctionRecursive_empty_store_diverges (listAnalysis emptyResult) selfEnv 0 rfl rfl
    rfl rfl (fun _ => rfl) 1000

/-! ## Frozen summaries -/

/-- C11: for a summary with `converged = true`, `AnalyzeFunctionAux` returns
the environment it received and `AnalyzeFunction` returns with the environment
it received, whatever the bound: the store of the summary (of every summary) is
the store before the call and the flag is still true. -/
theorem converged_summary_frozen {Store : Type} (A : Analysis Store)
    (env : SummaryEnvironment Store) (f : FuncId) (dependencies_converged : Bool) (fuel : Nat)
    (hc : (env f).converged = true) :
    AnalyzeFunctionAux A env f dependencies_converged = env ∧
      AnalyzeFunction A fuel env f = .ret env ∧
      (AnalyzeFunctionAux A env f dependencies_converged f).store = (env f).store ∧
      (AnalyzeFunctionAux A env f dependencies_converged f).converged = true := by
  have h1 : AnalyzeFunctionAux A env f dependencies_converged = env := by
    unfold AnalyzeFunctionAux
    simp [hc]
  have h2 : AnalyzeFunction A fuel env f = .ret env := by
    unfold AnalyzeFunction
    rw [if_pos hc]
  exact ⟨h1, h2, by rw [h1], by rw [h1]; exact hc⟩

/-- Witness of C11: the self-recursive function 0 with a converged summary of
store `[1]`, and no activation allowed. -/
theorem converged_summary_frozen_witness :
    AnalyzeFunctionAux (listAnalysis pairResult) convergedEnv 0 false = convergedEnv ∧
      AnalyzeFunction (listAnalysis pairResult) 0 convergedEnv 0 = .ret convergedEnv ∧
      (AnalyzeFunctionAux (listAnalysis pairResult) convergedEnv 0 false 0).store
        = (convergedEnv 0).store ∧
      (AnalyzeFunctionAux (listAnalysis pairResult) convergedEnv 0 false 0).converged = true :=
  converged_summary_frozen (listAnalysis pairResult) convergedEnv 0 false 0 rfl

/-! ## The constructor of the analysis context -/

theorem rejectsAlias_iff (a b : InputValue) :
    rejectsAlias a b = true ↔
      (a.isPointerTy = false ∨ b.isPointerTy = false) ∨ a.ptr_nest_level ≠ b.ptr_nest_level ∨
        (a.isGlobalVariable = true ∧ b.isGlobalVariable = true) ∨ a.type ≠ b.type := by
  unfold rejectsAlias
  cases ha : a.isPointerTy <;> cases hb : b.isPointerTy <;> simp

theorem mem_rejectionCalls (inputs : List InputValue) (i j : Nat) :
    (i, j) ∈ rejectionCalls inputs ↔
      j < i ∧ i < inputs.length ∧
        rejectsAlias (inputs.getD i default) (inputs.getD j default) = true := by
  unfold rejectionCalls
  simp only [List.mem_flatMap, List.mem_range, List.mem_map, List.mem_filter, Prod.mk.injEq]
  constructor
  · rintro ⟨i1, hi1, j1, ⟨hj1, hr⟩, rfl, rfl⟩
    exact ⟨hj1, hi1, hr⟩
  · rintro ⟨hj, hi, hr⟩
    exact ⟨i, hi, j, ⟨hj, hr⟩, rfl, rfl⟩

theorem rejectionCalls_nodup (inputs : List InputValue) : (rejectionCalls inputs).Nodup := by
  unfold rejectionCalls
  rw [List.nodup_flatMap]
  refine ⟨?_, ?_⟩
  · intro i _
    refine List.Nodup.map ?_ ((List.nodup_range i).filter _)
    intro a b hab
    simpa using hab
  · refine (List.nodup_range inputs.length).imp ?_
    intro a b hab
    simp only [Function.onFun]
    intro p hp1 hp2
    simp only [List.mem_map, List.mem_filter, List.mem_range] at hp1 hp2
    obtain ⟨j1, _, rfl⟩ := hp1
    obtain ⟨j2, _, h2⟩ := hp2
    simp only [Prod.mk.injEq] at h2
    exact hab h2.1.symm

theorem applyRejections_isSome (calls : List (Nat × Nat)) :
    ∀ s : ConstraintSolver, (∀ p ∈ calls, p.1 ≠ p.2) →
      ∃ s1, applyRejections calls s = some s1 := by
  induction calls with
  | nil => intro s _; exact ⟨s, rfl⟩
  | cons p rest ih =>
    intro s h
    obtain ⟨i, j⟩ := p
    have hij : i ≠ j := h (i, j) (List.mem_cons_self _ _)
    obtain ⟨s1, h1⟩ := s.RejectAlias_isSome hij
    obtain ⟨s2, h2⟩ := ih s1 (fun q hq => h q (List.mem_cons_of_mem _ hq))
    exact ⟨s2, by simp only [applyRejections, h1, h2]⟩

/-- C17: for every pair of positions of the input list, the constructor issues
`RejectAlias(i, j)` iff `j < i`, `i` is an input and at least one of these
holds: one of the two inputs is not pointer-typed, their pointer-nesting levels
differ, both are global variables, or their types differ; no pair is issued
twice, no issued pair has `i = j`, and the sequence of calls runs without a
failure of the assertion of `RejectAlias`. -/
theorem constructor_rejections (inputs : List InputValue) :
    (∀ i j, (i, j) ∈ rejectionCalls inputs ↔
      (j < i ∧ i < inputs.length ∧
        (((inputs.getD i default).isPointerTy = false ∨
            (inputs.getD j default).isPointerTy = false) ∨
          (inputs.getD i default).ptr_nest_level ≠ (inputs.getD j default).ptr_nest_level ∨
          ((inputs.getD i default).isGlobalVariable = true ∧
            (inputs.getD j default).isGlobalVariable = true) ∨
          (inputs.getD i default).type ≠ (inputs.getD j default).type))) ∧
    (rejectionCalls inputs).Nodup ∧
    (∀ p ∈ rejectionCalls inputs, p.1 ≠ p.2) ∧
    (∃ s, applyRejections (rejectionCalls inputs) (ConstraintSolver.create inputs.length)
      = some s) ∧
    (∃ st, AnalysisContext_create inputs = some st) := by
  have hne : ∀ p ∈ rejectionCalls inputs, p.1 ≠ p.2 := by
    rintro ⟨i, j⟩ hp
    have := (mem_rejectionCalls inputs i j).1 hp
    simp only
    omega
  refine ⟨?_, rejectionCalls_nodup inputs, hne, applyRejections_isSome _ _ hne, ?_⟩
  · intro i j
    rw [mem_rejectionCalls, rejectsAlias_iff]
  · obtain ⟨s, hs⟩ := applyRejections_isSome (rejectionCalls inputs)
      (ConstraintSolver.create inputs.length) hne
    exact ⟨{ smt_solver_ := s
             entry_store_ := (buildEntryStore s inputs).filter (fun e => !e.1.isRegister)
             regfile_ := moveToRegFile (buildEntryStore s inputs) [] },
      by simp only [AnalysisContext_create, hs]⟩

namespace Assoc

variable {K V : Type} [DecidableEq K]

theorem find_assign_self (m : List (K × V)) (k : K) (v : V) :
    find (assign m k v) k = some v := by
  induction m with
  | nil => simp [assign, find]
  | cons e rest ih =>
    obtain ⟨k1, v1⟩ := e
    by_cases h : k1 = k
    · simp [assign, find, h]
    · simp [assign, find, h, ih]

theorem find_assign_ne (m : List (K × V)) {k k1 : K} (v : V) (h : k1 ≠ k) :
    find (assign m k v) k1 = find m k1 := by
  induction m with
  | nil => simp [assign, find, Ne.symm h]
  | cons e rest ih =>
    obtain ⟨k2, v2⟩ := e
    by_cases h2 : k2 = k
    · subst h2
      simp [assign, find, Ne.symm h]
    · by_cases h3 : k2 = k1
      · subst h3
        simp [assign, find, h2]
      · simp [assign, find, h2, h3, ih]

theorem mem_keys_assign (m : List (K × V)) (k k1 : K) (v : V) :
    k1 ∈ keys (assign m k v) ↔ k1 = k ∨ k1 ∈ keys m := by
  induction m with
  | nil => simp [assign, keys]
  | cons e rest ih =>
    obtain ⟨k2, v2⟩ := e
    by_cases h2 : k2 = k
    · subst h2
      simp [assign, keys]
    · unfold keys at ih
      simp only [assign, h2, if_false, keys, List.map_cons, List.mem_cons]
      rw [ih]
      constructor
      · rintro (h | h | h)
        · exact Or.inr (Or.inl h)
        · exact Or.inl h
        · exact Or.inr (Or.inr h)
      · rintro (h | h | h)
        · exact Or.inr (Or.inl h)
        · exact Or.inl h
        · exact Or.inr (Or.inr h)

theorem find_eq_none_iff (m : List (K × V)) (k : K) : find m k = none ↔ k ∉ keys m := by
  induction m with
  | nil => simp [find, keys]
  | cons e rest ih =>
    obtain ⟨k1, v1⟩ := e
    by_cases h : k1 = k
    · simp [find, keys, h]
    · simp only [find, h, if_false, keys, List.map_cons, List.mem_cons, not_or] at ih ⊢
      rw [ih]
      exact ⟨fun h1 => ⟨fun h2 => h h2.symm, h1⟩, fun h1 => h1.2⟩

theorem mem_of_find (m : List (K × V)) (k : K) (v : V) (h : find m k = some v) :
    (k, v) ∈ m := by
  induction m with
  | nil => simp [find] at h
  | cons e rest ih =>
    obtain ⟨k1, v1⟩ := e
    by_cases h1 : k1 = k
    · simp only [find, h1, if_true, Option.some.injEq] at h
      subst h1; subst h
      exact List.mem_cons_self _ _
    · simp only [find, h1, if_false] at h
      exact List.mem_cons_of_mem _ (ih h)

theorem find_of_mem (m : List (K × V)) (k : K) (v : V) (hn : (keys m).Nodup)
    (h : (k, v) ∈ m) : find m k = some v := by
  induction m with
  | nil => simp at h
  | cons e rest ih =>
    obtain ⟨k1, v1⟩ := e
    simp only [keys, List.map_cons, List.nodup_cons] at hn
    rcases List.mem_cons.1 h with h1 | h1
    · simp only [Prod.mk.injEq] at h1
      simp [find, h1.1, h1.2]
    · have hk : k1 ≠ k := by
        intro hk
        subst hk
        exact hn.1 (List.mem_map.2 ⟨(k1, v), h1, rfl⟩)
      simp only [find, hk, if_false]
      exact ih hn.2 h1

theorem nodup_keys_assign (m : List (K × V)) (k : K) (v : V) (hn : (keys m).Nodup) :
    (keys (assign m k v)).Nodup := by
  induction m with
  | nil => simp [assign, keys]
  | cons e rest ih =>
    obtain ⟨k1, v1⟩ := e
    simp only [keys, List.map_cons, List.nodup_cons] at hn
    by_cases h : k1 = k
    · subst h
      simp only [assign, if_true, keys, List.map_cons, List.nodup_cons]
      exact hn
    · simp only [assign, h, if_false, keys, List.map_cons, List.nodup_cons]
      refine ⟨?_, ih hn.2⟩
      intro hmem
      rcases (mem_keys_assign rest k k1 v).1 hmem with h1 | h1
      · exact h h1
      · exact hn.1 h1

theorem mem_assign (m : List (K × V)) (k : K) (v : V) (e : K × V) (h : e ∈ assign m k v) :
    e = (k, v) ∨ e ∈ m := by
  induction m with
  | nil => simpa [assign] using h
  | cons e1 rest ih =>
    obtain ⟨k1, v1⟩ := e1
    by_cases h1 : k1 = k
    · simp only [assign, h1, if_true, List.mem_cons] at h
      rcases h with h | h
      · exact Or.inl h
      · exact Or.inr (List.mem_cons_of_mem _ h)
    · simp only [assign, h1, if_false, List.mem_cons] at h
      rcases h with h | h
      · exact Or.inr (by rw [h]; exact List.mem_cons_self _ _)
      · rcases ih h with h2 | h2
        · exact Or.inl h2
        · exact Or.inr (List.mem_cons_of_mem _ h2)

theorem find_filter_key (m : List (K × V)) (p : K → Bool) (k : K) :
    find (m.filter (fun e => p e.1)) k = if p k then find m k else none := by
  induction m with
  | nil => simp [find]
  | cons e rest ih =>
    obtain ⟨k1, v1⟩ := e
    by_cases hp : p k1 = true
    · by_cases h : k1 = k
      · subst h
        simp [List.filter, hp, find]
      · simp [List.filter, hp, find, h, ih]
    · by_cases h : k1 = k
      · subst h
        simp only [Bool.not_eq_true] at hp
        simp [List.filter, hp, ih]
      · simp only [Bool.not_eq_true] at hp
        simp [List.filter, hp, find, h, ih]

end Assoc

/-! ## Lemmas on the entry state -/

theorem value_inj (inputs : List InputValue) (hnd : (inputs.map (fun a => a.value)).Nodup)
    {i j : Nat} (hi : i < inputs.length) (hj : j < inputs.length)
    (h : (inputs.getD i default).value = (inputs.getD j default).value) : i = j := by
  rw [List.getD_eq_getElem _ _ hi, List.getD_eq_getElem _ _ hj] at h
  have hi1 : i < (inputs.map (fun a => a.value)).length := by simpa using hi
  have hj1 : j < (inputs.map (fun a => a.value)).length := by simpa using hj
  have h1 : (inputs.map (fun a => a.value))[i] = (inputs.map (fun a => a.value))[j] := by
    simpa using h
  exact (List.Nodup.getElem_inj_iff hnd).1 h1

theorem chainEdges_succ (arg : ValueId) (L : Nat) (st : AbstractStore (Constraint Z3Expr)) :
    chainEdges arg (L + 1) st =
      Assoc.assign (chainEdges arg L st) (AbstractLocation.RuntimeMemory arg L)
        [(AbstractLocation.RuntimeMemory arg (L + 1), Constraint.ofBool true)] := by
  unfold chainEdges
  rw [List.range_succ, List.foldl_append]
  rfl

theorem find_chainEdges_untouched (arg : ValueId) (L : Nat)
    (st : AbstractStore (Constraint Z3Expr)) (key : AbstractLocation)
    (h : ∀ k < L, key ≠ AbstractLocation.RuntimeMemory arg k) :
    Assoc.find (chainEdges arg L st) key = Assoc.find st key := by
  induction L with
  | zero => rfl
  | succ n ih =>
    rw [chainEdges_succ, Assoc.find_assign_ne _ _ (h n (Nat.lt_succ_self n)),
      ih (fun k hk => h k (Nat.lt_succ_of_lt hk))]

theorem find_chainEdges_chain (arg : ValueId) (L : Nat)
    (st : AbstractStore (Constraint Z3Expr)) (k : Nat) (h : k < L) :
    Assoc.find (chainEdges arg L st) (AbstractLocation.RuntimeMemory arg k) =
      some [(AbstractLocation.RuntimeMemory arg (k + 1), Constraint.Top)] := by
  induction L with
  | zero => omega
  | succ n ih =>
    rw [chainEdges_succ]
    by_cases hk : k = n
    · subst hk
      rw [Assoc.find_assign_self]
      rfl
    · have hne : AbstractLocation.RuntimeMemory arg k ≠ AbstractLocation.RuntimeMemory arg n := by
        intro heq
        injection heq with _ h2
        exact hk h2
      rw [Assoc.find_assign_ne _ _ hne, ih (by omega)]

theorem nodup_keys_chainEdges (arg : ValueId) (L : Nat)
    (st : AbstractStore (Constraint Z3Expr)) (hn : (Assoc.keys st).Nodup) :
    (Assoc.keys (chainEdges arg L st)).Nodup := by
  induction L with
  | zero => exact hn
  | succ n ih =>
    rw [chainEdges_succ]
    exact Assoc.nodup_keys_assign _ _ _ ih

theorem aliasEdges_succ (s : ConstraintSolver) (inputs : List InputValue) (i n : Nat)
    (st : AbstractStore (Constraint Z3Expr)) :
    (List.range (n + 1)).foldl (aliasEdgeStep s inputs i) st =
      aliasEdgeStep s inputs i ((List.range n).foldl (aliasEdgeStep s inputs i) st) n := by
  rw [List.range_succ, List.foldl_append]
  rfl

theorem find_aliasFold_untouched (s : ConstraintSolver) (inputs : List InputValue) (i n : Nat)
    (st : AbstractStore (Constraint Z3Expr)) (key : AbstractLocation)
    (h : key ≠ AbstractLocation.Register (inputs.getD i default).value) :
    Assoc.find ((List.range n).foldl (aliasEdgeStep s inputs i) st) key = Assoc.find st key := by
  induction n with
  | zero => rfl
  | succ m ih =>
    rw [aliasEdges_succ, aliasEdgeStep]
    split
    · rw [Assoc.find_assign_ne _ _ h, ih]
    · exact ih

theorem find_aliasFold_self (s : ConstraintSolver) (inputs : List InputValue) (i n : Nat)
    (st : AbstractStore (Constraint Z3Expr)) (m0 : PointToMap (Constraint Z3Expr))
    (h : Assoc.find st (AbstractLocation.Register (inputs.getD i default).value) = some m0) :
    Assoc.find ((List.range n).foldl (aliasEdgeStep s inputs i) st)
        (AbstractLocation.Register (inputs.getD i default).value) =
      some ((List.range n).foldl (regEntryStep s inputs i) m0) := by
  induction n with
  | zero => exact h
  | succ m ih =>
    rw [aliasEdges_succ, List.range_succ, List.foldl_append]
    simp only [List.foldl_cons, List.foldl_nil]
    rw [aliasEdgeStep, regEntryStep]
    by_cases ht : s.TestAlias i m = true
    · rw [if_pos ht, if_pos ht, Assoc.find_assign_self, ih]
      rfl
    · rw [if_neg ht, if_neg ht]
      exact ih

theorem nodup_keys_aliasFold (s : ConstraintSolver) (inputs : List InputValue) (i n : Nat)
    (st : AbstractStore (Constraint Z3Expr)) (hn : (Assoc.keys st).Nodup) :
    (Assoc.keys ((List.range n).foldl (aliasEdgeStep s inputs i) st)).Nodup := by
  induction n with
  | zero => exact hn
  | succ m ih =>
    rw [aliasEdges_succ, aliasEdgeStep]
    split
    · exact Assoc.nodup_keys_assign _ _ _ ih
    · exact ih

theorem regEntry_fold (s : ConstraintSolver) (inputs : List InputValue)
    (hnd : (inputs.map (fun a => a.value)).Nodup) (i : Nat) (hi : i < inputs.length) (n : Nat)
    (hn : n ≤ i) :
    (List.range n).foldl (regEntryStep s inputs i)
        [(AbstractLocation.RuntimeMemory (inputs.getD i default).value 0,
          s.MakeAliasConstraint i i)] =
      (AbstractLocation.RuntimeMemory (inputs.getD i default).value 0,
          s.MakeAliasConstraint i i) ::
        ((List.range n).filter (fun j => s.TestAlias i j)).map (fun j =>
          (AbstractLocation.RuntimeMemory (inputs.getD j default).value 0,
            s.MakeAliasConstraint i j)) := by
  induction n with
  | zero => rfl
  | succ m ih =>
    rw [List.range_succ, List.foldl_append, ih (by omega)]
    simp only [List.foldl_cons, List.foldl_nil, List.filter_append, List.map_append]
    rw [regEntryStep]
    by_cases ht : s.TestAlias i m = true
    · rw [if_pos ht]
      have hfresh : Assoc.find
          ((AbstractLocation.RuntimeMemory (inputs.getD i default).value 0,
              s.MakeAliasConstraint i i) ::
            ((List.range m).filter (fun j => s.TestAlias i j)).map (fun j =>
              (AbstractLocation.RuntimeMemory (inputs.getD j default).value 0,
                s.MakeAliasConstraint i j)))
          (AbstractLocation.RuntimeMemory (inputs.getD m default).value 0) = none := by
        rw [Assoc.find_eq_none_iff]
        simp only [Assoc.keys, List.map_cons, List.map_map, List.mem_cons, List.mem_map,
          List.mem_filter, List.mem_range, Function.comp, not_or, not_exists, not_and]
        refine ⟨?_, ?_⟩
        · intro heq
          injection heq with h1 _
          have := value_inj inputs hnd (by omega) hi h1
          omega
        · intro j hj heq
          injection heq with h1 _
          have := value_inj inputs hnd (by omega) (by omega) h1
          omega
      unfold Assoc.insertNew
      rw [hfresh]
      simp [List.filter, ht]
    · rw [if_neg ht]
      simp [List.filter, ht]

theorem find_entryStep_register (s : ConstraintSolver) (inputs : List InputValue)
    (hnd : (inputs.map (fun a => a.value)).Nodup) (i : Nat) (hi : i < inputs.length)
    (st : AbstractStore (Constraint Z3Expr)) :
    Assoc.find (entryStep s inputs st i)
        (AbstractLocation.Register (inputs.getD i default).value) =
      some (regEntry s inputs i) := by
  unfold entryStep aliasEdges
  simp only
  rw [find_aliasFold_self s inputs i i _
    [(AbstractLocation.RuntimeMemory (inputs.getD i default).value 0, s.MakeAliasConstraint i i)]]
  · rw [regEntry_fold s inputs hnd i hi i (Nat.le_refl i)]
    rfl
  · rw [find_chainEdges_untouched _ _ _ _ (fun k _ h => by cases h), Assoc.find_assign_self]

theorem find_entryStep_chain (s : ConstraintSolver) (inputs : List InputValue) (i : Nat)
    (st : AbstractStore (Constraint Z3Expr)) (k : Nat)
    (hk : k < (inputs.getD i default).ptr_nest_level) :
    Assoc.find (entryStep s inputs st i)
        (AbstractLocation.RuntimeMemory (inputs.getD i default).value k) =
      some [(AbstractLocation.RuntimeMemory (inputs.getD i default).value (k + 1),
        Constraint.Top)] := by
  unfold entryStep aliasEdges
  simp only
  rw [find_aliasFold_untouched s inputs i i _ _ (fun h => by cases h),
    find_chainEdges_chain _ _ _ _ hk]

theorem find_entryStep_untouched (s : ConstraintSolver) (inputs : List InputValue) (i : Nat)
    (st : AbstractStore (Constraint Z3Expr)) (key : AbstractLocation)
    (h1 : key ≠ AbstractLocation.Register (inputs.getD i default).value)
    (h2 : ∀ k < (inputs.getD i default).ptr_nest_level,
      key ≠ AbstractLocation.RuntimeMemory (inputs.getD i default).value k) :
    Assoc.find (entryStep s inputs st i) key = Assoc.find st key := by
  unfold entryStep aliasEdges
  simp only
  rw [find_aliasFold_untouched s inputs i i _ _ h1, find_chainEdges_untouched _ _ _ _ h2,
    Assoc.find_assign_ne _ _ h1]

theorem nodup_keys_entryStep (s : ConstraintSolver) (inputs : List InputValue) (i : Nat)
    (st : AbstractStore (Constraint Z3Expr)) (hn : (Assoc.keys st).Nodup) :
    (Assoc.keys (entryStep s inputs st i)).Nodup := by
  unfold entryStep aliasEdges
  simp only
  exact nodup_keys_aliasFold _ _ _ _ _
    (nodup_keys_chainEdges _ _ _ (Assoc.nodup_keys_assign _ _ _ hn))

theorem entryFold_succ (s : ConstraintSolver) (inputs : List InputValue) (n : Nat) :
    (List.range (n + 1)).foldl (entryStep s inputs) [] =
      entryStep s inputs ((List.range n).foldl (entryStep s inputs) []) n := by
  rw [List.range_succ, List.foldl_append]
  rfl

theorem nodup_keys_entryFold (s : ConstraintSolver) (inputs : List InputValue) (n : Nat) :
    (Assoc.keys ((List.range n).foldl (entryStep s inputs) [])).Nodup := by
  induction n with
  | zero => simp [Assoc.keys]
  | succ m ih =>
    rw [entryFold_succ]
    exact nodup_keys_entryStep _ _ _ _ ih

theorem find_entryFold_untouched (s : ConstraintSolver) (inputs : List InputValue)
    (key : AbstractLocation) (m d : Nat)
    (h : ∀ i, m ≤ i → i < m + d →
      key ≠ AbstractLocation.Register (inputs.getD i default).value ∧
      ∀ k < (inputs.getD i default).ptr_nest_level,
        key ≠ AbstractLocation.RuntimeMemory (inputs.getD i default).value k) :
    Assoc.find ((List.range (m + d)).foldl (entryStep s inputs) []) key =
      Assoc.find ((List.range m).foldl (entryStep s inputs) []) key := by
  induction d with
  | zero => rfl
  | succ e ih =>
    rw [← Nat.add_assoc, entryFold_succ,
      find_entryStep_untouched s inputs (m + e) _ key (h (m + e) (by omega) (by omega)).1
        (h (m + e) (by omega) (by omega)).2]
    exact ih (fun i h1 h2 => h i h1 (by omega))

theorem find_entryStore_register (s : ConstraintSolver) (inputs : List InputValue)
    (hnd : (inputs.map (fun a => a.value)).Nodup) (i : Nat) (hi : i < inputs.length) :
    Assoc.find (buildEntryStore s inputs)
        (AbstractLocation.Register (inputs.getD i default).value) =
      some (regEntry s inputs i) := by
  unfold buildEntryStore
  obtain ⟨d, hd⟩ : ∃ d, inputs.length = (i + 1) + d := ⟨inputs.length - (i + 1), by omega⟩
  rw [hd, find_entryFold_untouched s inputs _ (i + 1) d, entryFold_succ,
    find_entryStep_register s inputs hnd i hi]
  intro i1 h1 h2
  refine ⟨?_, fun k _ h => by cases h⟩
  intro heq
  injection heq with h3
  have := value_inj inputs hnd hi (by omega) h3
  omega

theorem find_entryStore_chain (s : ConstraintSolver) (inputs : List InputValue)
    (hnd : (inputs.map (fun a => a.value)).Nodup) (i : Nat) (hi : i < inputs.length) (k : Nat)
    (hk : k < (inputs.getD i default).ptr_nest_level) :
    Assoc.find (buildEntryStore s inputs)
        (AbstractLocation.RuntimeMemory (inputs.getD i default).value k) =
      some [(AbstractLocation.RuntimeMemory (inputs.getD i default).value (k + 1),
        Constraint.Top)] := by
  unfold buildEntryStore
  obtain ⟨d, hd⟩ : ∃ d, inputs.length = (i + 1) + d := ⟨inputs.length - (i + 1), by omega⟩
  rw [hd, find_entryFold_untouched s inputs _ (i + 1) d, entryFold_succ,
    find_entryStep_chain s inputs i _ k hk]
  intro i1 h1 h2
  refine ⟨(fun h => by cases h), ?_⟩
  intro k1 _ heq
  injection heq with h3 _
  have := value_inj inputs hnd hi (by omega) h3
  omega

theorem entryStore_key_cases (s : ConstraintSolver) (inputs : List InputValue)
    (key : AbstractLocation) (h : key ∈ Assoc.keys (buildEntryStore s inputs)) :
    ∃ i, i < inputs.length ∧
      (key = AbstractLocation.Register (inputs.getD i default).value ∨
        ∃ k, k < (inputs.getD i default).ptr_nest_level ∧
          key = AbstractLocation.RuntimeMemory (inputs.getD i default).value k) := by
  by_contra hcon
  simp only [not_exists, not_and, not_or] at hcon
  have hnone : Assoc.find (buildEntryStore s inputs) key = none := by
    unfold buildEntryStore
    have := find_entryFold_untouched s inputs key 0 inputs.length
      (fun i _ h2 => ⟨(hcon i (by omega)).1, fun k hk => (hcon i (by omega)).2 k hk⟩)
    rw [Nat.zero_add] at this
    rw [this]
    rfl
  exact (Assoc.find_eq_none_iff _ _).1 hnone h

theorem find_moveToRegFile {C : Type} (store : AbstractStore C) :
    ∀ (regfile : AbstractRegFile C) (v : ValueId), (Assoc.keys store).Nodup →
      Assoc.find (moveToRegFile store regfile) v =
        (match Assoc.find store (AbstractLocation.Register v) with
          | some pt => some pt
          | none => Assoc.find regfile v) := by
  induction store with
  | nil => intro regfile v _; rfl
  | cons e rest ih =>
    intro regfile v hn
    obtain ⟨key, pt⟩ := e
    simp only [Assoc.keys, List.map_cons, List.nodup_cons] at hn
    cases key with
    | Register v1 =>
      simp only [moveToRegFile]
      rw [ih _ _ hn.2]
      by_cases hv : v1 = v
      · subst hv
        have hnone : Assoc.find rest (AbstractLocation.Register v1) = none :=
          (Assoc.find_eq_none_iff _ _).2 hn.1
        simp [hnone, Assoc.find, Assoc.find_assign_self]
      · have hne : AbstractLocation.Register v1 ≠ AbstractLocation.Register v := by
          intro h; injection h with h1; exact hv h1
        simp [Assoc.find, hne, Assoc.find_assign_ne _ _ (Ne.symm hv)]
    | Stack v1 => simp only [moveToRegFile]; rw [ih _ _ hn.2]; simp [Assoc.find]
    | Heap v1 => simp only [moveToRegFile]; rw [ih _ _ hn.2]; simp [Assoc.find]
    | RuntimeMemory a k => simp only [moveToRegFile]; rw [ih _ _ hn.2]; simp [Assoc.find]
    | ProgramValue v1 => simp only [moveToRegFile]; rw [ih _ _ hn.2]; simp [Assoc.find]

theorem mem_moveToRegFile {C : Type} (store : AbstractStore C) :
    ∀ (regfile : AbstractRegFile C) (v : ValueId) (pt : PointToMap C),
      (v, pt) ∈ moveToRegFile store regfile →
        (v, pt) ∈ regfile ∨ (AbstractLocation.Register v, pt) ∈ store := by
  induction store with
  | nil => intro regfile v pt h; exact Or.inl h
  | cons e rest ih =>
    intro regfile v pt h
    obtain ⟨key, pt1⟩ := e
    cases key with
    | Register v1 =>
      simp only [moveToRegFile] at h
      rcases ih _ _ _ h with h1 | h1
      · rcases Assoc.mem_assign _ _ _ _ h1 with h2 | h2
        · simp only [Prod.mk.injEq] at h2
          right
          rw [h2.1, h2.2]
          exact List.mem_cons_self _ _
        · exact Or.inl h2
      · exact Or.inr (List.mem_cons_of_mem _ h1)
    | Stack v1 =>
      simp only [moveToRegFile] at h
      exact (ih _ _ _ h).imp id (List.mem_cons_of_mem _)
    | Heap v1 =>
      simp only [moveToRegFile] at h
      exact (ih _ _ _ h).imp id (List.mem_cons_of_mem _)
    | RuntimeMemory a k =>
      simp only [moveToRegFile] at h
      exact (ih _ _ _ h).imp id (List.mem_cons_of_mem _)
    | ProgramValue v1 =>
      simp only [moveToRegFile] at h
      exact (ih _ _ _ h).imp id (List.mem_cons_of_mem _)

theorem create_eq (inputs : List InputValue) :
    ∃ s, applyRejections (rejectionCalls inputs) (ConstraintSolver.create inputs.length)
        = some s ∧
      AnalysisContext_create inputs = some
        { smt_solver_ := s
          entry_store_ := (buildEntryStore s inputs).filter (fun e => !e.1.isRegister)
          regfile_ := moveToRegFile (buildEntryStore s inputs) [] } := by
  have hne : ∀ p ∈ rejectionCalls inputs, p.1 ≠ p.2 := by
    rintro ⟨i, j⟩ hp
    have := (mem_rejectionCalls inputs i j).1 hp
    simp only
    omega
  obtain ⟨s, hs⟩ := applyRejections_isSome (rejectionCalls inputs)
    (ConstraintSolver.create inputs.length) hne
  exact ⟨s, hs, by simp only [AnalysisContext_create, hs]⟩

theorem find_regfile_input (s : ConstraintSolver) (inputs : List InputValue)
    (hnd : (inputs.map (fun a => a.value)).Nodup) (i : Nat) (hi : i < inputs.length) :
    Assoc.find (moveToRegFile (buildEntryStore s inputs) []) (inputs.getD i default).value =
      some (regEntry s inputs i) := by
  have hn : (Assoc.keys (buildEntryStore s inputs)).Nodup :=
    nodup_keys_entryFold s inputs inputs.length
  rw [find_moveToRegFile _ _ _ hn, find_entryStore_register s inputs hnd i hi]

/-- C16: for pairwise distinct inputs the constructor returns a state in which
the register-file entry of every input `arg_i` is exactly the map with the
target `RuntimeMemory(arg_i, 0)` under `MakeAliasConstraint(i, i)` and, for
every `j < i` with `TestAlias(i, j)` true, the target `RuntimeMemory(arg_j, 0)`
under `MakeAliasConstraint(i, j)` (in ascending `j`), and in which no key of the
entry store has the tag `Register`. -/
theorem constructor_regfile_entries (inputs : List InputValue)
    (hnd : (inputs.map (fun a => a.value)).Nodup) :
    ∃ st, AnalysisContext_create inputs = some st ∧
      (∀ i, i < inputs.length →
        Assoc.find st.regfile_ (inputs.getD i default).value = some
          ((AbstractLocation.RuntimeMemory (inputs.getD i default).value 0,
              st.smt_solver_.MakeAliasConstraint i i) ::
            ((List.range i).filter (fun j => st.smt_solver_.TestAlias i j)).map (fun j =>
              (AbstractLocation.RuntimeMemory (inputs.getD j default).value 0,
                st.smt_solver_.MakeAliasConstraint i j)))) ∧
      (∀ e ∈ st.entry_store_, e.1.isRegister = false) := by
  obtain ⟨s, _, hc⟩ := create_eq inputs
  refine ⟨_, hc, ?_, ?_⟩
  · intro i hi
    exact find_regfile_input s inputs hnd i hi
  · intro e he
    have := (List.mem_filter.1 he).2
    simpa using this

/-- Witness of C16: a pointer argument (value 10) and a pointer global of the
same type (value 11). -/
theorem constructor_regfile_entries_witness :
    ∃ st, AnalysisContext_create
        [⟨10, 7, true, 1, false⟩, ⟨11, 7, true, 1, true⟩] = some st ∧
      (∀ i, i < 2 →
        Assoc.find st.regfile_
            (([⟨10, 7, true, 1, false⟩, ⟨11, 7, true, 1, true⟩] :
              List InputValue).getD i default).value = some
          ((AbstractLocation.RuntimeMemory
              (([⟨10, 7, true, 1, false⟩, ⟨11, 7, true, 1, true⟩] :
                List InputValue).getD i default).value 0,
              st.smt_solver_.MakeAliasConstraint i i) ::
            ((List.range i).filter (fun j => st.smt_solver_.TestAlias i j)).map (fun j =>
              (AbstractLocation.RuntimeMemory
                (([⟨10, 7, true, 1, false⟩, ⟨11, 7, true, 1, true⟩] :
                  List InputValue).getD j default).value 0,
                st.smt_solver_.MakeAliasConstraint i j)))) ∧
      (∀ e ∈ st.entry_store_, e.1.isRegister = false) :=
  constructor_regfile_entries [⟨10, 7, true, 1, false⟩, ⟨11, 7, true, 1, true⟩] (by decide)

theorem mem_keys_regEntry (s : ConstraintSolver) (inputs : List InputValue) (i : Nat)
    (t : AbstractLocation) (h : t ∈ Assoc.keys (regEntry s inputs i)) :
    ∃ j, j ≤ i ∧ t = AbstractLocation.RuntimeMemory (inputs.getD j default).value 0 := by
  unfold regEntry Assoc.keys at h
  simp only [List.map_cons, List.map_map, List.mem_cons, List.mem_map, List.mem_filter,
    List.mem_range, Function.comp] at h
  rcases h with h | ⟨j, ⟨hj, _⟩, h⟩
  · exact ⟨i, Nat.le_refl i, h⟩
  · exact ⟨j, by omega, h.symm⟩

/-- C15 as stated fails: for the single input `p` (value 10) with
pointer-nesting level 1, the entry store maps `RuntimeMemory(p, 0)` to the
target `RuntimeMemory(p, 1)`, a location with `k = 1 > L - 1`. -/
theorem entry_chain_counterexample :
    AnalysisContext_create [⟨10, 7, true, 1, false⟩] = some
        { smt_solver_ := ConstraintSolver.create 1
          entry_store_ := [(AbstractLocation.RuntimeMemory 10 0,
            [(AbstractLocation.RuntimeMemory 10 1, Constraint.Top)])]
          regfile_ := [(10, [(AbstractLocation.RuntimeMemory 10 0, Constraint.Bottom)])] } ∧
      AbstractLocation.RuntimeMemory 10 1 ∈
        (EntryState.mk (ConstraintSolver.create 1)
          [(AbstractLocation.RuntimeMemory 10 0,
            [(AbstractLocation.RuntimeMemory 10 1, Constraint.Top)])]
          [(10, [(AbstractLocation.RuntimeMemory 10 0, Constraint.Bottom)])]).locations ∧
      ¬ (1 ≤ 1 - 1) := by
  refine ⟨rfl, by decide, by decide⟩

/-- C15, amended: for pairwise distinct inputs and every input `arg_i` with
pointer-nesting level `L_i`, the constructor returns a state in which the
locations `RuntimeMemory(arg_i, k)` that appear as a key or as a target are
exactly those with `0 <= k <= L_i`, and those that are keys of the entry store
are exactly those with `0 <= k <= L_i - 1` (`k < L_i`). -/
theorem entry_chain_locations (inputs : List InputValue)
    (hnd : (inputs.map (fun a => a.value)).Nodup) (i : Nat) (hi : i < inputs.length) :
    ∃ st, AnalysisContext_create inputs = some st ∧
      ∀ k,
        (AbstractLocation.RuntimeMemory (inputs.getD i default).value k ∈ st.locations ↔
          k ≤ (inputs.getD i default).ptr_nest_level) ∧
        (AbstractLocation.RuntimeMemory (inputs.getD i default).value k ∈
            Assoc.keys st.entry_store_ ↔
          k < (inputs.getD i default).ptr_nest_level) := by
  obtain ⟨s, _, hc⟩ := create_eq inputs
  refine ⟨_, hc, ?_⟩
  intro k
  have hn : (Assoc.keys (buildEntryStore s inputs)).Nodup :=
    nodup_keys_entryFold s inputs inputs.length
  -- a non-register entry of the full store is an entry of the entry store
  have hkeep : ∀ key pt, Assoc.find (buildEntryStore s inputs) key = some pt →
      key.isRegister = false →
      (key, pt) ∈ (buildEntryStore s inputs).filter (fun e => !e.1.isRegister) := by
    intro key pt hf hr
    exact List.mem_filter.2 ⟨Assoc.mem_of_find _ _ _ hf, by simp [hr]⟩
  -- keys of the entry store
  have hkey : AbstractLocation.RuntimeMemory (inputs.getD i default).value k ∈
      Assoc.keys ((buildEntryStore s inputs).filter (fun e => !e.1.isRegister)) ↔
      k < (inputs.getD i default).ptr_nest_level := by
    constructor
    · intro h
      obtain ⟨e, he, hek⟩ := List.mem_map.1 h
      have hmem : AbstractLocation.RuntimeMemory (inputs.getD i default).value k ∈
          Assoc.keys (buildEntryStore s inputs) :=
        List.mem_map.2 ⟨e, (List.mem_filter.1 he).1, hek⟩
      obtain ⟨i1, hi1, hcase⟩ := entryStore_key_cases s inputs _ hmem
      rcases hcase with h1 | ⟨k1, hk1, h1⟩
      · cases h1
      · injection h1 with h2 h3
        have := value_inj inputs hnd hi hi1 h2
        subst this
        omega
    · intro h
      exact List.mem_map.2 ⟨_, hkeep _ _ (find_entryStore_chain s inputs hnd i hi k h) rfl, rfl⟩
  refine ⟨?_, hkey⟩
  unfold EntryState.locations
  simp only [List.mem_append]
  constructor
  · rintro ((h | h) | h)
    · have := hkey.1 h
      omega
    · obtain ⟨e, he, ht⟩ := List.mem_flatMap.1 h
      obtain ⟨key, pt⟩ := e
      have hmem := List.mem_filter.1 he
      have hfind := Assoc.find_of_mem _ _ _ hn hmem.1
      obtain ⟨i1, hi1, hcase⟩ := entryStore_key_cases s inputs key
        (List.mem_map.2 ⟨(key, pt), hmem.1, rfl⟩)
      rcases hcase with h1 | ⟨k1, hk1, h1⟩
      · subst h1
        simp [AbstractLocation.isRegister] at hmem
      · subst h1
        rw [find_entryStore_chain s inputs hnd i1 hi1 k1 hk1] at hfind
        simp only [Option.some.injEq] at hfind
        subst hfind
        simp only [Assoc.keys, List.map_cons, List.map_nil, List.mem_singleton] at ht
        injection ht with h2 h3
        have := value_inj inputs hnd hi hi1 h2
        subst this
        omega
    · obtain ⟨e, he, ht⟩ := List.mem_flatMap.1 h
      obtain ⟨v, pt⟩ := e
      rcases mem_moveToRegFile _ _ _ _ he with h1 | h1
      · simp at h1
      · have hfind := Assoc.find_of_mem _ _ _ hn h1
        obtain ⟨i1, hi1, hcase⟩ := entryStore_key_cases s inputs _
          (List.mem_map.2 ⟨_, h1, rfl⟩)
        rcases hcase with h2 | ⟨k1, _, h2⟩
        · injection h2 with h3
          subst h3
          rw [find_entryStore_register s inputs hnd i1 hi1] at hfind
          simp only [Option.some.injEq] at hfind
          subst hfind
          obtain ⟨j, _, hj⟩ := mem_keys_regEntry s inputs i1 _ ht
          injection hj with _ h4
          omega
        · cases h2
  · intro hk
    rcases Nat.eq_zero_or_pos k with h0 | hpos
    · subst h0
      right
      refine List.mem_flatMap.2 ⟨((inputs.getD i default).value, regEntry s inputs i), ?_, ?_⟩
      · exact Assoc.mem_of_find _ _ _ (find_regfile_input s inputs hnd i hi)
      · simp [regEntry, Assoc.keys]
    · left; right
      obtain ⟨k1, rfl⟩ : ∃ k1, k = k1 + 1 := ⟨k - 1, by omega⟩
      refine List.mem_flatMap.2 ⟨_, hkeep _ _
        (find_entryStore_chain s inputs hnd i hi k1 (by omega)) rfl, ?_⟩
      simp [Assoc.keys]

/-- Witness of C15 amended: the single input `p` (value 10) of level 1. -/
theorem entry_chain_locations_witness :
    ∃ st, AnalysisContext_create [⟨10, 7, true, 1, false⟩] = some st ∧
      ∀ k,
        (AbstractLocation.RuntimeMemory
            (([⟨10, 7, true, 1, false⟩] : List InputValue).getD 0 default).value k ∈
              st.locations ↔
          k ≤ (([⟨10, 7, true, 1, false⟩] : List InputValue).getD 0 default).ptr_nest_level) ∧
        (AbstractLocation.RuntimeMemory
            (([⟨10, 7, true, 1, false⟩] : List InputValue).getD 0 default).value k ∈
              Assoc.keys st.entry_store_ ↔
          k < (([⟨10, 7, true, 1, false⟩] : List InputValue).getD 0 default).ptr_nest_level) :=
  entry_chain_locations [⟨10, 7, true, 1, false⟩] (by decide) 0 (by decide)

theorem getD_set_true_mono (l : List Bool) (k m : Nat) (h : l.getD m false = true) :
    (l.set k true).getD m false = true := by
  by_cases hkm : k = m
  · subst hkm
    by_cases hlt : k < l.length
    · exact ConstraintSolver.getD_set_self l k hlt
    · simp [List.getD_eq_getElem?_getD, List.getElem?_eq_none (Nat.le_of_not_lt hlt)] at h
  · simp only [List.getD_eq_getElem?_getD, List.getElem?_set_ne hkm]
    simpa [List.getD_eq_getElem?_getD] using h

theorem TestAlias_mono (s s1 : ConstraintSolver) {a b : Nat} (i j : Nat)
    (h : s.RejectAlias a b = some s1) (ht : s.TestAlias i j = true) :
    s1.TestAlias i j = true := by
  by_cases hab : a = b
  · simp [ConstraintSolver.RejectAlias, hab] at h
  · rw [ConstraintSolver.RejectAlias_eq s hab] at h
    split at h
    · simp only [Option.some.injEq] at h
      subst h
      unfold ConstraintSolver.TestAlias at ht ⊢
      exact getD_set_true_mono _ _ _ ht
    · simp only [Option.some.injEq] at h
      subst h
      exact ht

theorem applyRejections_mono (calls : List (Nat × Nat)) (i j : Nat) :
    ∀ s s1 : ConstraintSolver, applyRejections calls s = some s1 →
      s.TestAlias i j = true → s1.TestAlias i j = true := by
  induction calls with
  | nil =>
    intro s s1 h ht
    simp only [applyRejections, Option.some.injEq] at h
    subst h
    exact ht
  | cons p rest ih =>
    intro s s1 h ht
    obtain ⟨a, b⟩ := p
    simp only [applyRejections] at h
    cases hr : s.RejectAlias a b with
    | none => simp [hr] at h
    | some s2 =>
      simp only [hr] at h
      exact ih s2 s1 h (TestAlias_mono s s2 i j hr ht)

theorem applyRejections_TestAlias (calls : List (Nat × Nat)) (i j : Nat) (hij : i ≠ j) :
    ∀ s s1 : ConstraintSolver, s.WellFormed → i < s.num_inputs_ → j < s.num_inputs_ →
      applyRejections calls s = some s1 → (i, j) ∈ calls → s1.TestAlias i j = true := by
  induction calls with
  | nil => intro s s1 _ _ _ _ hmem; simp at hmem
  | cons p rest ih =>
    intro s s1 hwf hi hj h hmem
    obtain ⟨a, b⟩ := p
    simp only [applyRejections] at h
    cases hr : s.RejectAlias a b with
    | none => simp [hr] at h
    | some s2 =>
      simp only [hr] at h
      rcases List.mem_cons.1 hmem with heq | hrest
      · simp only [Prod.mk.injEq] at heq
        obtain ⟨rfl, rfl⟩ := heq
        exact applyRejections_mono rest i j s2 s1 h
          (ConstraintSolver.TestAlias_of_RejectAlias s s2 hi hj hij hwf hr)
      · have hn := ConstraintSolver.RejectAlias_num_inputs s s2 hr
        exact ih s2 s1 (ConstraintSolver.RejectAlias_wellFormed s s2 hwf hr)
          (by rw [hn]; exact hi) (by rw [hn]; exact hj) h hrest

theorem MakeAliasConstraint_ne_Bottom (s : ConstraintSolver) {i j : Nat} (hij : i ≠ j)
    (ht : s.TestAlias i j = true) : s.MakeAliasConstraint i j ≠ Constraint.Bottom := by
  have ht1 : s.TestAlias j i = true := by rw [ConstraintSolver.TestAlias_comm]; exact ht
  have hne : ConstraintSolver.aliasConjuncts (fun k => !s.TestAlias k i) i j ≠ [] := by
    simp [ConstraintSolver.aliasConjuncts, hij]
  rw [ConstraintSolver.MakeAliasConstraint_eq, if_pos ht1, ConstraintSolver.conjunction,
    if_neg hne]
  simp [Constraint.ofAst]

/-- C14, the code on every pair to which a rejection rule applies: for
pairwise distinct inputs and `j < i` such that one of the four rules rejects the
pair, the constructor returns a state in which `TestAlias(i, j)` is true and
the register-file entry of `arg_i` has the target `RuntimeMemory(arg_j, 0)`,
under the constraint `MakeAliasConstraint(i, j)`, which is not Bottom: the
cross edge that the claim excludes is present. -/
theorem constructor_cross_edge_of_rejected (inputs : List InputValue)
    (hnd : (inputs.map (fun a => a.value)).Nodup) (i j : Nat) (hji : j < i)
    (hi : i < inputs.length)
    (hrule : rejectsAlias (inputs.getD i default) (inputs.getD j default) = true) :
    ∃ st, AnalysisContext_create inputs = some st ∧
      st.smt_solver_.TestAlias i j = true ∧
      st.smt_solver_.MakeAliasConstraint i j ≠ Constraint.Bottom ∧
      ∃ pt, Assoc.find st.regfile_ (inputs.getD i default).value = some pt ∧
        Assoc.find pt (AbstractLocation.RuntimeMemory (inputs.getD j default).value 0) =
          some (st.smt_solver_.MakeAliasConstraint i j) := by
  obtain ⟨s, hs, hc⟩ := create_eq inputs
  have hwf : (ConstraintSolver.create inputs.length).WellFormed := by
    simp [ConstraintSolver.WellFormed, ConstraintSolver.create]
  have ht : s.TestAlias i j = true :=
    applyRejections_TestAlias _ i j (by omega) _ s hwf hi (by
      show j < inputs.length
      omega) hs ((mem_rejectionCalls inputs i j).2 ⟨hji, hi, hrule⟩)
  refine ⟨_, hc, ht, MakeAliasConstraint_ne_Bottom s (by omega) ht, regEntry s inputs i,
    find_regfile_input s inputs hnd i hi, ?_⟩
  have hmem : (AbstractLocation.RuntimeMemory (inputs.getD j default).value 0,
      s.MakeAliasConstraint i j) ∈ regEntry s inputs i := by
    unfold regEntry
    refine List.mem_cons_of_mem _ (List.mem_map.2 ⟨j, ?_, rfl⟩)
    simp [List.mem_filter, hji, ht]
  refine Assoc.find_of_mem _ _ _ ?_ hmem
  unfold regEntry Assoc.keys
  simp only [List.map_cons, List.map_map, List.nodup_cons, List.mem_map, List.mem_filter,
    List.mem_range, Function.comp, not_exists, not_and]
  refine ⟨?_, ?_⟩
  · intro j1 hj1 heq
    injection heq with h1 _
    have := value_inj inputs hnd (by omega) hi h1
    omega
  · refine List.Nodup.map_on ?_ ((List.nodup_range i).filter _)
    intro a ha b hb heq
    injection heq with h1 _
    have ha1 := (List.mem_filter.1 ha).1
    have hb1 := (List.mem_filter.1 hb).1
    simp only [List.mem_range] at ha1 hb1
    exact value_inj inputs hnd (by omega) (by omega) h1

/-- Witness of C14: the two distinct pointer globals `G` (value 10) and `H`
(value 11) of the same type. -/
theorem constructor_cross_edge_of_rejected_witness :
    ∃ st, AnalysisContext_create
        [⟨10, 7, true, 1, true⟩, ⟨11, 7, true, 1, true⟩] = some st ∧
      st.smt_solver_.TestAlias 1 0 = true ∧
      st.smt_solver_.MakeAliasConstraint 1 0 ≠ Constraint.Bottom ∧
      ∃ pt, Assoc.find st.regfile_
          (([⟨10, 7, true, 1, true⟩, ⟨11, 7, true, 1, true⟩] :
            List InputValue).getD 1 default).value = some pt ∧
        Assoc.find pt (AbstractLocation.RuntimeMemory
          (([⟨10, 7, true, 1, true⟩, ⟨11, 7, true, 1, true⟩] :
            List InputValue).getD 0 default).value 0) =
          some (st.smt_solver_.MakeAliasConstraint 1 0) :=
  constructor_cross_edge_of_rejected [⟨10, 7, true, 1, true⟩, ⟨11, 7, true, 1, true⟩]
    (by decide) 1 0 (by decide) (by decide) (by decide)

/-! ## Result store and input store of a block -/

theorem find_foldl_assign_register_of_not_mem {C : Type} (r : ValueId) :
    ∀ (l : AbstractRegFile C) (st : AbstractStore C), r ∉ Assoc.keys l →
      Assoc.find (l.foldl (fun result e =>
          Assoc.assign result (AbstractLocation.Register e.1) e.2) st)
        (AbstractLocation.Register r) = Assoc.find st (AbstractLocation.Register r) := by
  intro l
  induction l with
  | nil => intro st _; rfl
  | cons e rest ih =>
    intro st h
    obtain ⟨v, pt⟩ := e
    simp only [Assoc.keys, List.map_cons, List.mem_cons, not_or] at h
    rw [List.foldl_cons, ih _ h.2]
    have hne : AbstractLocation.Register r ≠ AbstractLocation.Register v := by
      intro heq; injection heq with h1; exact h.1 h1
    exact Assoc.find_assign_ne _ _ hne

theorem find_foldl_assign_register {C : Type} (r : ValueId) (pt : PointToMap C) :
    ∀ (l : AbstractRegFile C) (st : AbstractStore C), (Assoc.keys l).Nodup → (r, pt) ∈ l →
      Assoc.find (l.foldl (fun result e =>
          Assoc.assign result (AbstractLocation.Register e.1) e.2) st)
        (AbstractLocation.Register r) = some pt := by
  intro l
  induction l with
  | nil => intro st _ h; simp at h
  | cons e rest ih =>
    intro st hn h
    obtain ⟨v, pt1⟩ := e
    simp only [Assoc.keys, List.map_cons, List.nodup_cons] at hn
    rw [List.foldl_cons]
    rcases List.mem_cons.1 h with heq | hmem
    · simp only [Prod.mk.injEq] at heq
      obtain ⟨rfl, rfl⟩ := heq
      rw [find_foldl_assign_register_of_not_mem r rest _ hn.1]
      exact Assoc.find_assign_self _ _ _
    · exact ih _ hn.2 hmem

theorem mem_keys_NormalizeStore {C : Type} (TestSat : C → Bool) (Simplify : C → C)
    (store : AbstractStore C) (key : AbstractLocation) (pt : PointToMap C)
    (hmem : (key, pt) ∈ store) (t : AbstractLocation × C) (ht : t ∈ pt)
    (hsat : TestSat (Simplify t.2) = true) :
    key ∈ Assoc.keys (NormalizeStore TestSat Simplify store) := by
  unfold NormalizeStore Assoc.keys
  refine List.mem_map.2 ⟨(key, (pt.map (fun t => (t.1, Simplify t.2))).filter
    (fun t => TestSat t.2)), List.mem_filter.2 ⟨List.mem_map.2 ⟨(key, pt), hmem, rfl⟩, ?_⟩, rfl⟩
  have hin : (t.1, Simplify t.2) ∈ (pt.map (fun t => (t.1, Simplify t.2))).filter
      (fun t => TestSat t.2) :=
    List.mem_filter.2 ⟨List.mem_map.2 ⟨t, ht, rfl⟩, hsat⟩
  cases hl : (pt.map (fun t => (t.1, Simplify t.2))).filter (fun t => TestSat t.2) with
  | nil => rw [hl] at hin; simp at hin
  | cons a b => simp

/-- C18 as stated fails: for a function whose only block leaves the empty
store in the cache and whose register file holds the register of an `alloca`
(value 5) pointing to `Stack(5)` under Top, `BuildResultStore` builds a result
store whose only key is the register location `Register(5)`. -/
theorem BuildResultStore_register_counterexample :
    BuildResultStore (TestSatisfiability (fun _ : Z3Expr => true)) id
        (fun b => if b = 0 then some [] else none) 0
        [(5, [(AbstractLocation.Stack 5, Constraint.Top)])] =
      some [(AbstractLocation.Register 5, [(AbstractLocation.Stack 5, Constraint.Top)])] ∧
    (AbstractLocation.Register 5).isRegister = true := by
  decide

/-- C18, amended: when the last block has a cached store, `BuildResultStore`
returns a result store that has the key `Register(reg)` for every entry `reg`
of the register file whose points-to map has a target that is satisfiable after
simplification: the result store, installed as the summary store, does map
register locations. -/
theorem BuildResultStore_register_keys {C : Type} (TestSat : C → Bool) (Simplify : C → C)
    (exec_store_cache_ : BlockId → Option (AbstractStore C)) (last_block : BlockId)
    (regfile_ : AbstractRegFile C) (cached : AbstractStore C)
    (hc : exec_store_cache_ last_block = some cached) (hnd : (Assoc.keys regfile_).Nodup)
    (reg : ValueId) (pt : PointToMap C) (hreg : (reg, pt) ∈ regfile_)
    (t : AbstractLocation × C) (ht : t ∈ pt) (hsat : TestSat (Simplify t.2) = true) :
    ∃ result, BuildResultStore TestSat Simplify exec_store_cache_ last_block regfile_
        = some result ∧
      AbstractLocation.Register reg ∈ Assoc.keys result := by
  unfold BuildResultStore
  rw [hc]
  refine ⟨_, rfl, ?_⟩
  exact mem_keys_NormalizeStore TestSat Simplify _ _ pt
    (Assoc.mem_of_find _ _ _ (find_foldl_assign_register reg pt regfile_ cached hnd hreg))
    t ht hsat

/-- Witness of C18 amended: the register of an `alloca` and an empty cached
store of the last block. -/
theorem BuildResultStore_register_keys_witness :
    ∃ result, BuildResultStore (TestSatisfiability (fun _ : Z3Expr => true)) id
        (fun b => if b = 0 then some [] else none) 0
        [(5, [(AbstractLocation.Stack 5, Constraint.Top)])] = some result ∧
      AbstractLocation.Register 5 ∈ Assoc.keys result :=
  BuildResultStore_register_keys (TestSatisfiability (fun _ : Z3Expr => true)) id
    (fun b => if b = 0 then some [] else none) 0
    [(5, [(AbstractLocation.Stack 5, Constraint.Top)])] [] rfl (by decide) 5
    [(AbstractLocation.Stack 5, Constraint.Top)] (by decide)
    (AbstractLocation.Stack 5, Constraint.Top) (by decide) rfl

theorem initFold_empty {C : Type}
    (MergeAbstractStore : AbstractStore C → AbstractStore C → AbstractStore C)
    (exec_store_cache_ : BlockId → Option (AbstractStore C)) (predecessors : List BlockId)
    (h : ∀ p ∈ predecessors, exec_store_cache_ p = none ∨ exec_store_cache_ p = some []) :
    predecessors.foldl (fun acc pred_bb =>
      match exec_store_cache_ pred_bb with
      | some store => if acc.isEmpty then store else MergeAbstractStore acc store
      | none => acc) [] = [] := by
  induction predecessors with
  | nil => rfl
  | cons p rest ih =>
    rw [List.foldl_cons]
    rcases h p (List.mem_cons_self _ _) with h1 | h1
    · rw [h1]
      exact ih (fun q hq => h q (List.mem_cons_of_mem _ hq))
    · rw [h1]
      exact ih (fun q hq => h q (List.mem_cons_of_mem _ hq))

/-- C20, the code on a block that has predecessors: when the block has at
least one predecessor and every predecessor either has no cached store yet or
has cached the empty store, `InitializeExecution` hands out the entry store of
the function, although the block is not a block without predecessors. -/
theorem InitializeExecution_entry_store {C : Type}
    (MergeAbstractStore : AbstractStore C → AbstractStore C → AbstractStore C)
    (predecessors : List BlockId) (exec_store_cache_ : BlockId → Option (AbstractStore C))
    (entry_store_ : AbstractStore C) (hp : predecessors ≠ [])
    (h : ∀ p ∈ predecessors, exec_store_cache_ p = none ∨ exec_store_cache_ p = some []) :
    InitializeExecution MergeAbstractStore predecessors exec_store_cache_ entry_store_
      = entry_store_ := by
  have _ := hp
  unfold InitializeExecution
  simp only
  rw [initFold_empty MergeAbstractStore exec_store_cache_ predecessors h]
  rfl

/-- Witness of C20: a block whose only predecessor, block 2, is not analysed
yet, in a function with the entry store of one pointer input. -/
theorem InitializeExecution_entry_store_witness :
    InitializeExecution (fun a b => a ++ b) [2] (fun _ => none)
        [(AbstractLocation.RuntimeMemory 10 0,
          [(AbstractLocation.RuntimeMemory 10 1, (Constraint.Top : Constraint Z3Expr))])] =
      [(AbstractLocation.RuntimeMemory 10 0,
        [(AbstractLocation.RuntimeMemory 10 1, Constraint.Top)])] :=
  InitializeExecution_entry_store (fun a b => a ++ b) [2] (fun _ => none)
    [(AbstractLocation.RuntimeMemory 10 0,
      [(AbstractLocation.RuntimeMemory 10 1, (Constraint.Top : Constraint Z3Expr))])]
    (by decide) (fun _ _ => Or.inl rfl)

/-! ## Read-after-write dependencies -/

theorem iterationOrder_perm {α : Type} (choice : Nat) (entries : List α) :
    (iterationOrder choice entries).Perm entries := by
  unfold iterationOrder
  rw [List.getD_eq_getElem?_getD]
  cases h : (List.permutations' entries)[choice]? with
  | none => exact List.Perm.refl _
  | some l =>
    obtain ⟨hn, hget⟩ := List.getElem?_eq_some.1 h
    have hmem : l ∈ List.permutations' entries := hget ▸ List.getElem_mem hn
    exact List.mem_permutations'.1 hmem

theorem iterationOrder_surjective {α : Type} (entries visited : List α)
    (h : visited.Perm entries) : ∃ choice, iterationOrder choice entries = visited := by
  have hmem : visited ∈ List.permutations' entries := List.mem_permutations'.2 h
  obtain ⟨n, hn, hget⟩ := List.getElem_of_mem hmem
  refine ⟨n, ?_⟩
  unfold iterationOrder
  rw [List.getD_eq_getElem?_getD, List.getElem?_eq_getElem hn, hget]
  rfl

theorem mem_iterationOrder {α : Type} (choice : Nat) (entries : List α) (e : α) :
    e ∈ iterationOrder choice entries ↔ e ∈ entries :=
  (iterationOrder_perm choice entries).mem_iff

theorem foldOpt_none_of_mem {α β : Type} (f : β → α → Option β) (x : α)
    (hx : ∀ b, f b x = none) : ∀ (l : List α) (b : β), x ∈ l → foldOpt f l b = none := by
  intro l
  induction l with
  | nil => intro b h; simp at h
  | cons a rest ih =>
    intro b h
    rw [foldOpt]
    cases hf : f b a with
    | none => rfl
    | some b1 =>
      simp only
      rcases List.mem_cons.1 h with heq | hmem
      · subst heq
        rw [hx b] at hf
        cases hf
      · exact ih b1 hmem

theorem foldOpt_establish {α β : Type} (f : β → α → Option β) (P : β → Prop) (x : α)
    (hpres : ∀ b a b1, f b a = some b1 → P b → P b1)
    (hest : ∀ b b1, f b x = some b1 → P b1) :
    ∀ (l : List α) (b b1 : β), x ∈ l → foldOpt f l b = some b1 → P b1 := by
  have hkeep : ∀ (l : List α) (b b1 : β), P b → foldOpt f l b = some b1 → P b1 := by
    intro l
    induction l with
    | nil =>
      intro b b1 hb h
      simp only [foldOpt, Option.some.injEq] at h
      subst h
      exact hb
    | cons a rest ih =>
      intro b b1 hb h
      rw [foldOpt] at h
      cases hf : f b a with
      | none => rw [hf] at h; cases h
      | some b2 =>
        rw [hf] at h
        exact ih b2 b1 (hpres b a b2 hf hb) h
  intro l
  induction l with
  | nil => intro b b1 h; simp at h
  | cons a rest ih =>
    intro b b1 hmem h
    rw [foldOpt] at h
    cases hf : f b a with
    | none => rw [hf] at h; cases h
    | some b2 =>
      rw [hf] at h
      simp only at h
      rcases List.mem_cons.1 hmem with heq | hrest
      · subst heq
        exact hkeep rest b2 b1 (hest b b2 hf) h
      · exact ih b2 b1 hrest h

theorem foldOpt_preserve {α β : Type} (f : β → α → Option β) (P : β → Prop)
    (hpres : ∀ b a b1, f b a = some b1 → P b → P b1) :
    ∀ (l : List α) (b b1 : β), P b → foldOpt f l b = some b1 → P b1 := by
  intro l
  induction l with
  | nil =>
    intro b b1 hb h
    simp only [foldOpt, Option.some.injEq] at h
    subst h
    exact hb
  | cons a rest ih =>
    intro b b1 hb h
    rw [foldOpt] at h
    cases hf : f b a with
    | none => rw [hf] at h; cases h
    | some b2 =>
      rw [hf] at h
      exact ih b2 b1 (hpres b a b2 hf hb) h

theorem foldOpt_step_of_mem {α β : Type} (f : β → α → Option β) (x : α) :
    ∀ (l : List α) (b b1 : β), x ∈ l → foldOpt f l b = some b1 →
      ∃ b2 b3, f b2 x = some b3 := by
  intro l
  induction l with
  | nil => intro b b1 h; simp at h
  | cons a rest ih =>
    intro b b1 hmem h
    rw [foldOpt] at h
    cases hf : f b a with
    | none => rw [hf] at h; cases h
    | some b2 =>
      rw [hf] at h
      rcases List.mem_cons.1 hmem with heq | hrest
      · subst heq
        exact ⟨b, b2, hf⟩
      · exact ih b2 b1 hrest h

theorem killSweep_flag_false {C : Type} (ctx : RAWContext C) (store_inst : InstId) (c : C) :
    ∀ (rem kept : List (InstId × C)),
      (∀ e ∈ rem, ctx.LookupExecAfterCondition store_inst e.1 ≠ ExecAfterCondition.Must) →
      (killSweep ctx store_inst c rem kept).2 = false := by
  intro rem
  induction rem with
  | nil => intro kept _; rfl
  | cons e rest ih =>
    intro kept h
    obtain ⟨dep, cdep⟩ := e
    have hd := h (dep, cdep) (List.mem_cons_self _ _)
    have hrest : ∀ e ∈ rest,
        ctx.LookupExecAfterCondition store_inst e.1 ≠ ExecAfterCondition.Must :=
      fun e he => h e (List.mem_cons_of_mem _ he)
    simp only at hd
    rw [killSweep]
    split
    · exact ih _ hrest
    · simp only [hd, decide_False, Bool.false_and, Bool.false_eq_true, if_false]
      exact ih _ hrest

theorem killSweep_keeps {C : Type} (ctx : RAWContext C) (store_inst : InstId) (c : C)
    (e0 : InstId × C)
    (h0 : ctx.LookupExecAfterCondition e0.1 store_inst ≠ ExecAfterCondition.Must) :
    ∀ (rem kept : List (InstId × C)), e0 ∈ rem ∨ e0 ∈ kept →
      e0 ∈ (killSweep ctx store_inst c rem kept).1 := by
  intro rem
  induction rem with
  | nil =>
    intro kept h
    rcases h with h | h
    · simp at h
    · exact h
  | cons e rest ih =>
    intro kept h
    obtain ⟨dep, cdep⟩ := e
    rw [killSweep]
    split
    · rename_i hkill
      have hne : e0 ≠ (dep, cdep) := by
        intro heq
        subst heq
        simp only [Bool.and_eq_true, decide_eq_true_eq] at hkill
        exact h0 hkill.1
      refine ih _ ?_
      rcases h with h | h
      · rcases List.mem_cons.1 h with h1 | h1
        · exact absurd h1 hne
        · exact Or.inl h1
      · exact Or.inr h
    · split
      · simp only [List.mem_append, List.mem_cons]
        rcases h with h | h
        · rcases List.mem_cons.1 h with h1 | h1
          · exact Or.inr (Or.inl h1)
          · exact Or.inr (Or.inr h1)
        · exact Or.inl h
      · refine ih _ ?_
        rcases h with h | h
        · rcases List.mem_cons.1 h with h1 | h1
          · exact Or.inr (List.mem_append.2 (Or.inr (by simp [h1])))
          · exact Or.inl h1
        · exact Or.inr (List.mem_append.2 (Or.inl h))

theorem killSweep_subset {C : Type} (ctx : RAWContext C) (store_inst : InstId) (c : C)
    (e0 : InstId × C) :
    ∀ (rem kept : List (InstId × C)), e0 ∈ (killSweep ctx store_inst c rem kept).1 →
      e0 ∈ rem ∨ e0 ∈ kept := by
  intro rem
  induction rem with
  | nil => intro kept h; exact Or.inr h
  | cons e rest ih =>
    intro kept h
    obtain ⟨dep, cdep⟩ := e
    rw [killSweep] at h
    split at h
    · rcases ih _ h with h1 | h1
      · exact Or.inl (List.mem_cons_of_mem _ h1)
      · exact Or.inr h1
    · split at h
      · simp only [List.mem_append, List.mem_cons] at h
        rcases h with h1 | h1 | h1
        · exact Or.inr h1
        · exact Or.inl (by rw [h1]; exact List.mem_cons_self _ _)
        · exact Or.inl (List.mem_cons_of_mem _ h1)
      · rcases ih _ h with h1 | h1
        · exact Or.inl (List.mem_cons_of_mem _ h1)
        · rcases List.mem_append.1 h1 with h2 | h2
          · exact Or.inr h2
          · simp only [List.mem_singleton] at h2
            exact Or.inl (by rw [h2]; exact List.mem_cons_self _ _)

theorem Assoc.mem_assign_self {K V : Type} [DecidableEq K] (m : List (K × V)) (k : K) (v : V) :
    (k, v) ∈ Assoc.assign m k v :=
  Assoc.mem_of_find _ _ _ (Assoc.find_assign_self m k v)

theorem Assoc.mem_assign_of_ne {K V : Type} [DecidableEq K] (m : List (K × V)) (k : K) (v : V)
    (e : K × V) (he : e ∈ m) (hne : e.1 ≠ k) : e ∈ Assoc.assign m k v := by
  induction m with
  | nil => simp at he
  | cons e1 rest ih =>
    obtain ⟨k1, v1⟩ := e1
    by_cases h1 : k1 = k
    · simp only [Assoc.assign, h1, if_true, List.mem_cons]
      rcases List.mem_cons.1 he with h | h
      · subst h
        exact absurd h1 hne
      · exact Or.inr h
    · simp only [Assoc.assign, h1, if_false, List.mem_cons]
      rcases List.mem_cons.1 he with h | h
      · exact Or.inl h
      · exact Or.inr (ih h)

theorem scanStore_invariant {C : Type} (ctx : RAWContext C) (stores : List InstId)
    (load_inst : InstId) (loc : AbstractLocation) (c_load : C) (S1 : InstId) (c1 : C)
    (hptr : ∃ m, Assoc.find ctx.regfile_ (ctx.TranslateAliasReg (ctx.getPointerOperand S1))
        = some m ∧ Assoc.findEntry m loc = some (loc, c1))
    (hmay : ∀ S ∈ stores, ctx.LookupExecAfterCondition S1 S ≠ ExecAfterCondition.Must)
    (hrun : ctx.LookupExecAfterCondition S1 load_inst ≠ ExecAfterCondition.Never)
    (deps deps1 : List (InstId × C)) (S : InstId) (hS : S ∈ stores)
    (hinv : ∀ e ∈ deps, e.1 ∈ stores)
    (h : scanStore ctx load_inst loc c_load deps S = some deps1) :
    (∀ e ∈ deps1, e.1 ∈ stores) ∧ ((S1, c1) ∈ deps → (S1, c1) ∈ deps1) ∧
      (S = S1 → (S1, c1) ∈ deps1) := by
  obtain ⟨m1, hm1, he1⟩ := hptr
  unfold scanStore at h
  split at h
  · rename_i hnever
    simp only [Option.some.injEq] at h
    subst h
    exact ⟨hinv, id, fun hS1 => absurd (hS1 ▸ hnever) hrun⟩
  · split at h
    · cases h
    · rename_i m hm
      split at h
      · rename_i hnone
        simp only [Option.some.injEq] at h
        subst h
        refine ⟨hinv, id, fun hS1 => ?_⟩
        subst hS1
        rw [hm1] at hm
        simp only [Option.some.injEq] at hm
        subst hm
        rw [he1] at hnone
        cases hnone
      · rename_i loc_store c_store hsome
        split at h
        · rename_i hprune
          simp only [Option.some.injEq] at h
          subst h
          refine ⟨hinv, id, fun hS1 => ?_⟩
          subst hS1
          rw [hm1] at hm
          simp only [Option.some.injEq] at hm
          subst hm
          rw [he1] at hsome
          simp only [Option.some.injEq, Prod.mk.injEq] at hsome
          obtain ⟨rfl, rfl⟩ := hsome
          simp at hprune
        · have hsub : ∀ e ∈ (killSweep ctx S c_store
              (iterationOrder (ctx.iterationChoice load_inst loc S deps) deps) []).1,
              e.1 ∈ stores := by
            intro e he
            rcases killSweep_subset ctx S c_store e _ [] he with h1 | h1
            · exact hinv e ((mem_iterationOrder _ _ _).1 h1)
            · simp at h1
          have hkeep : (S1, c1) ∈ deps → (S1, c1) ∈ (killSweep ctx S c_store
              (iterationOrder (ctx.iterationChoice load_inst loc S deps) deps) []).1 :=
            fun hd => killSweep_keeps ctx S c_store (S1, c1) (hmay S hS) _ []
              (Or.inl ((mem_iterationOrder _ _ _).2 hd))
          simp only at h
          split at h
          · rename_i hflag
            simp only [Option.some.injEq] at h
            subst h
            refine ⟨?_, ?_, ?_⟩
            · intro e he
              rcases Assoc.mem_assign _ _ _ _ he with h1 | h1
              · rw [h1]; exact hS
              · exact hsub e h1
            · intro hd
              by_cases hS1 : S = S1
              · subst hS1
                rw [hm1] at hm
                simp only [Option.some.injEq] at hm
                subst hm
                rw [he1] at hsome
                simp only [Option.some.injEq, Prod.mk.injEq] at hsome
                obtain ⟨_, rfl⟩ := hsome
                exact Assoc.mem_assign_self _ _ _
              · exact Assoc.mem_assign_of_ne _ _ _ _ (hkeep hd) (fun h1 => hS1 h1.symm)
            · intro hS1
              subst hS1
              rw [hm1] at hm
              simp only [Option.some.injEq] at hm
              subst hm
              rw [he1] at hsome
              simp only [Option.some.injEq, Prod.mk.injEq] at hsome
              obtain ⟨_, rfl⟩ := hsome
              exact Assoc.mem_assign_self _ _ _
          · rename_i hflag
            simp only [Option.some.injEq] at h
            subst h
            refine ⟨hsub, hkeep, fun hS1 => ?_⟩
            subst hS1
            have := killSweep_flag_false ctx S c_store
              (iterationOrder (ctx.iterationChoice load_inst loc S deps) deps) []
              (fun e he => hmay e.1 (hinv e ((mem_iterationOrder _ _ _).1 he)))
            rw [this] at hflag
            simp at hflag

theorem scan_keeps_may_store {C : Type} (ctx : RAWContext C) (stores : List InstId)
    (load_inst : InstId) (loc : AbstractLocation) (c_load : C) (S1 : InstId) (c1 : C)
    (hptr : ∃ m, Assoc.find ctx.regfile_ (ctx.TranslateAliasReg (ctx.getPointerOperand S1))
        = some m ∧ Assoc.findEntry m loc = some (loc, c1))
    (hmay : ∀ S ∈ stores, ctx.LookupExecAfterCondition S1 S ≠ ExecAfterCondition.Must)
    (hrun : ctx.LookupExecAfterCondition S1 load_inst ≠ ExecAfterCondition.Never) :
    ∀ (rest : List InstId) (deps deps1 : List (InstId × C)), (∀ S ∈ rest, S ∈ stores) →
      (∀ e ∈ deps, e.1 ∈ stores) → ((S1, c1) ∈ deps ∨ S1 ∈ rest) →
      foldOpt (scanStore ctx load_inst loc c_load) rest deps = some deps1 →
      (S1, c1) ∈ deps1 := by
  intro rest
  induction rest with
  | nil =>
    intro deps deps1 _ _ hcase h
    simp only [foldOpt, Option.some.injEq] at h
    subst h
    rcases hcase with h1 | h1
    · exact h1
    · simp at h1
  | cons S rest1 ih =>
    intro deps deps1 hsub hinv hcase h
    rw [foldOpt] at h
    cases hs : scanStore ctx load_inst loc c_load deps S with
    | none => rw [hs] at h; cases h
    | some deps2 =>
      rw [hs] at h
      have hstep := scanStore_invariant ctx stores load_inst loc c_load S1 c1 hptr hmay hrun
        deps deps2 S (hsub S (List.mem_cons_self _ _)) hinv hs
      refine ih deps2 deps1 (fun S0 h0 => hsub S0 (List.mem_cons_of_mem _ h0)) hstep.1 ?_ h
      rcases hcase with h1 | h1
      · exact Or.inl (hstep.2.1 h1)
      · rcases List.mem_cons.1 h1 with h2 | h2
        · exact Or.inl (hstep.2.2 h2.symm)
        · exact Or.inr h2

theorem addEdges_preserve {C : Type} (ctx : RAWContext C) (load_inst : InstId) (c_load : C)
    (key : InstId × InstId) (d : C) :
    ∀ (deps : List (InstId × C)) (pdg : List ((InstId × InstId) × C)),
      (∃ label, Assoc.find pdg key = some label ∧ HasDisjunct ctx.disj d label) →
      ∃ label, Assoc.find (addEdges ctx load_inst c_load deps pdg) key = some label ∧
        HasDisjunct ctx.disj d label := by
  intro deps
  induction deps with
  | nil => intro pdg h; exact h
  | cons e rest ih =>
    intro pdg h
    obtain ⟨label, hf, hd⟩ := h
    unfold addEdges
    rw [List.foldl_cons]
    refine ih _ ?_
    by_cases hk : key = (load_inst, e.1)
    · subst hk
      refine ⟨_, Assoc.find_assign_self _ _ _, ?_⟩
      rw [hf]
      exact HasDisjunct.later _ _ hd
    · exact ⟨label, by rw [Assoc.find_assign_ne _ _ hk]; exact hf, hd⟩

theorem addEdges_establish {C : Type} (ctx : RAWContext C) (load_inst : InstId) (c_load : C)
    (S1 : InstId) (c1 : C) :
    ∀ (deps : List (InstId × C)) (pdg : List ((InstId × InstId) × C)), (S1, c1) ∈ deps →
      ∃ label, Assoc.find (addEdges ctx load_inst c_load deps pdg) (load_inst, S1)
          = some label ∧
        HasDisjunct ctx.disj (ctx.conj c_load c1) label := by
  intro deps
  induction deps with
  | nil => intro pdg h; simp at h
  | cons e rest ih =>
    intro pdg h
    rcases List.mem_cons.1 h with heq | hmem
    · subst heq
      have hstep := addEdges_preserve ctx load_inst c_load (load_inst, S1) (ctx.conj c_load c1)
        rest (Assoc.assign pdg (load_inst, S1)
          (ctx.disj ((Assoc.find pdg (load_inst, S1)).getD ctx.init) (ctx.conj c_load c1)))
        ⟨_, Assoc.find_assign_self _ _ _, HasDisjunct.here _⟩
      exact hstep
    · unfold addEdges
      rw [List.foldl_cons]
      exact ih _ hmem

theorem exportLocation_preserve {C : Type} (ctx : RAWContext C) (stores : List InstId)
    (load_inst : InstId) (key : InstId × InstId) (d : C)
    (pdg pdg1 : List ((InstId × InstId) × C)) (entry : AbstractLocation × C)
    (h : exportLocation ctx stores load_inst pdg entry = some pdg1)
    (hp : ∃ label, Assoc.find pdg key = some label ∧ HasDisjunct ctx.disj d label) :
    ∃ label, Assoc.find pdg1 key = some label ∧ HasDisjunct ctx.disj d label := by
  unfold exportLocation at h
  split at h
  · cases h
  · simp only [Option.some.injEq] at h
    subst h
    exact addEdges_preserve ctx load_inst _ key d _ pdg hp

theorem exportLoad_preserve {C : Type} (ctx : RAWContext C) (stores : List InstId)
    (key : InstId × InstId) (d : C) (pdg pdg1 : List ((InstId × InstId) × C))
    (load_inst : InstId) (h : exportLoad ctx stores pdg load_inst = some pdg1)
    (hp : ∃ label, Assoc.find pdg key = some label ∧ HasDisjunct ctx.disj d label) :
    ∃ label, Assoc.find pdg1 key = some label ∧ HasDisjunct ctx.disj d label := by
  unfold exportLoad at h
  split at h
  · cases h
  · exact foldOpt_preserve (exportLocation ctx stores load_inst)
      (fun p => ∃ label, Assoc.find p key = some label ∧ HasDisjunct ctx.disj d label)
      (fun b a b1 hb hP => exportLocation_preserve ctx stores load_inst key d b b1 a hb hP)
      _ pdg pdg1 hp h

theorem foldOpt_total {α β : Type} (f : β → α → Option β) :
    ∀ (l : List α), (∀ a ∈ l, ∀ b, ∃ b1, f b a = some b1) →
      ∀ b, ∃ b1, foldOpt f l b = some b1 := by
  intro l
  induction l with
  | nil => intro _ b; exact ⟨b, rfl⟩
  | cons a rest ih =>
    intro h b
    obtain ⟨b1, hb1⟩ := h a (List.mem_cons_self _ _) b
    rw [foldOpt, hb1]
    exact ih (fun a1 h1 => h a1 (List.mem_cons_of_mem _ h1)) b1

theorem scanStore_returns {C : Type} (ctx : RAWContext C) (load_inst : InstId)
    (loc : AbstractLocation) (c_load : C) (deps : List (InstId × C)) (S : InstId)
    (h : (Assoc.find ctx.regfile_
      (ctx.TranslateAliasReg (ctx.getPointerOperand S))).isSome = true) :
    ∃ deps1, scanStore ctx load_inst loc c_load deps S = some deps1 := by
  obtain ⟨m, hm⟩ := Option.isSome_iff_exists.1 h
  unfold scanStore
  rw [hm]
  split
  · exact ⟨_, rfl⟩
  · simp only
    split
    · exact ⟨_, rfl⟩
    · split
      · exact ⟨_, rfl⟩
      · split <;> exact ⟨_, rfl⟩

theorem scanStore_throws {C : Type} (ctx : RAWContext C) (load_inst : InstId)
    (loc : AbstractLocation) (c_load : C) (deps : List (InstId × C)) (S : InstId)
    (hrun : ctx.LookupExecAfterCondition S load_inst ≠ ExecAfterCondition.Never)
    (h : Assoc.find ctx.regfile_ (ctx.TranslateAliasReg (ctx.getPointerOperand S)) = none) :
    scanStore ctx load_inst loc c_load deps S = none := by
  unfold scanStore
  rw [if_neg hrun, h]

theorem ExportRAWDependency_returns {C : Type} (ctx : RAWContext C) (stores loads : List InstId)
    (hreg : ∀ x ∈ stores ++ loads, (Assoc.find ctx.regfile_
      (ctx.TranslateAliasReg (ctx.getPointerOperand x))).isSome = true) :
    ∃ pdg_edges, ExportRAWDependency ctx stores loads = some pdg_edges := by
  have hcand : ∀ load_inst loc c_load, ∃ deps,
      candidateDependencies ctx stores load_inst loc c_load = some deps := by
    intro load_inst loc c_load
    exact foldOpt_total (scanStore ctx load_inst loc c_load) stores
      (fun S hS d => scanStore_returns ctx load_inst loc c_load d S
        (hreg S (List.mem_append_left _ hS))) []
  have hloc : ∀ load_inst (entry : AbstractLocation × C) pdg, ∃ pdg1,
      exportLocation ctx stores load_inst pdg entry = some pdg1 := by
    intro load_inst entry pdg
    obtain ⟨deps, hd⟩ := hcand load_inst entry.1 entry.2
    exact ⟨addEdges ctx load_inst entry.2 deps pdg, by simp only [exportLocation, hd]⟩
  unfold ExportRAWDependency
  refine foldOpt_total (exportLoad ctx stores) loads ?_ []
  intro load_inst hL pdg
  obtain ⟨m, hm⟩ := Option.isSome_iff_exists.1 (hreg load_inst (List.mem_append_right _ hL))
  unfold exportLoad
  rw [hm]
  exact foldOpt_total (exportLocation ctx stores load_inst) m
    (fun entry _ b => hloc load_inst entry b) pdg

/-- Claim C13 (code defect): for a load `L` of the function, a location `l` of its
pointer with constraint `c_L` and a store `S'` that is not skipped
(`LookupExecAfterCondition(S', L) != Never`, and the pointer of `S'` has the entry
`l` with constraint `c_S'`) such that no store `S` of the function has
`LookupExecAfterCondition(S', S) = Must`: when some store of the function that is
not skipped for `L` has no register-file entry for its pointer, the exception of
`regfile_.at` ends the scan and `ExportRAWDependency`, so that no candidate set
is built and no edge is emitted; when every store and load has a register-file
entry for its pointer, `ExportRAWDependency` returns, `S'` with `c_S'` is in the
candidate dependency set for `l` and the edge `L <- S'` has a label with
`c_L && c_S'` as a disjunct; and the same holds whenever `ExportRAWDependency`
returns. Only stores are scanned: no call removes a candidate. The order in
which the hash table visits the candidates is arbitrary. -/
theorem may_store_is_kept {C : Type} (ctx : RAWContext C) (stores loads : List InstId)
    (load_inst : InstId) (loc : AbstractLocation) (c_load : C) (S1 : InstId) (c1 : C)
    (hL : load_inst ∈ loads)
    (hloc : ∃ m, Assoc.find ctx.regfile_
        (ctx.TranslateAliasReg (ctx.getPointerOperand load_inst)) = some m ∧ (loc, c_load) ∈ m)
    (hS : S1 ∈ stores)
    (hrun : ctx.LookupExecAfterCondition S1 load_inst ≠ ExecAfterCondition.Never)
    (hptr : ∃ m, Assoc.find ctx.regfile_ (ctx.TranslateAliasReg (ctx.getPointerOperand S1))
        = some m ∧ Assoc.findEntry m loc = some (loc, c1))
    (hmay : ∀ S ∈ stores, ctx.LookupExecAfterCondition S1 S ≠ ExecAfterCondition.Must) :
    (∀ S0 ∈ stores, ctx.LookupExecAfterCondition S0 load_inst ≠ ExecAfterCondition.Never →
        Assoc.find ctx.regfile_ (ctx.TranslateAliasReg (ctx.getPointerOperand S0)) = none →
        candidateDependencies ctx stores load_inst loc c_load = none ∧
          ExportRAWDependency ctx stores loads = none) ∧
      ((∀ x ∈ stores ++ loads, (Assoc.find ctx.regfile_
            (ctx.TranslateAliasReg (ctx.getPointerOperand x))).isSome = true) →
        ∃ pdg_edges deps label, ExportRAWDependency ctx stores loads = some pdg_edges ∧
          candidateDependencies ctx stores load_inst loc c_load = some deps ∧
          (S1, c1) ∈ deps ∧ Assoc.find pdg_edges (load_inst, S1) = some label ∧
          HasDisjunct ctx.disj (ctx.conj c_load c1) label) ∧
      (∀ pdg_edges, ExportRAWDependency ctx stores loads = some pdg_edges →
        (∃ deps, candidateDependencies ctx stores load_inst loc c_load = some deps ∧
          (S1, c1) ∈ deps) ∧
        ∃ label, Assoc.find pdg_edges (load_inst, S1) = some label ∧
          HasDisjunct ctx.disj (ctx.conj c_load c1) label) := by
  obtain ⟨mL, hmL, hmemL⟩ := hloc
  have hcand : ∀ deps, candidateDependencies ctx stores load_inst loc c_load = some deps →
      (S1, c1) ∈ deps := by
    intro deps hd
    exact scan_keeps_may_store ctx stores load_inst loc c_load S1 c1 hptr hmay hrun stores []
      deps (fun _ h => h) (fun e he => by simp at he) (Or.inr hS) hd
  have hestLoc : ∀ b b1, exportLocation ctx stores load_inst b (loc, c_load) = some b1 →
      ∃ label, Assoc.find b1 (load_inst, S1) = some label ∧
        HasDisjunct ctx.disj (ctx.conj c_load c1) label := by
    intro b b1 hb
    unfold exportLocation at hb
    split at hb
    · cases hb
    · rename_i deps hdeps
      simp only [Option.some.injEq] at hb
      subst hb
      exact addEdges_establish ctx load_inst c_load S1 c1 deps b (hcand deps hdeps)
  have hestLoad : ∀ b b1, exportLoad ctx stores b load_inst = some b1 →
      ∃ label, Assoc.find b1 (load_inst, S1) = some label ∧
        HasDisjunct ctx.disj (ctx.conj c_load c1) label := by
    intro b b1 hb
    unfold exportLoad at hb
    rw [hmL] at hb
    exact foldOpt_establish (exportLocation ctx stores load_inst)
      (fun p => ∃ label, Assoc.find p (load_inst, S1) = some label ∧
        HasDisjunct ctx.disj (ctx.conj c_load c1) label) (loc, c_load)
      (fun b2 a b3 h2 hP => exportLocation_preserve ctx stores load_inst _ _ b2 b3 a h2 hP)
      hestLoc mL b b1 hmemL hb
  have hreturned : ∀ pdg_edges, ExportRAWDependency ctx stores loads = some pdg_edges →
      (∃ deps, candidateDependencies ctx stores load_inst loc c_load = some deps ∧
        (S1, c1) ∈ deps) ∧
      ∃ label, Assoc.find pdg_edges (load_inst, S1) = some label ∧
        HasDisjunct ctx.disj (ctx.conj c_load c1) label := by
    intro pdg_edges hret
    refine ⟨?_, ?_⟩
    · obtain ⟨b2, b3, hstep⟩ := foldOpt_step_of_mem (exportLoad ctx stores) load_inst loads []
        pdg_edges hL hret
      unfold exportLoad at hstep
      rw [hmL] at hstep
      obtain ⟨b4, b5, hstep2⟩ := foldOpt_step_of_mem (exportLocation ctx stores load_inst)
        (loc, c_load) mL b2 b3 hmemL hstep
      unfold exportLocation at hstep2
      split at hstep2
      · cases hstep2
      · rename_i deps hdeps
        exact ⟨deps, hdeps, hcand deps hdeps⟩
    · exact foldOpt_establish (exportLoad ctx stores)
        (fun p => ∃ label, Assoc.find p (load_inst, S1) = some label ∧
          HasDisjunct ctx.disj (ctx.conj c_load c1) label) load_inst
        (fun b a b1 hb hP => exportLoad_preserve ctx stores _ _ b b1 a hb hP)
        hestLoad loads [] pdg_edges hL hret
  refine ⟨?_, ?_, hreturned⟩
  · intro S0 hS0 hrun0 hmiss
    have hnone : candidateDependencies ctx stores load_inst loc c_load = none :=
      foldOpt_none_of_mem (scanStore ctx load_inst loc c_load) S0
        (fun d => scanStore_throws ctx load_inst loc c_load d S0 hrun0 hmiss) stores [] hS0
    refine ⟨hnone, ?_⟩
    unfold ExportRAWDependency
    refine foldOpt_none_of_mem (exportLoad ctx stores) load_inst ?_ loads [] hL
    intro b
    unfold exportLoad
    rw [hmL]
    refine foldOpt_none_of_mem (exportLocation ctx stores load_inst) (loc, c_load) ?_ mL b hmemL
    intro b1
    simp only [exportLocation, hnone]
  · intro hreg
    obtain ⟨pdg_edges, hret⟩ := ExportRAWDependency_returns ctx stores loads hreg
    obtain ⟨⟨deps, hdeps, hmem⟩, label, hfind, hdisj⟩ := hreturned pdg_edges hret
    exact ⟨pdg_edges, deps, label, hret, hdeps, hmem, hfind, hdisj⟩

/-- Instance of C13: the block `if c: store 1, p; store 2, q; x = load p`, where
`q` has no register-file entry: the first store satisfies the conditions of the
claim, and the scan for the load ends with the exception at the second
store. -/
theorem may_store_is_kept_witness :
    candidateDependencies externalStoreContext [1, 2] 3 (AbstractLocation.Stack 10) true
        = none ∧
      ExportRAWDependency externalStoreContext [1, 2] [3] = none :=
  (may_store_is_kept externalStoreContext [1, 2] [3] 3 (AbstractLocation.Stack 10) true 1 true
    (by decide) ⟨[(AbstractLocation.Stack 10, true)], rfl, by decide⟩ (by decide) (by decide)
    ⟨[(AbstractLocation.Stack 10, true)], rfl, rfl⟩ (by decide)).1 2 (by decide) (by decide)
    rfl

/-- C19, the code on a load whose pointer has no register-file entry: when the
register file has no entry for the alias-translated pointer operand of a load
of the function, `ExportRAWDependency` does not return: the exception of
`regfile_.at` leaves it. -/
theorem ExportRAWDependency_throws {C : Type} (ctx : RAWContext C) (stores loads : List InstId)
    (load_inst : InstId) (hL : load_inst ∈ loads)
    (hmiss : Assoc.find ctx.regfile_
      (ctx.TranslateAliasReg (ctx.getPointerOperand load_inst)) = none) :
    ExportRAWDependency ctx stores loads = none := by
  unfold ExportRAWDependency
  refine foldOpt_none_of_mem (exportLoad ctx stores) load_inst ?_ loads [] hL
  intro b
  unfold exportLoad
  rw [hmiss]

/-- Witness of C19: the block `p = call ext(); x = load p`, where the call has
no register-file entry. -/
theorem ExportRAWDependency_throws_witness :
    ExportRAWDependency externalPointerContext [] [3] = none :=
  ExportRAWDependency_throws externalPointerContext [] [3] 3 (by decide) rfl

/-! ## Frame of an alias rejection -/

theorem cell_inj (s : ConstraintSolver) {i j k l : Nat} (hi : i < s.num_inputs_)
    (hj : j < s.num_inputs_) (hk : k < s.num_inputs_) (hl : l < s.num_inputs_)
    (h : s.cell k l = s.cell i j) : (k = i ∧ l = j) ∨ (k = j ∧ l = i) := by
  have key : ∀ a b c d : Nat, b < s.num_inputs_ → d < s.num_inputs_ →
      a * s.num_inputs_ + b = c * s.num_inputs_ + d → a = c ∧ b = d := by
    intro a b c d hb hd heq
    have h1 := congrArg (· / s.num_inputs_) heq
    have h2 := congrArg (· % s.num_inputs_) heq
    have hn : 0 < s.num_inputs_ := by omega
    simp [Nat.add_mul_div_right, Nat.div_eq_of_lt, hb, hd, Nat.mul_comm _ s.num_inputs_,
      Nat.mul_add_div, Nat.mul_add_mod, Nat.mod_eq_of_lt, hn] at h1 h2
    exact ⟨h1, h2⟩
  unfold ConstraintSolver.cell at h
  by_cases h1 : k > l <;> by_cases h2 : i > j
  · rw [if_pos h1, if_pos h2] at h
    have := key _ _ _ _ hk hi h
    exact Or.inl ⟨this.2, this.1⟩
  · rw [if_pos h1, if_neg h2] at h
    have := key _ _ _ _ hk hj h
    exact Or.inr ⟨this.2, this.1⟩
  · rw [if_neg h1, if_pos h2] at h
    have := key _ _ _ _ hl hi h
    exact Or.inr ⟨this.1, this.2⟩
  · rw [if_neg h1, if_neg h2] at h
    have := key _ _ _ _ hl hj h
    exact Or.inl ⟨this.1, this.2⟩

theorem TestAlias_frame (s s1 : ConstraintSolver) {i j : Nat} (k l : Nat)
    (h : s.RejectAlias i j = some s1) (hcell : s.cell k l ≠ s.cell i j) :
    s1.TestAlias k l = s.TestAlias k l := by
  by_cases hij : i = j
  · simp [ConstraintSolver.RejectAlias, hij] at h
  · rw [ConstraintSolver.RejectAlias_eq s hij] at h
    split at h
    · simp only [Option.some.injEq] at h
      subst h
      unfold ConstraintSolver.TestAlias
      show (s.alias_rej_list_.set (s.cell i j) true).getD (s.cell k l) false = _
      simp only [List.getD_eq_getElem?_getD, List.getElem?_set_ne (Ne.symm hcell)]
    · simp only [Option.some.injEq] at h
      subst h
      rfl

/-- C28: for a solver with its `n * n` table and in-range `i != j`,
`RejectAlias(i, j)` returns a state in which `TestAlias(k, l)` answers as before
for every in-range pair that is not `{i, j}` as an unordered pair; the cell
`min(i, j) * n + max(i, j)` that it writes lies inside the table, two in-range
pairs use the same cell only if they are the same unordered pair, and
`TestAlias(k, l) = TestAlias(l, k)` in every state. -/
theorem RejectAlias_frame (s : ConstraintSolver) (i j : Nat) (hwf : s.WellFormed)
    (hi : i < s.num_inputs_) (hj : j < s.num_inputs_) (hij : i ≠ j) :
    ∃ s1, s.RejectAlias i j = some s1 ∧
      (∀ k l, k < s.num_inputs_ → l < s.num_inputs_ →
        ¬ ((k = i ∧ l = j) ∨ (k = j ∧ l = i)) → s1.TestAlias k l = s.TestAlias k l) ∧
      s.cell i j = min i j * s.num_inputs_ + max i j ∧
      min i j * s.num_inputs_ + max i j < s.alias_rej_list_.length ∧
      s.alias_rej_list_.length = s.num_inputs_ * s.num_inputs_ ∧
      (∀ k l, k < s.num_inputs_ → l < s.num_inputs_ →
        (s.cell k l = s.cell i j ↔ ((k = i ∧ l = j) ∨ (k = j ∧ l = i)))) ∧
      (∀ (t : ConstraintSolver) (k l : Nat), t.TestAlias k l = t.TestAlias l k) := by
  obtain ⟨s1, h1⟩ := s.RejectAlias_isSome hij
  have hcell : s.cell i j = min i j * s.num_inputs_ + max i j := by
    unfold ConstraintSolver.cell
    by_cases h : i > j
    · rw [if_pos h, Nat.min_eq_right (by omega), Nat.max_eq_left (by omega)]
    · rw [if_neg h, Nat.min_eq_left (by omega), Nat.max_eq_right (by omega)]
  refine ⟨s1, h1, ?_, hcell, ?_, hwf, ?_, fun t k l => t.TestAlias_comm k l⟩
  · intro k l hk hl hne
    exact TestAlias_frame s s1 k l h1 (fun hc => hne (cell_inj s hi hj hk hl hc))
  · rw [← hcell]
    exact s.cell_lt hi hj hij hwf
  · intro k l hk hl
    constructor
    · exact cell_inj s hi hj hk hl
    · rintro (⟨rfl, rfl⟩ | ⟨rfl, rfl⟩)
      · rfl
      · exact s.cell_comm _ _

/-- Witness of C28: three inputs, `RejectAlias(2, 0)` on the fresh solver. -/
theorem RejectAlias_frame_witness :
    ∃ s1, (ConstraintSolver.create 3).RejectAlias 2 0 = some s1 ∧
      (∀ k l, k < (ConstraintSolver.create 3).num_inputs_ →
        l < (ConstraintSolver.create 3).num_inputs_ →
        ¬ ((k = 2 ∧ l = 0) ∨ (k = 0 ∧ l = 2)) →
          s1.TestAlias k l = (ConstraintSolver.create 3).TestAlias k l) ∧
      (ConstraintSolver.create 3).cell 2 0 =
        min 2 0 * (ConstraintSolver.create 3).num_inputs_ + max 2 0 ∧
      min 2 0 * (ConstraintSolver.create 3).num_inputs_ + max 2 0 <
        (ConstraintSolver.create 3).alias_rej_list_.length ∧
      (ConstraintSolver.create 3).alias_rej_list_.length =
        (ConstraintSolver.create 3).num_inputs_ * (ConstraintSolver.create 3).num_inputs_ ∧
      (∀ k l, k < (ConstraintSolver.create 3).num_inputs_ →
        l < (ConstraintSolver.create 3).num_inputs_ →
        ((ConstraintSolver.create 3).cell k l = (ConstraintSolver.create 3).cell 2 0 ↔
          ((k = 2 ∧ l = 0) ∨ (k = 0 ∧ l = 2)))) ∧
      (∀ (t : ConstraintSolver) (k l : Nat), t.TestAlias k l = t.TestAlias l k) :=
  RejectAlias_frame (ConstraintSolver.create 3) 2 0 (by decide) (by decide) (by decide)
    (by decide)

/-! ## The kill sweep and the satisfiability prune -/

theorem Assoc.findEntry_key {K V : Type} [DecidableEq K] (m : List (K × V)) (k k1 : K) (v : V)
    (h : Assoc.findEntry m k = some (k1, v)) : k1 = k := by
  induction m with
  | nil => simp [Assoc.findEntry] at h
  | cons e rest ih =>
    obtain ⟨k2, v2⟩ := e
    by_cases h2 : k2 = k
    · simp only [Assoc.findEntry, h2, if_true, Option.some.injEq, Prod.mk.injEq] at h
      exact h.1.symm
    · simp only [Assoc.findEntry, h2, if_false] at h
      exact ih h

theorem killSweep_congr {C : Type} (ctx ctx1 : RAWContext C)
    (h1 : ctx1.LookupExecAfterCondition = ctx.LookupExecAfterCondition)
    (h2 : ctx1.TestImplication = ctx.TestImplication) (store_inst : InstId) (c : C) :
    ∀ rem kept : List (InstId × C),
      killSweep ctx1 store_inst c rem kept = killSweep ctx store_inst c rem kept := by
  intro rem
  induction rem with
  | nil => intro kept; rfl
  | cons e rest ih =>
    intro kept
    obtain ⟨dep, cdep⟩ := e
    simp only [killSweep, h1, h2, ih]

theorem scanStore_sat_irrelevant {C : Type} (ctx : RAWContext C) (sat : C → Bool)
    (load_inst : InstId) (loc : AbstractLocation) (c_load : C) (deps : List (InstId × C))
    (store_inst : InstId) :
    scanStore { ctx with TestSatisfiability := sat } load_inst loc c_load deps store_inst =
      scanStore ctx load_inst loc c_load deps store_inst := by
  unfold scanStore
  simp only
  split
  · rfl
  · split
    · rfl
    · rename_i m hm
      split
      · rfl
      · rename_i loc_store c_store hsome
        have hkey := Assoc.findEntry_key m loc loc_store c_store hsome
        subst hkey
        rw [killSweep_congr ctx { ctx with TestSatisfiability := sat } rfl rfl]
        simp

/-- C25: `ExportRAWDependency` yields the same map of edges and labels (and the
same exception) whatever `TestSatisfiability` answers: the entry of the store
pointer is the one found under the location of the load pointer, so the test
`loc_load_ptr != loc_store_ptr` is false and the prune is never taken; the step
for one store is the same too, so a store whose constraint is unsatisfiable
together with the constraint of the load is a candidate like any other. -/
theorem ExportRAWDependency_sat_irrelevant {C : Type} (ctx : RAWContext C) (sat : C → Bool)
    (stores loads : List InstId) :
    ExportRAWDependency { ctx with TestSatisfiability := sat } stores loads =
        ExportRAWDependency ctx stores loads ∧
      (∀ load_inst loc c_load,
        candidateDependencies { ctx with TestSatisfiability := sat } stores load_inst loc c_load
          = candidateDependencies ctx stores load_inst loc c_load) ∧
      (∀ (m : PointToMap C) loc loc_store c_store,
        Assoc.findEntry m loc = some (loc_store, c_store) → (loc != loc_store) = false) := by
  have hscan : ∀ load_inst loc c_load,
      scanStore { ctx with TestSatisfiability := sat } load_inst loc c_load =
        scanStore ctx load_inst loc c_load := by
    intro load_inst loc c_load
    funext deps store_inst
    exact scanStore_sat_irrelevant ctx sat load_inst loc c_load deps store_inst
  have hcand : ∀ load_inst loc c_load,
      candidateDependencies { ctx with TestSatisfiability := sat } stores load_inst loc c_load
        = candidateDependencies ctx stores load_inst loc c_load := by
    intro load_inst loc c_load
    unfold candidateDependencies
    rw [hscan]
  have hloc : ∀ load_inst,
      exportLocation { ctx with TestSatisfiability := sat } stores load_inst =
        exportLocation ctx stores load_inst := by
    intro load_inst
    funext pdg entry
    unfold exportLocation
    rw [hcand]
    rfl
  have hload : exportLoad { ctx with TestSatisfiability := sat } stores =
      exportLoad ctx stores := by
    funext pdg load_inst
    unfold exportLoad
    rw [hloc]
  refine ⟨?_, hcand, ?_⟩
  · unfold ExportRAWDependency
    rw [hload]
  · intro m loc loc_store c_store h
    have := Assoc.findEntry_key m loc loc_store c_store h
    subst this
    simp

theorem killSweep_survivors {C : Type} (ctx : RAWContext C) (store_inst : InstId) (c : C) :
    ∀ rem kept : List (InstId × C),
      (∀ d ∈ kept,
        ¬ (ctx.LookupExecAfterCondition d.1 store_inst = ExecAfterCondition.Must ∧
          ctx.TestImplication c d.2 = true) ∧
        ¬ (ctx.LookupExecAfterCondition store_inst d.1 = ExecAfterCondition.Must ∧
          ctx.TestImplication d.2 c = true)) →
      (killSweep ctx store_inst c rem kept).2 = false →
      ∀ d ∈ (killSweep ctx store_inst c rem kept).1,
        ¬ (ctx.LookupExecAfterCondition d.1 store_inst = ExecAfterCondition.Must ∧
          ctx.TestImplication c d.2 = true) ∧
        ¬ (ctx.LookupExecAfterCondition store_inst d.1 = ExecAfterCondition.Must ∧
          ctx.TestImplication d.2 c = true) := by
  intro rem
  induction rem with
  | nil => intro kept hk _ d hd; exact hk d hd
  | cons e rest ih =>
    intro kept hk hflag
    obtain ⟨dep, cdep⟩ := e
    rw [killSweep] at hflag ⊢
    split
    · rename_i h1
      rw [if_pos h1] at hflag
      exact ih kept hk hflag
    · rename_i h1
      rw [if_neg h1] at hflag
      split
      · rename_i h2
        rw [if_pos h2] at hflag
        cases hflag
      · rename_i h2
        rw [if_neg h2] at hflag
        refine ih _ ?_ hflag
        intro d hd
        rcases List.mem_append.1 hd with hd1 | hd1
        · exact hk d hd1
        · simp only [List.mem_singleton] at hd1
          subst hd1
          simp only [Bool.and_eq_true, decide_eq_true_eq] at h1 h2
          exact ⟨h1, h2⟩

theorem scanStore_noStrongOverwrite {C : Type} (ctx : RAWContext C) (load_inst : InstId)
    (loc : AbstractLocation) (c_load : C) (deps deps1 : List (InstId × C)) (store_inst : InstId)
    (h : scanStore ctx load_inst loc c_load deps store_inst = some deps1)
    (hinv : NoStrongOverwrite ctx deps) : NoStrongOverwrite ctx deps1 := by
  unfold scanStore at h
  split at h
  · simp only [Option.some.injEq] at h; subst h; exact hinv
  · split at h
    · cases h
    · split at h
      · simp only [Option.some.injEq] at h; subst h; exact hinv
      · rename_i loc_store c_store hsome
        split at h
        · simp only [Option.some.injEq] at h; subst h; exact hinv
        · have hsub : ∀ e ∈ (killSweep ctx store_inst c_store
              (iterationOrder (ctx.iterationChoice load_inst loc store_inst deps) deps) []).1,
              e ∈ deps := by
            intro e he
            rcases killSweep_subset ctx store_inst c_store e _ [] he with h1 | h1
            · exact (mem_iterationOrder _ _ _).1 h1
            · simp at h1
          have hswept : NoStrongOverwrite ctx (killSweep ctx store_inst c_store
              (iterationOrder (ctx.iterationChoice load_inst loc store_inst deps) deps) []).1 :=
            fun e1 h1 e2 h2 => hinv e1 (hsub e1 h1) e2 (hsub e2 h2)
          simp only at h
          split at h
          · rename_i hflag
            simp only [Option.some.injEq] at h
            subst h
            have hflag1 : (killSweep ctx store_inst c_store
                (iterationOrder (ctx.iterationChoice load_inst loc store_inst deps) deps) []).2
                = false := by
              simpa using hflag
            have hgood := killSweep_survivors ctx store_inst c_store
              (iterationOrder (ctx.iterationChoice load_inst loc store_inst deps) deps) []
              (fun d hd => by simp at hd) hflag1
            intro e1 h1 e2 h2 hne
            rcases Assoc.mem_assign _ _ _ _ h1 with h1a | h1a
            · rcases Assoc.mem_assign _ _ _ _ h2 with h2a | h2a
              · subst h1a; subst h2a
                exact absurd rfl hne
              · subst h1a
                exact (hgood e2 h2a).1
            · rcases Assoc.mem_assign _ _ _ _ h2 with h2a | h2a
              · subst h2a
                exact (hgood e1 h1a).2
              · exact hswept e1 h1a e2 h2a hne
          · simp only [Option.some.injEq] at h
            subst h
            exact hswept

/-- C24: when the scan of all stores for a load and a location of its pointer
returns, whatever the execute-after relation and `TestImplication` answer and
in whatever order the hash table visits the candidates in each sweep, the
candidate dependency set contains no two entries for distinct stores `S` and
`S'` such that `LookupExecAfterCondition(S', S) = Must` and
`TestImplication(c_S, c_S')` both hold. -/
theorem candidates_not_overwritten {C : Type} (ctx : RAWContext C) (stores : List InstId)
    (load_inst : InstId) (loc : AbstractLocation) (c_load : C) (deps : List (InstId × C))
    (h : candidateDependencies ctx stores load_inst loc c_load = some deps) :
    ∀ e1 ∈ deps, ∀ e2 ∈ deps, e1.1 ≠ e2.1 →
      ¬ (ctx.LookupExecAfterCondition e2.1 e1.1 = ExecAfterCondition.Must ∧
        ctx.TestImplication e1.2 e2.2 = true) := by
  have hfold := foldOpt_preserve (scanStore ctx load_inst loc c_load) (NoStrongOverwrite ctx)
    (fun b a b1 hb hP => scanStore_noStrongOverwrite ctx load_inst loc c_load b b1 a hb hP)
    stores [] deps (fun e1 h1 => by simp at h1) h
  exact hfold

/-- Instance of C24 in which the visiting order matters: three stores, where 3
would erase 1 and is itself overwritten by 2. Visiting the candidates newest
first, the sweep for 3 breaks at 2 before it reaches 1 and both 1 and 2 stay;
visiting them in insertion order it erases 1 first and only 2 stays. -/
theorem candidates_not_overwritten_witness :
    candidateDependencies newestFirstContext [1, 2, 3] 4 (AbstractLocation.Stack 10) true
        = some [(2, true), (1, true)] ∧
      candidateDependencies { newestFirstContext with iterationChoice := fun _ _ _ _ => 0 }
        [1, 2, 3] 4 (AbstractLocation.Stack 10) true = some [(2, true)] ∧
      ∀ e1 ∈ [((2 : InstId), true), (1, true)], ∀ e2 ∈ [((2 : InstId), true), (1, true)],
        e1.1 ≠ e2.1 →
        ¬ (newestFirstContext.LookupExecAfterCondition e2.1 e1.1 = ExecAfterCondition.Must ∧
          newestFirstContext.TestImplication e1.2 e2.2 = true) :=
  ⟨by decide, by decide,
    candidates_not_overwritten newestFirstContext [1, 2, 3] 4 (AbstractLocation.Stack 10) true
      [(2, true), (1, true)] (by decide)⟩

/-! ## The call chain of the driver -/

theorem collectCallees_history {Store : Type} (A : Analysis Store)
    (call : SummaryEnvironment Store → FuncId → Finset FuncId → Bool →
      Outcome (SummaryEnvironment Store × Finset FuncId))
    (hcall : ∀ e g h b e1 h1, call e g h b = .ret (e1, h1) → h1 = h) :
    ∀ (l : List (Option FuncId)) (env : SummaryEnvironment Store) (hist : Finset FuncId)
      (acc : List FuncId) (env1 : SummaryEnvironment Store) (hist1 : Finset FuncId)
      (recs : List FuncId),
      collectCallees A call l env hist acc = .ret (env1, hist1, recs) → hist1 = hist := by
  intro l
  induction l with
  | nil =>
    intro env hist acc env1 hist1 recs h
    simp only [collectCallees, Outcome.ret.injEq, Prod.mk.injEq] at h
    exact h.2.1.symm
  | cons c rest ih =>
    intro env hist acc env1 hist1 recs h
    cases c with
    | none =>
      rw [collectCallees] at h
      exact ih _ _ _ _ _ _ h
    | some g =>
      rw [collectCallees] at h
      split at h
      · split at h
        · cases hc : call env g hist true with
          | ret r =>
            obtain ⟨e2, h2⟩ := r
            rw [hc] at h
            simp only at h
            split at h
            · have := hcall _ _ _ _ _ _ hc
              subst this
              exact ih _ _ _ _ _ _ h
            · cases h
          | assertion_failed => rw [hc] at h; cases h
          | out_of_fuel => rw [hc] at h; cases h
        · exact ih _ _ _ _ _ _ h
      · exact ih _ _ _ _ _ _ h

theorem analyzeRecursiveCallees_history {Store : Type}
    (call : SummaryEnvironment Store → FuncId → Finset FuncId → Bool →
      Outcome (SummaryEnvironment Store × Finset FuncId))
    (hcall : ∀ e g h b e1 h1, call e g h b = .ret (e1, h1) → h1 = h) :
    ∀ (l : List FuncId) (env : SummaryEnvironment Store) (hist : Finset FuncId) (dep : Bool)
      (env1 : SummaryEnvironment Store) (hist1 : Finset FuncId) (dep1 : Bool),
      analyzeRecursiveCallees call l env hist dep = .ret (env1, hist1, dep1) → hist1 = hist := by
  intro l
  induction l with
  | nil =>
    intro env hist dep env1 hist1 dep1 h
    simp only [analyzeRecursiveCallees, Outcome.ret.injEq, Prod.mk.injEq] at h
    exact h.2.1.symm
  | cons g rest ih =>
    intro env hist dep env1 hist1 dep1 h
    rw [analyzeRecursiveCallees] at h
    split at h
    · cases hc : call env g hist false with
      | ret r =>
        obtain ⟨e2, h2⟩ := r
        rw [hc] at h
        simp only at h
        have := hcall _ _ _ _ _ _ hc
        subst this
        exact ih _ _ _ _ _ _ h
      | assertion_failed => rw [hc] at h; cases h
      | out_of_fuel => rw [hc] at h; cases h
    · exact ih _ _ _ _ _ _ h

theorem convergeLoop_history {Store : Type} (A : Analysis Store)
    (call : SummaryEnvironment Store → FuncId → Finset FuncId → Bool →
      Outcome (SummaryEnvironment Store × Finset FuncId))
    (hcall : ∀ e g h b e1 h1, call e g h b = .ret (e1, h1) → h1 = h)
    (f : FuncId) (recs : List FuncId) (ec : Bool) (iterations : Nat) :
    ∀ (env env1 : SummaryEnvironment Store) (hist hist1 : Finset FuncId),
      convergeLoop A call f recs ec iterations env hist = .ret (env1, hist1) → hist1 = hist := by
  induction iterations with
  | zero => intro env env1 hist hist1 h; simp [convergeLoop] at h
  | succ n ih =>
    intro env env1 hist hist1 h
    rw [convergeLoop] at h
    cases hc : analyzeRecursiveCallees call recs env hist true with
    | ret r =>
      obtain ⟨e2, h2, dep⟩ := r
      rw [hc] at h
      simp only at h
      have := analyzeRecursiveCallees_history call hcall _ _ _ _ _ _ _ hc
      subst this
      split at h
      · exact ih _ _ _ _ h
      · simp only [Outcome.ret.injEq, Prod.mk.injEq] at h
        exact h.2.symm
    | assertion_failed => rw [hc] at h; cases h
    | out_of_fuel => rw [hc] at h; cases h

theorem AnalyzeFunctionRecursive_history {Store : Type} (A : Analysis Store) (fuel : Nat) :
    ∀ (env : SummaryEnvironment Store) (f : FuncId) (hist : Finset FuncId) (ec : Bool)
      (env1 : SummaryEnvironment Store) (hist1 : Finset FuncId),
      AnalyzeFunctionRecursive A fuel env f hist ec = .ret (env1, hist1) → hist1 = hist := by
  induction fuel with
  | zero => intro env f hist ec env1 hist1 h; simp [AnalyzeFunctionRecursive] at h
  | succ n ih =>
    intro env f hist ec env1 hist1 h
    rw [AnalyzeFunctionRecursive] at h
    split at h
    · simp only [Outcome.ret.injEq, Prod.mk.injEq] at h
      exact h.2.symm
    · rename_i hf
      cases hc : collectCallees A (AnalyzeFunctionRecursive A n) (env f).called_functions env
          hist [] with
      | ret r =>
        obtain ⟨e1, h1, recs⟩ := r
        rw [hc] at h
        simp only at h
        have hh1 := collectCallees_history A _ ih _ _ _ _ _ _ _ hc
        subst hh1
        cases hl : convergeLoop A (AnalyzeFunctionRecursive A n) f recs ec n e1
            (insert f h1) with
        | ret r2 =>
          obtain ⟨e2, h2⟩ := r2
          rw [hl] at h
          simp only [Outcome.ret.injEq, Prod.mk.injEq] at h
          have hh2 := convergeLoop_history A _ ih f recs ec n _ _ _ _ hl
          subst hh2
          rw [← h.2]
          exact Finset.erase_insert hf
        | assertion_failed => rw [hl] at h; cases h
        | out_of_fuel => rw [hl] at h; cases h
      | assertion_failed => rw [hc] at h; cases h
      | out_of_fuel => rw [hc] at h; cases h

/-- C22: when a call `AnalyzeFunctionRecursive(env, s, history, true)` with
`s.func` not in `history` returns, `s.converged` is true and `history` is the
set it was at entry; so, for a callee with `doesNotRecurse` that is not
converged and not on the call chain, the first loop of the caller passes
`assert(called_summary.converged)` and goes on with the next callee. -/
theorem AnalyzeFunctionRecursive_postcondition {Store : Type} (A : Analysis Store) (fuel : Nat)
    (env env1 : SummaryEnvironment Store) (f : FuncId) (history history1 : Finset FuncId)
    (hf : f ∉ history)
    (h : AnalyzeFunctionRecursive A fuel env f history true = .ret (env1, history1)) :
    (env1 f).converged = true ∧ history1 = history ∧
      (A.doesNotRecurse f = true → (env f).converged = false →
        ∀ rest recursive_summaries,
          collectCallees A (AnalyzeFunctionRecursive A fuel) (some f :: rest) env history
              recursive_summaries =
            collectCallees A (AnalyzeFunctionRecursive A fuel) rest env1 history
              recursive_summaries) := by
  have hconv := AnalyzeFunctionRecursive_converged A fuel env env1 f history history1 hf h
  have hhist := AnalyzeFunctionRecursive_history A fuel env f history true env1 history1 h
  refine ⟨hconv, hhist, ?_⟩
  intro hnr hnc rest acc
  subst hhist
  rw [collectCallees]
  simp only [hnr, hnc, if_true, Bool.not_false, h, hconv]

theorem caller_run_returns :
    (AnalyzeFunctionRecursive norecurseAnalysis 3 callerEnv 1 ∅ true).value?.isSome = true := by
  decide

/-- Witness of C22: the function 1, which calls nothing and is marked
`doesNotRecurse`, analysed from the empty call chain. -/
theorem AnalyzeFunctionRecursive_postcondition_witness :
    ∃ env1 history1,
      AnalyzeFunctionRecursive norecurseAnalysis 3 callerEnv 1 ∅ true = .ret (env1, history1) ∧
      (env1 1).converged = true ∧ history1 = ∅ ∧
      (norecurseAnalysis.doesNotRecurse 1 = true → (callerEnv 1).converged = false →
        ∀ rest recursive_summaries,
          collectCallees norecurseAnalysis (AnalyzeFunctionRecursive norecurseAnalysis 3)
              (some 1 :: rest) callerEnv ∅ recursive_summaries =
            collectCallees norecurseAnalysis (AnalyzeFunctionRecursive norecurseAnalysis 3)
              rest env1 ∅ recursive_summaries) := by
  cases h : AnalyzeFunctionRecursive norecurseAnalysis 3 callerEnv 1 ∅ true with
  | ret r =>
    obtain ⟨e, hs⟩ := r
    have hpost := AnalyzeFunctionRecursive_postcondition norecurseAnalysis 3 callerEnv e 1 ∅ hs
      (Finset.not_mem_empty 1) h
    obtain ⟨h1, h2, h3⟩ := hpost
    subst h2
    exact ⟨e, ∅, rfl, h1, rfl, h3⟩
  | assertion_failed =>
    have hr := caller_run_returns
    rw [h] at hr
    simp [Outcome.value?] at hr
  | out_of_fuel =>
    have hr := caller_run_returns
    rw [h] at hr
    simp [Outcome.value?] at hr

theorem collectCallees_no_recursive {Store : Type} (A : Analysis Store)
    (call : SummaryEnvironment Store → FuncId → Finset FuncId → Bool →
      Outcome (SummaryEnvironment Store × Finset FuncId)) :
    ∀ (l : List (Option FuncId)) (env : SummaryEnvironment Store) (hist : Finset FuncId)
      (acc : List FuncId) (env1 : SummaryEnvironment Store) (hist1 : Finset FuncId)
      (recs : List FuncId), (∀ g, some g ∈ l → A.doesNotRecurse g = true) →
      collectCallees A call l env hist acc = .ret (env1, hist1, recs) → recs = acc := by
  intro l
  induction l with
  | nil =>
    intro env hist acc env1 hist1 recs _ h
    simp only [collectCallees, Outcome.ret.injEq, Prod.mk.injEq] at h
    exact h.2.2.symm
  | cons c rest ih =>
    intro env hist acc env1 hist1 recs hall h
    have hrest : ∀ g, some g ∈ rest → A.doesNotRecurse g = true :=
      fun g hg => hall g (List.mem_cons_of_mem _ hg)
    cases c with
    | none =>
      rw [collectCallees] at h
      exact ih _ _ _ _ _ _ hrest h
    | some g =>
      have hg := hall g (List.mem_cons_self _ _)
      rw [collectCallees] at h
      rw [if_pos hg] at h
      split at h
      · cases hc : call env g hist true with
        | ret r =>
          obtain ⟨e2, h2⟩ := r
          rw [hc] at h
          simp only at h
          split at h
          · exact ih _ _ _ _ _ _ hrest h
          · cases h
        | assertion_failed => rw [hc] at h; cases h
        | out_of_fuel => rw [hc] at h; cases h
      · exact ih _ _ _ _ _ _ hrest h

theorem AnalyzeFunctionAux_converged_of_dependencies {Store : Type} (A : Analysis Store)
    (env : SummaryEnvironment Store) (f : FuncId) :
    (AnalyzeFunctionAux A env f true f).converged = true := by
  by_cases hc : (env f).converged = true
  · have : AnalyzeFunctionAux A env f true = env := by
      unfold AnalyzeFunctionAux
      simp [hc]
    rw [this]
    exact hc
  · have hnc : (env f).converged = false := by simpa using hc
    rw [AnalyzeFunctionAux_converged A env f true hnc]
    simp

theorem AnalyzeFunctionAux_chainEnv (x : FuncId) :
    AnalyzeFunctionAux chainAnalysis chainEnv x false = chainEnv := by
  funext g
  by_cases hg : g = x
  · subst hg
    simp [AnalyzeFunctionAux, chainEnv, chainAnalysis, listAnalysis, emptyResult,
      SummaryEnvironment.set]
  · simp [AnalyzeFunctionAux, chainEnv, chainAnalysis, listAnalysis, emptyResult,
      SummaryEnvironment.set, hg]

theorem chain_recursive_call (k : Nat) :
    AnalyzeFunctionRecursive chainAnalysis k chainEnv 2 (insert 1 ∅) false = .out_of_fuel ∨
      AnalyzeFunctionRecursive chainAnalysis k chainEnv 2 (insert 1 ∅) false =
        .ret (chainEnv, insert 1 ∅) := by
  have hnot : (2 : FuncId) ∉ (insert 1 ∅ : Finset FuncId) := by decide
  have hcallees : collectCallees chainAnalysis
      (AnalyzeFunctionRecursive chainAnalysis 0) (chainEnv 2).called_functions chainEnv
      (insert 1 ∅) [] = .ret (chainEnv, insert 1 ∅, [2]) := by
    simp [collectCallees, chainEnv, chainAnalysis]
  cases k with
  | zero => exact Or.inl rfl
  | succ k =>
    cases k with
    | zero =>
      left
      rw [AnalyzeFunctionRecursive, if_neg hnot, hcallees]
      rfl
    | succ m =>
      right
      have hcallees1 : collectCallees chainAnalysis
          (AnalyzeFunctionRecursive chainAnalysis (m + 1)) (chainEnv 2).called_functions chainEnv
          (insert 1 ∅) [] = .ret (chainEnv, insert 1 ∅, [2]) := by
        simp [collectCallees, chainEnv, chainAnalysis]
      have hself : AnalyzeFunctionRecursive chainAnalysis (m + 1) chainEnv 2
          (insert 2 (insert 1 ∅)) false = .ret (chainEnv, insert 2 (insert 1 ∅)) := by
        rw [AnalyzeFunctionRecursive, if_pos (Finset.mem_insert_self _ _)]
      have hnc : (chainEnv 2).converged = false := rfl
      rw [AnalyzeFunctionRecursive, if_neg hnot, hcallees1]
      simp only [convergeLoop, analyzeRecursiveCallees, hnc, Bool.not_false, if_true, hself,
        Bool.and_false, AnalyzeFunctionAux_chainEnv, Bool.false_and, Bool.false_eq_true,
        if_false]
      rw [Finset.erase_insert hnot]

theorem chain_loop (fuel : Nat) :
    ∀ iterations, convergeLoop chainAnalysis (AnalyzeFunctionRecursive chainAnalysis fuel) 1 [2]
      true iterations chainEnv (insert 1 ∅) = .out_of_fuel := by
  intro iterations
  induction iterations with
  | zero => rfl
  | succ m ih =>
    have hnc : (chainEnv 2).converged = false := rfl
    have hnc1 : (chainEnv 1).converged = false := rfl
    rw [convergeLoop]
    rcases chain_recursive_call fuel with h | h
    · simp only [analyzeRecursiveCallees, hnc, Bool.not_false, if_true, h]
    · simp only [analyzeRecursiveCallees, hnc, Bool.not_false, if_true, h, Bool.and_false,
        AnalyzeFunctionAux_chainEnv, hnc1, Bool.and_self]
      exact ih

theorem chain_callee_diverges (n : Nat) :
    AnalyzeFunctionRecursive chainAnalysis n chainEnv 1 ∅ true = .out_of_fuel := by
  cases n with
  | zero => rfl
  | succ k =>
    have hcallees : collectCallees chainAnalysis
        (AnalyzeFunctionRecursive chainAnalysis k) (chainEnv 1).called_functions chainEnv ∅ []
        = .ret (chainEnv, ∅, [2]) := by
      simp [collectCallees, chainEnv, chainAnalysis]
    rw [AnalyzeFunctionRecursive, if_neg (Finset.not_mem_empty 1), hcallees]
    simp only [chain_loop k k]

theorem chain_callee_phase (n : Nat) :
    collectCallees chainAnalysis (AnalyzeFunctionRecursive chainAnalysis n)
      (chainEnv 0).called_functions chainEnv ∅ [] = .out_of_fuel := by
  have hcalls : (chainEnv 0).called_functions = [some 1] := rfl
  have hrec : chainAnalysis.doesNotRecurse 1 = true := rfl
  have hnc : (chainEnv 1).converged = false := rfl
  rw [hcalls, collectCallees, if_pos hrec]
  simp only [hnc, Bool.not_false, if_true, chain_callee_diverges n]

/-- Claim C26 (code defect): for a function `f` that is not on the call chain and
each of whose callees has `doesNotRecurse`: when the first loop (the analysis of
these callees) returns the environment `env1`, `AnalyzeFunctionRecursive`
returns after one call of `AnalyzeFunctionAux` on `f`, with
`dependencies_converged = true`, whatever `expect_converge`, the result store
and `EqualAbstractStore` are, and the summary is converged; but when the
analysis of a callee never returns, `AnalyzeFunctionRecursive` never returns
either: `f` gets no pass and its summary is never marked converged. -/
theorem single_pass_without_recursive_callee {Store : Type} (A : Analysis Store)
    (env : SummaryEnvironment Store) (f : FuncId) (history : Finset FuncId)
    (expect_converge : Bool) (hf : f ∉ history)
    (hcallees : ∀ g, some g ∈ (env f).called_functions → A.doesNotRecurse g = true) :
    (∀ n env1 history1 recursive_summaries,
        collectCallees A (AnalyzeFunctionRecursive A (n + 1)) (env f).called_functions env
          history [] = .ret (env1, history1, recursive_summaries) →
        AnalyzeFunctionRecursive A (n + 2) env f history expect_converge =
            .ret (AnalyzeFunctionAux A env1 f true, history) ∧
          recursive_summaries = [] ∧
          (AnalyzeFunctionAux A env1 f true f).converged = true ∧
          ((env1 f).converged = false →
            (AnalyzeFunctionAux A env1 f true f).store = A.ExportResultStore env1 f)) ∧
      ((∀ n, collectCallees A (AnalyzeFunctionRecursive A n) (env f).called_functions env
          history [] = .out_of_fuel) →
        ∀ n, AnalyzeFunctionRecursive A n env f history expect_converge = .out_of_fuel) := by
  refine ⟨?_, ?_⟩
  · intro n env1 history1 recursive_summaries hfirst
    have hrecs := collectCallees_no_recursive A _ _ _ _ _ _ _ _ hcallees hfirst
    have hhist := collectCallees_history A (AnalyzeFunctionRecursive A (n + 1))
      (AnalyzeFunctionRecursive_history A (n + 1)) _ _ _ _ _ _ _ hfirst
    subst hrecs
    subst hhist
    have hconv := AnalyzeFunctionAux_converged_of_dependencies A env1 f
    refine ⟨?_, rfl, hconv, fun hnc => AnalyzeFunctionAux_store A env1 f true hnc⟩
    rw [AnalyzeFunctionRecursive, if_neg hf, hfirst]
    simp only [convergeLoop, analyzeRecursiveCallees, hconv, Bool.not_true, Bool.and_false,
      Bool.false_eq_true, if_false]
    rw [Finset.erase_insert hf]
  · intro hphase n
    cases n with
    | zero => rfl
    | succ k => rw [AnalyzeFunctionRecursive, if_neg hf, hphase k]

/-- Instance of C26: the chain `f -> g -> h -> h` with empty result stores, where
only `g` is marked `doesNotRecurse`: `f` (the function 0) is not converged, is
not on the call chain and has the one callee `g`, and the driver does not
return on `f` within any number of activations and iterations, because the
loop of `g` waits for the self-recursive `h`, whose empty store never lets it
converge. -/
theorem single_pass_without_recursive_callee_witness :
    (chainEnv 0).converged = false ∧ (0 : FuncId) ∉ (∅ : Finset FuncId) ∧
      (∀ g, some g ∈ (chainEnv 0).called_functions → chainAnalysis.doesNotRecurse g = true) ∧
      ∀ n, AnalyzeFunctionRecursive chainAnalysis n chainEnv 0 ∅ true = .out_of_fuel :=
  ⟨rfl, Finset.not_mem_empty 0, by intro g hg; simp [chainEnv] at hg; subst hg; rfl,
    (single_pass_without_recursive_callee chainAnalysis chainEnv 0 ∅ true
      (Finset.not_mem_empty 0)
      (by intro g hg; simp [chainEnv] at hg; subst hg; rfl)).2 chain_callee_phase⟩


/-! ## Data dependencies of a load -/

/-- Claim C23 (code defect): for a load `L` whose pointer has the two locations
`l1` and `l2`, each with a contribution from the same source `src`, the
constraint that `AnalyzeBlock_DataDep` records for `(L, src)` is
`c_l2 && c_contrib(l2, src)` alone, the dependency of the location visited
last, and not the disjunction over both locations: the assignment to
`data_dep_result_[(L, src)]` replaces what the first location recorded. -/
theorem recordLoadDependencies_keeps_last {C : Type} (conj : C → C → C) (TestSat : C → Bool)
    (graph : List (AbstractLocation × List (ValueId × C))) (load_inst : InstId)
    (l1 l2 : AbstractLocation) (c1 c2 k1 k2 : C) (src : ValueId)
    (data_dep_result_ : List ((InstId × ValueId) × C))
    (h1 : Assoc.find graph l1 = some [(src, k1)])
    (h2 : Assoc.find graph l2 = some [(src, k2)])
    (hsat1 : TestSat (conj c1 k1) = true) (hsat2 : TestSat (conj c2 k2) = true) :
    Assoc.find (recordLoadDependencies conj TestSat graph load_inst [(l1, c1)] data_dep_result_)
        (load_inst, src) = some (conj c1 k1) ∧
      Assoc.find
        (recordLoadDependencies conj TestSat graph load_inst [(l1, c1), (l2, c2)]
          data_dep_result_) (load_inst, src) = some (conj c2 k2) := by
  simp only [recordLoadDependencies, List.foldl_cons, List.foldl_nil, h1, h2, Option.getD_some,
    hsat1, hsat2, if_true]
  exact ⟨Assoc.find_assign_self _ _ _, Assoc.find_assign_self _ _ _⟩

/-- Instance of C23 with constraints over one boolean variable, given by their
truth table: the pointer of load 7 is location `Stack 1` when the variable holds
and `Stack 2` when it does not, and store 5 contributes to both. The recorded
constraint is "the variable does not hold", while the disjunction over the two
locations is the constant true. -/
theorem recordLoadDependencies_keeps_last_witness :
    (Assoc.find
        (recordLoadDependencies (fun a b : Bool × Bool => (a.1 && b.1, a.2 && b.2))
          (fun c => c.1 || c.2)
          [(AbstractLocation.Stack 1, [(5, (true, true))]),
            (AbstractLocation.Stack 2, [(5, (true, true))])] 7
          [(AbstractLocation.Stack 1, (false, true))] []) (7, 5) = some (false, true) ∧
      Assoc.find
        (recordLoadDependencies (fun a b : Bool × Bool => (a.1 && b.1, a.2 && b.2))
          (fun c => c.1 || c.2)
          [(AbstractLocation.Stack 1, [(5, (true, true))]),
            (AbstractLocation.Stack 2, [(5, (true, true))])] 7
          [(AbstractLocation.Stack 1, (false, true)), (AbstractLocation.Stack 2, (true, false))]
          []) (7, 5) = some (true, false)) ∧
      ((true, false) : Bool × Bool) ≠
        ((false && true) || (true && true), (true && true) || (false && true)) :=
  ⟨recordLoadDependencies_keeps_last _ _ _ 7 (AbstractLocation.Stack 1)
      (AbstractLocation.Stack 2) (false, true) (true, false) (true, true) (true, true) 5 []
      (by decide) (by decide) (by decide) (by decide),
    by decide⟩


/-! ## The block worklist -/

theorem enqueueSuccessors_worklist (succs : List BlockId)
    (queue : List BlockId × Finset BlockId) :
    ∃ extra, (enqueueSuccessors succs queue).1 = queue.1 ++ extra ∧
      (∀ x ∈ extra, x ∈ succs) ∧ extra.length ≤ succs.length := by
  induction succs generalizing queue with
  | nil => exact ⟨[], by simp [enqueueSuccessors], by simp, by simp⟩
  | cons s rest ih =>
    unfold enqueueSuccessors
    rw [List.foldl_cons]
    by_cases hs : s ∈ queue.2
    · rw [if_pos hs]
      obtain ⟨extra, h1, h2, h3⟩ := ih queue
      refine ⟨extra, h1, fun x hx => List.mem_cons_of_mem _ (h2 x hx), ?_⟩
      simp only [List.length_cons]
      omega
    · rw [if_neg hs]
      obtain ⟨extra, h1, h2, h3⟩ := ih (queue.1 ++ [s], insert s queue.2)
      refine ⟨s :: extra, ?_, ?_, ?_⟩
      · have h1 : (enqueueSuccessors rest (queue.1 ++ [s], insert s queue.2)).1 =
            queue.1 ++ [s] ++ extra := h1
        simpa using h1
      · intro x hx
        rcases List.mem_cons.1 hx with hx | hx
        · exact hx ▸ List.mem_cons_self _ _
        · exact List.mem_cons_of_mem _ (h2 x hx)
      · simp only [List.length_cons]
        omega

theorem enqueueSuccessors_consistent (succs : List BlockId)
    (queue : List BlockId × Finset BlockId) (h : QueueConsistent queue) :
    QueueConsistent (enqueueSuccessors succs queue) := by
  induction succs generalizing queue with
  | nil => exact h
  | cons s rest ih =>
    unfold enqueueSuccessors
    rw [List.foldl_cons]
    by_cases hs : s ∈ queue.2
    · rw [if_pos hs]
      exact ih queue h
    · rw [if_neg hs]
      apply ih
      refine ⟨?_, ?_⟩
      · have hn : s ∉ queue.1 := fun hm => hs ((h.2 s).2 hm)
        exact List.Nodup.append h.1 (List.nodup_singleton s)
          (by
            intro x hx hx1
            rw [List.mem_singleton] at hx1
            exact hn (hx1 ▸ hx))
      · intro b
        simp only [Finset.mem_insert, List.mem_append, List.mem_singleton, h.2 b]
        exact Or.comm

theorem AnalyzeBlock_cache {C ρ : Type} (P : BlockAnalysis C ρ) (ctx : BlockContext C ρ)
    (bb : BlockId) :
    (AnalyzeBlock P ctx bb).1.exec_store_cache_ =
      Assoc.assign ctx.exec_store_cache_ bb (P.execute ctx.rest ctx.exec_store_cache_ bb).2 := by
  simp only [AnalyzeBlock, CommitExecution]
  cases Assoc.find ctx.exec_store_cache_ bb with
  | none => rfl
  | some old =>
    simp only
    split <;> rfl

theorem AnalyzeBlock_first_run {C ρ : Type} (P : BlockAnalysis C ρ) (ctx : BlockContext C ρ)
    (bb : BlockId) (h : Assoc.find ctx.exec_store_cache_ bb = none) :
    (AnalyzeBlock P ctx bb).2 = true := by
  simp only [AnalyzeBlock, CommitExecution, h]

theorem worklistStep_nil {C ρ : Type} (P : BlockAnalysis C ρ) (st : WorklistState C ρ)
    (h : st.worklist = []) : worklistStep P st = none := by
  simp only [worklistStep, h]

theorem worklistStep_cons {C ρ : Type} (P : BlockAnalysis C ρ) (st : WorklistState C ρ)
    (bb : BlockId) (wl : List BlockId) (h : st.worklist = bb :: wl) :
    ∃ st1 extra, worklistStep P st = some st1 ∧ st1.worklist = wl ++ extra ∧
      st1.ctx = (AnalyzeBlock P st.ctx bb).1 ∧ (∀ x ∈ extra, x ∈ P.successors bb) ∧
      extra.length ≤ (P.successors bb).length ∧
      ((AnalyzeBlock P st.ctx bb).2 = false → extra = []) := by
  simp only [worklistStep, h]
  by_cases ha : (AnalyzeBlock P st.ctx bb).2 = true
  · obtain ⟨extra, h1, h2, h3⟩ :=
      enqueueSuccessors_worklist (P.successors bb) (wl, st.workset.erase bb)
    rw [if_pos ha]
    exact ⟨_, extra, rfl, h1, rfl, h2, h3, fun hf => by rw [ha] at hf; cases hf⟩
  · rw [if_neg ha]
    exact ⟨_, [], rfl, by simp, rfl, by simp, by simp, fun _ => rfl⟩

theorem worklistStep_consistent {C ρ : Type} (P : BlockAnalysis C ρ)
    (st st1 : WorklistState C ρ) (h : QueueConsistent (st.worklist, st.workset))
    (hstep : worklistStep P st = some st1) : QueueConsistent (st1.worklist, st1.workset) := by
  unfold worklistStep at hstep
  obtain ⟨hnd, hset⟩ := h
  simp only at hnd hset
  cases hw : st.worklist with
  | nil => simp [hw] at hstep
  | cons bb wl =>
    rw [hw] at hnd hset
    have hq : QueueConsistent (wl, st.workset.erase bb) := by
      refine ⟨(List.nodup_cons.1 hnd).2, ?_⟩
      intro b
      simp only [Finset.mem_erase, hset b, List.mem_cons]
      constructor
      · rintro ⟨hne, h1 | h1⟩
        · exact absurd h1 hne
        · exact h1
      · intro h1
        exact ⟨fun he => (List.nodup_cons.1 hnd).1 (he ▸ h1), Or.inr h1⟩
    simp only [hw] at hstep
    split at hstep
    · cases hstep
      exact enqueueSuccessors_consistent _ _ hq
    · cases hstep
      exact hq


theorem worklistLoop_cached {C ρ : Type} (P : BlockAnalysis C ρ) :
    ∀ (fuel : Nat) (st : WorklistState C ρ) (ctx : BlockContext C ρ),
      worklistLoop P fuel st = some ctx →
      ∀ b, (b ∈ st.worklist ∨ (Assoc.find st.ctx.exec_store_cache_ b).isSome = true) →
        (Assoc.find ctx.exec_store_cache_ b).isSome = true := by
  intro fuel
  induction fuel with
  | zero => intro st ctx h; cases h
  | succ n ih =>
    intro st ctx h b hb
    cases hw : st.worklist with
    | nil =>
      rw [worklistLoop, worklistStep_nil P st hw] at h
      cases h
      rcases hb with hb | hb
      · rw [hw] at hb
        cases hb
      · exact hb
    | cons bb wl =>
      obtain ⟨st1, extra, hstep, hwl, hctx, -, -, -⟩ := worklistStep_cons P st bb wl hw
      rw [worklistLoop, hstep] at h
      apply ih st1 ctx h b
      by_cases hbb : b = bb
      · right
        rw [hctx, AnalyzeBlock_cache, hbb, Assoc.find_assign_self]
        rfl
      · rcases hb with hb | hb
        · left
          rw [hw] at hb
          rw [hwl]
          rcases List.mem_cons.1 hb with hb | hb
          · exact absurd hb hbb
          · exact List.mem_append_left _ hb
        · right
          rw [hctx, AnalyzeBlock_cache, Assoc.find_assign_ne _ _ hbb]
          exact hb

theorem analysedBlocks_prefix {C ρ : Type} (P : BlockAnalysis C ρ) :
    ∀ (l extra : List BlockId) (st : WorklistState C ρ), st.worklist = l ++ extra →
      analysedBlocks P l.length st = l := by
  intro l
  induction l with
  | nil => intro extra st _; rfl
  | cons b rest ih =>
    intro extra st h
    obtain ⟨st1, extra1, hstep, hwl, -, -, -, -⟩ :=
      worklistStep_cons P st b (rest ++ extra) (by simpa using h)
    simp only [List.length_cons, analysedBlocks, h, List.cons_append, List.head?_cons, hstep]
    rw [ih (extra ++ extra1) st1 (by rw [hwl, List.append_assoc])]

theorem worklistAfter_consistent {C ρ : Type} (P : BlockAnalysis C ρ) :
    ∀ (n : Nat) (st : WorklistState C ρ), QueueConsistent (st.worklist, st.workset) →
      QueueConsistent ((worklistAfter P n st).worklist, (worklistAfter P n st).workset) := by
  intro n
  induction n with
  | zero => intro st h; exact h
  | succ n ih =>
    intro st h
    rw [worklistAfter]
    cases hstep : worklistStep P st with
    | none => exact h
    | some st1 => exact ih st1 (worklistStep_consistent P st st1 h hstep)

theorem worklistInit_consistent {C ρ : Type} (blocks : List BlockId) (rest : ρ)
    (hnd : blocks.Nodup) :
    QueueConsistent ((worklistInit blocks rest : WorklistState C ρ).worklist,
      (worklistInit blocks rest : WorklistState C ρ).workset) :=
  ⟨hnd, fun _ => List.mem_toFinset⟩

/-- Claim C27: when the worklist loop of `AnalyzeFunctionAux` ends, every block of
the function has been analysed and has a cached store; the first `|blocks|`
analyses visit the blocks in function order; the worklist never holds a block
twice; and, for a function with at least one block, the lookup of the last
block by `BuildResultStore` succeeds. -/
theorem worklist_postcondition {C ρ : Type} (P : BlockAnalysis C ρ) (blocks : List BlockId)
    (rest : ρ) (fuel : Nat) (ctx : BlockContext C ρ) (hnd : blocks.Nodup)
    (hloop : worklistLoop P fuel (worklistInit blocks rest) = some ctx) :
    (∀ b ∈ blocks, b ∈ analysedBlocks P blocks.length (worklistInit blocks rest) ∧
        (Assoc.find ctx.exec_store_cache_ b).isSome = true) ∧
      analysedBlocks P blocks.length (worklistInit blocks rest) = blocks ∧
      (∀ n, (worklistAfter P n (worklistInit blocks rest)).worklist.Nodup) ∧
      (∀ (hne : blocks ≠ []) (TestSat : C → Bool) (Simplify : C → C)
          (regfile_ : AbstractRegFile C),
        ∃ result, BuildResultStore TestSat Simplify (Assoc.find ctx.exec_store_cache_)
          (blocks.getLast hne) regfile_ = some result) := by
  have hfront : analysedBlocks P blocks.length (worklistInit blocks rest) = blocks :=
    analysedBlocks_prefix P blocks [] _ (by simp [worklistInit])
  have hcached : ∀ b ∈ blocks, (Assoc.find ctx.exec_store_cache_ b).isSome = true :=
    fun b hb => worklistLoop_cached P fuel _ ctx hloop b (Or.inl hb)
  refine ⟨fun b hb => ⟨by rw [hfront]; exact hb, hcached b hb⟩, hfront, ?_, ?_⟩
  · intro n
    exact (worklistAfter_consistent P n _ (worklistInit_consistent blocks rest hnd)).1
  · intro hne TestSat Simplify regfile_
    have h := hcached _ (List.getLast_mem hne)
    obtain ⟨cached, hc⟩ := Option.isSome_iff_exists.1 h
    simp only [BuildResultStore, hc]
    exact ⟨_, rfl⟩

/-- Instance of C27: the three blocks `0 -> 1 -> 2` with the loop edge `1 -> 1`;
the loop ends within seven iterations. -/
theorem worklist_postcondition_witness :
    [0, 1, 2].Nodup ∧
      worklistLoop chainBlocks 7 (worklistInit [0, 1, 2] ()) =
        some { exec_store_cache_ := [(0, []), (1, []), (2, [])], rest := () } ∧
      ((∀ b ∈ [0, 1, 2], b ∈ analysedBlocks chainBlocks [0, 1, 2].length
            (worklistInit [0, 1, 2] ()) ∧
          (Assoc.find
            ({ exec_store_cache_ := [(0, []), (1, []), (2, [])], rest := () } :
              BlockContext Bool Unit).exec_store_cache_ b).isSome = true) ∧
        analysedBlocks chainBlocks [0, 1, 2].length (worklistInit [0, 1, 2] ()) = [0, 1, 2] ∧
        (∀ n, (worklistAfter chainBlocks n (worklistInit [0, 1, 2] ())).worklist.Nodup) ∧
        (∀ (hne : [0, 1, 2] ≠ []) (TestSat : Bool → Bool) (Simplify : Bool → Bool)
            (regfile_ : AbstractRegFile Bool),
          ∃ result, BuildResultStore TestSat Simplify
            (Assoc.find ({ exec_store_cache_ := [(0, []), (1, []), (2, [])], rest := () } :
              BlockContext Bool Unit).exec_store_cache_)
            (([0, 1, 2] : List BlockId).getLast hne) regfile_ = some result)) :=
  ⟨by decide, rfl,
    worklist_postcondition chainBlocks [0, 1, 2] () 7 _ (by decide) rfl⟩


theorem Assoc.keys_assign_of_find_none {K V : Type} [DecidableEq K] (m : List (K × V)) (k : K)
    (v : V) (h : Assoc.find m k = none) : Assoc.keys (Assoc.assign m k v) = Assoc.keys m ++ [k] := by
  induction m with
  | nil => rfl
  | cons e rest ih =>
    obtain ⟨k2, v2⟩ := e
    by_cases h2 : k2 = k
    · simp [Assoc.find, h2] at h
    · simp only [Assoc.find, h2, if_false] at h
      have ih := ih h
      unfold Assoc.keys at ih
      simp only [Assoc.assign, h2, if_false, Assoc.keys, List.map_cons, List.cons_append, ih]

theorem Assoc.keys_assign_of_find_some {K V : Type} [DecidableEq K] (m : List (K × V)) (k : K)
    (v v0 : V) (h : Assoc.find m k = some v0) : Assoc.keys (Assoc.assign m k v) = Assoc.keys m := by
  induction m with
  | nil => cases h
  | cons e rest ih =>
    obtain ⟨k2, v2⟩ := e
    by_cases h2 : k2 = k
    · simp [Assoc.assign, Assoc.keys, h2]
    · simp only [Assoc.find, h2, if_false] at h
      have ih := ih h
      unfold Assoc.keys at ih
      simp only [Assoc.assign, h2, if_false, Assoc.keys, List.map_cons, ih]

theorem le_maxSuccessors {C ρ : Type} (P : BlockAnalysis C ρ) (blocks : List BlockId)
    (b : BlockId) (hb : b ∈ blocks) : (P.successors b).length ≤ maxSuccessors P blocks := by
  induction blocks with
  | nil => cases hb
  | cons x rest ih =>
    simp only [maxSuccessors, List.foldr_cons]
    rcases List.mem_cons.1 hb with h | h
    · rw [h]
      exact le_max_left _ _
    · exact le_trans (ih h) (le_max_right _ _)

theorem AnalyzeBlock_cached_run {C ρ : Type} (P : BlockAnalysis C ρ) (ctx : BlockContext C ρ)
    (bb : BlockId) (old : AbstractStore C) (h : Assoc.find ctx.exec_store_cache_ bb = some old) :
    (AnalyzeBlock P ctx bb).2 =
      P.TestStoreUpdate (P.execute ctx.rest ctx.exec_store_cache_ bb).2 old := by
  simp only [AnalyzeBlock, CommitExecution, h]
  split
  · rename_i ht
    exact ht.symm
  · rename_i ht
    simp only [Bool.not_eq_true] at ht
    exact ht.symm

theorem worklistStep_within {C ρ : Type} (P : BlockAnalysis C ρ) (blocks : List BlockId)
    (hclosed : ∀ b ∈ blocks, ∀ s ∈ P.successors b, s ∈ blocks)
    (st st1 : WorklistState C ρ) (h : WithinFunction blocks st)
    (hstep : worklistStep P st = some st1) : WithinFunction blocks st1 := by
  obtain ⟨hwl, hnd, hkeys⟩ := h
  cases hw : st.worklist with
  | nil => rw [worklistStep_nil P st hw] at hstep; cases hstep
  | cons bb wl =>
    obtain ⟨st2, extra, hstep2, hwl2, hctx, hextra, -, -⟩ := worklistStep_cons P st bb wl hw
    rw [hstep2] at hstep
    cases hstep
    have hbb : bb ∈ blocks := hwl bb (by rw [hw]; exact List.mem_cons_self _ _)
    refine ⟨?_, ?_, ?_⟩
    · intro b hb
      rw [hwl2] at hb
      rcases List.mem_append.1 hb with hb | hb
      · exact hwl b (by rw [hw]; exact List.mem_cons_of_mem _ hb)
      · exact hclosed bb hbb b (hextra b hb)
    · rw [hctx, AnalyzeBlock_cache]
      cases hf : Assoc.find st.ctx.exec_store_cache_ bb with
      | none =>
        rw [Assoc.keys_assign_of_find_none _ _ _ hf]
        have hn : bb ∉ Assoc.keys st.ctx.exec_store_cache_ := (Assoc.find_eq_none_iff _ _).1 hf
        exact List.Nodup.append hnd (List.nodup_singleton bb)
          (by
            intro x hx hx1
            rw [List.mem_singleton] at hx1
            exact hn (hx1 ▸ hx))
      | some old =>
        rw [Assoc.keys_assign_of_find_some _ _ _ old hf]
        exact hnd
    · intro b hb
      rw [hctx, AnalyzeBlock_cache, Assoc.mem_keys_assign] at hb
      rcases hb with hb | hb
      · exact hb ▸ hbb
      · exact hkeys b hb


theorem worklistLoop_bound {C ρ : Type} (P : BlockAnalysis C ρ) (blocks : List BlockId)
    (hclosed : ∀ b ∈ blocks, ∀ s ∈ P.successors b, s ∈ blocks) :
    ∀ (n : Nat) (st : WorklistState C ρ), WithinFunction blocks st →
      worklistLoop P n st = none →
      n ≤ st.worklist.length + maxSuccessors P blocks *
        (changedAgainCount P n st +
          (blocks.length - (Assoc.keys st.ctx.exec_store_cache_).length)) := by
  intro n
  induction n with
  | zero => intro st _ _; exact Nat.zero_le _
  | succ n ih =>
    intro st hin hloop
    cases hw : st.worklist with
    | nil => rw [worklistLoop, worklistStep_nil P st hw] at hloop; cases hloop
    | cons bb wl =>
      obtain ⟨st1, extra, hstep, hwl, hctx, -, hlen, hfalse⟩ := worklistStep_cons P st bb wl hw
      rw [worklistLoop, hstep] at hloop
      have hin1 := worklistStep_within P blocks hclosed st st1 hin hstep
      have ih1 := ih st1 hin1 hloop
      have hbb : bb ∈ blocks := hin.1 bb (by rw [hw]; exact List.mem_cons_self _ _)
      have hd : extra.length ≤ maxSuccessors P blocks :=
        le_trans hlen (le_maxSuccessors P blocks bb hbb)
      have hk1 : (Assoc.keys st1.ctx.exec_store_cache_).length ≤ blocks.length :=
        (hin1.2.1.subperm hin1.2.2).length_le
      have hcount : changedAgainCount P (n + 1) st =
          (if ((Assoc.find st.ctx.exec_store_cache_ bb).isSome &&
              (AnalyzeBlock P st.ctx bb).2) = true then 1 else 0) +
            changedAgainCount P n st1 := by
        simp only [changedAgainCount, hw, List.head?_cons, hstep]
      rw [hcount]
      rw [hwl, List.length_append] at ih1
      rw [hctx, AnalyzeBlock_cache] at ih1 hk1
      simp only [List.length_cons]
      cases hf : Assoc.find st.ctx.exec_store_cache_ bb with
      | none =>
        rw [Assoc.keys_assign_of_find_none _ _ _ hf, List.length_append] at ih1 hk1
        simp only [List.length_singleton] at ih1 hk1
        simp only [Option.isSome_none, Bool.false_and, Bool.false_eq_true, if_false, Nat.zero_add]
        have hx : changedAgainCount P n st1 +
            (blocks.length - (Assoc.keys st.ctx.exec_store_cache_).length) =
            (changedAgainCount P n st1 +
              (blocks.length - ((Assoc.keys st.ctx.exec_store_cache_).length + 1))) + 1 := by
          omega
        rw [hx, Nat.mul_succ]
        omega
      | some old =>
        rw [Assoc.keys_assign_of_find_some _ _ _ old hf] at ih1 hk1
        simp only [Option.isSome_some, Bool.true_and]
        by_cases ha : (AnalyzeBlock P st.ctx bb).2 = true
        · rw [if_pos ha]
          have hx : 1 + changedAgainCount P n st1 +
              (blocks.length - (Assoc.keys st.ctx.exec_store_cache_).length) =
              (changedAgainCount P n st1 +
                (blocks.length - (Assoc.keys st.ctx.exec_store_cache_).length)) + 1 := by
            omega
          rw [hx, Nat.mul_succ]
          omega
        · rw [if_neg ha, Nat.zero_add]
          have he : extra = [] := hfalse (by simpa using ha)
          rw [he] at ih1
          simp only [List.length_nil] at ih1
          omega

theorem changedAgainCount_chainBlocks :
    ∀ (n : Nat) (st : WorklistState Bool Unit), changedAgainCount chainBlocks n st = 0 := by
  intro n
  induction n with
  | zero => intro st; rfl
  | succ n ih =>
    intro st
    cases hw : st.worklist with
    | nil => simp only [changedAgainCount, hw, List.head?_nil]
    | cons bb wl =>
      obtain ⟨st1, extra, hstep, -, -, -, -, -⟩ := worklistStep_cons chainBlocks st bb wl hw
      simp only [changedAgainCount, hw, List.head?_cons, hstep, ih st1]
      cases hf : Assoc.find st.ctx.exec_store_cache_ bb with
      | none => simp
      | some old =>
        rw [AnalyzeBlock_cached_run chainBlocks st.ctx bb old hf]
        simp [chainBlocks]

/-- Claim C21: the worklist loop of `AnalyzeFunctionAux` terminates when the
number of iterations in which `AnalyzeBlock` reports a change for a block
that has been run before is bounded (each block is reported changed after its
first run only finitely often). The blocks of the function are closed under
successors. -/
theorem worklist_terminates {C ρ : Type} (P : BlockAnalysis C ρ) (blocks : List BlockId)
    (rest : ρ) (N : Nat)
    (hclosed : ∀ b ∈ blocks, ∀ s ∈ P.successors b, s ∈ blocks)
    (hfin : ∀ n, changedAgainCount P n (worklistInit blocks rest) ≤ N) :
    ∃ fuel ctx, fuel ≤ blocks.length + maxSuccessors P blocks * (N + blocks.length) + 1 ∧
      worklistLoop P fuel (worklistInit blocks rest) = some ctx := by
  refine ⟨blocks.length + maxSuccessors P blocks * (N + blocks.length) + 1, ?_⟩
  cases hl : worklistLoop P
      (blocks.length + maxSuccessors P blocks * (N + blocks.length) + 1)
      (worklistInit blocks rest) with
  | some ctx => exact ⟨ctx, le_refl _, rfl⟩
  | none =>
    exfalso
    have hin : WithinFunction blocks (worklistInit blocks rest : WorklistState C ρ) :=
      ⟨fun b hb => hb, List.nodup_nil, fun b hb => by cases hb⟩
    have hb := worklistLoop_bound P blocks hclosed _ _ hin hl
    have hN := hfin (blocks.length + maxSuccessors P blocks * (N + blocks.length) + 1)
    have hmul : maxSuccessors P blocks *
        (changedAgainCount P
            (blocks.length + maxSuccessors P blocks * (N + blocks.length) + 1)
            (worklistInit blocks rest) +
          (blocks.length -
            (Assoc.keys (worklistInit blocks rest : WorklistState C ρ).ctx.exec_store_cache_).length)) ≤
        maxSuccessors P blocks * (N + blocks.length) :=
      Nat.mul_le_mul_left _ (Nat.add_le_add hN (Nat.sub_le _ _))
    have hlen : (worklistInit blocks rest : WorklistState C ρ).worklist.length = blocks.length :=
      rfl
    omega

/-- Instance of C21: the three blocks `0 -> 1 -> 2` with the loop edge `1 -> 1`,
where no block is reported changed after its first run. -/
theorem worklist_terminates_witness :
    (∀ b ∈ [0, 1, 2], ∀ s ∈ chainBlocks.successors b, s ∈ [0, 1, 2]) ∧
      (∀ n, changedAgainCount chainBlocks n (worklistInit [0, 1, 2] ()) ≤ 0) ∧
      ∃ fuel ctx,
        fuel ≤ [0, 1, 2].length + maxSuccessors chainBlocks [0, 1, 2] * (0 + [0, 1, 2].length) + 1 ∧
        worklistLoop chainBlocks fuel (worklistInit [0, 1, 2] ()) = some ctx :=
  ⟨by decide, fun n => le_of_eq (changedAgainCount_chainBlocks n _),
    worklist_terminates chainBlocks [0, 1, 2] () 0 (by decide)
      (fun n => le_of_eq (changedAgainCount_chainBlocks n _))⟩

end mh
